import Mathlib

/-! Optima: the Canonicalizer and the numeric helpers it calls.

A shallow embedding of `Optima/Canonicalizer.cpp` and of the parts of
`Optima/Utils.cpp` it calls, in exact arithmetic: every `double` is a rational
number, `-infinity()` is the bottom element of `WithBot ℚ`, a dense Eigen matrix
is a shape together with a coefficient function, and an index vector is a list of
natural numbers.  An `assert` that fails makes the operation return `none`.

Two library routines are not part of the repository and enter as parameters:
the full-pivoting LU decomposition (`Eigen::FullPivLU`, a function from the
matrix to the decomposition object, constrained by `IsFullPivLU`) and `std::sort`
(a `StdSort`, any function that meets the contract of the C++ standard).
The triangular solves of Eigen are written out as in-place forward and backward
substitution, and its permutation products as the row, column and entry
rearrangements they perform.

The step-length functions of `Optima/Utils.cpp` (`largestStep` and the overloads of
`fractionToTheBoundary`) are embedded as the folds their loops perform, `infinity()`
being the top element of `WithTop ℚ`; `inverseShermanMorrison`, the classification of
matrices and the closure returned by `bfgs()`, whose captured variables are an explicit
state, follow the same file.  The comparisons with a tolerance, `lessThan` and
`greaterThan`, are about rounding: there the product and the sum are rounded to the
`double` format.  The class `SaddlePointMatrix` is not among the
sources; its method `matrix()` is modelled from its test.
-/

namespace Optima

/-! ## Data model -/

/-- Dense matrix (`Optima::Matrix`): its shape and its coefficients. -/
structure Matrix where
  rows : Nat
  cols : Nat
  coeff : Nat → Nat → ℚ

/-- Dense column vector (`Optima::Vector`). -/
structure Vector where
  rows : Nat
  coeff : Nat → ℚ

/-- Vector of indices (`Optima::Indices`). -/
abbrev Indices := List Nat

/-- Entry `v[i]` of an index vector. -/
def Indices.coeff (v : Indices) (i : Nat) : Nat := v.getD i 0

/-- The first `k` entries, `v.head(k)`. -/
def Indices.head (v : Indices) (k : Nat) : Indices := v.take k

/-- The last `k` entries, `v.tail(k)`. -/
def Indices.tail (v : Indices) (k : Nat) : Indices := v.drop (v.length - k)

/-- The index vector `0, 1, ..., n-1` (`indices(n)`). -/
def indices (n : Nat) : Indices := List.range n

/-- The exchange `std::swap(v[i], v[j])`. -/
def Indices.swap (v : Indices) (i j : Nat) : Indices :=
  (v.set i (v.coeff j)).set j (v.coeff i)

/-- The observable content of an `Eigen::FullPivLU<Matrix>` object: shape, the
packed factors `matrixLU()`, the two permutations (as their index vectors), the
rank, the largest pivot and the tolerance `threshold()`.  The rank of a decomposition
never exceeds its number of columns, so that `cols - rank` is the number of
non-basic variables. -/
structure FullPivLU where
  rows : Nat
  cols : Nat
  matrixLU : Nat → Nat → ℚ
  permutationP : Indices
  permutationQ : Indices
  rank : Nat
  maxPivot : ℚ
  threshold : ℚ

/-- The unit lower triangular factor, `matrixLU().leftCols(m).triangularView<UnitLower>()`. -/
def FullPivLU.L (lu : FullPivLU) (i j : Nat) : ℚ :=
  if i = j then 1 else if j < i then lu.matrixLU i j else 0

/-- The upper trapezoidal factor `U` of `P*A*Q = L*U`, the upper part of `matrixLU()`. -/
def FullPivLU.U (lu : FullPivLU) (i j : Nat) : ℚ :=
  if i ≤ j then lu.matrixLU i j else 0

/-- The block `matrixLU().topLeftCorner(r, r).triangularView<Upper>()`. -/
def FullPivLU.Ubb (lu : FullPivLU) (i j : Nat) : ℚ :=
  if i ≤ j then lu.matrixLU i j else 0

/-- The block `matrixLU().topRightCorner(r, n - r)`. -/
def FullPivLU.Ubn (lu : FullPivLU) (i j : Nat) : ℚ :=
  lu.matrixLU i (lu.rank + j)

/-- The members of `Canonicalizer::Impl`. -/
structure Impl where
  lu : FullPivLU
  S : Matrix
  P : Indices
  Ptr : Indices
  Q : Indices
  Qaux : Indices
  inv_ordering : Indices
  R : Matrix
  M : Vector
  Kb : Indices
  Kn : Indices
  threshold : ℚ

/-! ## Triangular solves -/

/-- In-place forward substitution with a unit lower triangular matrix, after the
first `t` rows have been processed: row `i` becomes
`X[i] - sum over j < i of L(i,j) * X[j]`. -/
def solveUnitLowerRows (L : Nat → Nat → ℚ) (B : Nat → Nat → ℚ) : Nat → Nat → Nat → ℚ
  | 0 => B
  | t + 1 => fun i k =>
      if i = t then
        solveUnitLowerRows L B t t k
          - ∑ j ∈ Finset.range t, L t j * solveUnitLowerRows L B t j k
      else solveUnitLowerRows L B t i k

/-- The solve `L.solve(B)` for a unit lower triangular `m x m` matrix. -/
def solveUnitLower (L : Nat → Nat → ℚ) (m : Nat) (B : Nat → Nat → ℚ) : Nat → Nat → ℚ :=
  solveUnitLowerRows L B m

/-- In-place backward substitution with an upper triangular `r x r` matrix, after
the last `t` rows have been processed: row `i = r - 1 - t` becomes
`(X[i] - sum over i < j < r of U(i,j) * X[j]) / U(i,i)`. -/
def solveUpperRows (U : Nat → Nat → ℚ) (r : Nat) (B : Nat → Nat → ℚ) : Nat → Nat → Nat → ℚ
  | 0 => B
  | t + 1 => fun i k =>
      if i = r - 1 - t then
        (solveUpperRows U r B t i k
          - ∑ j ∈ Finset.Ico (i + 1) r, U i j * solveUpperRows U r B t j k) / U i i
      else solveUpperRows U r B t i k

/-- The solve `U.solve(B)` for an upper triangular `r x r` matrix; rows of `B`
from `r` on are left as they are. -/
def solveUpper (U : Nat → Nat → ℚ) (r : Nat) (B : Nat → Nat → ℚ) : Nat → Nat → ℚ :=
  solveUpperRows U r B r

/-! ## Canonicalizer::Impl -/

/-- The assignment `Ptr(P) = indices(m)`, entry by entry. -/
def assignInverse (P : Indices) : List Nat → Indices → Indices
  | [], Ptr => Ptr
  | i :: is, Ptr => assignInverse P is (Ptr.set (P.coeff i) i)

/-- The body of `Impl::compute` after its assertion; `fullPivLu` is `lu.compute(A)`. -/
def Impl.computeBody (fullPivLu : Matrix → FullPivLU) (st : Impl) (A : Matrix) : Impl :=
  let m := A.rows
  let n := A.cols
  let inv_ordering := indices n
  let lu := fullPivLu A
  let r := lu.rank
  let P := lu.permutationP
  let Q := lu.permutationQ
  let Qaux := Q
  -- Ptr.resize(m); Ptr(P) = indices(m)
  let Ptr := assignInverse P (indices m) (List.replicate m 0)
  -- R = P.asPermutation(); R = L.solve(R); R.topRows(r) = Ubb.solve(R.topRows(r))
  let R1 : Nat → Nat → ℚ := fun i j => if P.coeff j = i then 1 else 0
  let R2 := solveUnitLower lu.L m R1
  let R3 := solveUpper lu.Ubb r R2
  -- S = Ubn; S = Ubb.solve(S)
  let S1 := solveUpper lu.Ubb r lu.Ubn
  { st with
    inv_ordering := inv_ordering
    lu := lu
    P := P
    Q := Q
    Qaux := Qaux
    Ptr := Ptr
    R := ⟨m, m, R3⟩
    S := ⟨r, n - r, S1⟩
    Kb := indices r
    Kn := indices (n - r)
    threshold := |lu.maxPivot| * lu.threshold * (max A.rows A.cols : Nat) }

/-- The method `Impl::compute`; the result is `none` when the assertion `n >= m` fails. -/
def Impl.compute (fullPivLu : Matrix → FullPivLU) (st : Impl) (A : Matrix) : Option Impl :=
  if ¬ (A.cols ≥ A.rows) then none else some (Impl.computeBody fullPivLu st A)

/-- One pass of `for(i = 0; i < m; ++i) if(i != ib) X.row(i) -= S(i, in) * X.row(ib)`
over the rows listed, where `c i` is the multiplier `S(i, in)` read when row `i` is reached. -/
def eliminateRows (ib : Nat) (c : (Nat → Nat → ℚ) → Nat → ℚ) :
    List Nat → (Nat → Nat → ℚ) → (Nat → Nat → ℚ)
  | [], X => X
  | i :: is, X =>
      if i ≠ ib then
        eliminateRows ib c is (fun i' k => if i' = i then X i k - c X i * X ib k else X i' k)
      else eliminateRows ib c is X

/-- The scaling `X.row(ib) *= aux`. -/
def scaleRow (ib : Nat) (aux : ℚ) (X : Nat → Nat → ℚ) : Nat → Nat → ℚ :=
  fun i k => if i = ib then X i k * aux else X i k

/-- The body of `Impl::updateWithSwapBasicVariable` after its assertions. -/
def Impl.swapBody (st : Impl) (ib inn : Nat) : Impl :=
  let M : Vector := ⟨st.S.rows, fun i => st.S.coeff i inn⟩
  let m := st.S.rows
  let aux : ℚ := 1 / st.S.coeff ib inn
  -- R.row(ib) *= aux, then the elimination loop; S is still the old matrix here
  let R1 := scaleRow ib aux st.R.coeff
  let R2 := eliminateRows ib (fun _ i => st.S.coeff i inn) (List.range m) R1
  -- S.row(ib) *= aux, then the elimination loop reading S(i, in) from the current S
  let S1 := scaleRow ib aux st.S.coeff
  let S2 := eliminateRows ib (fun X i => X i inn) (List.range m) S1
  -- S.col(in) = -M*aux
  let S3 : Nat → Nat → ℚ := fun i k => if k = inn then -(M.coeff i) * aux else S2 i k
  -- S(ib, in) = aux
  let S4 : Nat → Nat → ℚ := fun i k => if i = ib ∧ k = inn then aux else S3 i k
  { st with
    M := M
    R := { st.R with coeff := R2 }
    S := { st.S with coeff := S4 }
    Q := st.Q.swap ib (m + inn) }

/-- The method `Impl::updateWithSwapBasicVariable`; `none` when one of its three
assertions fails. -/
def Impl.updateWithSwapBasicVariable (st : Impl) (ib inn : Nat) : Option Impl :=
  if ¬ (ib < st.lu.rank) then none else
  if ¬ (inn < st.lu.cols - st.lu.rank) then none else
  if ¬ (|st.S.coeff ib inn| > st.threshold) then none else
  some (st.swapBody ib inn)

/-- The accessor `Canonicalizer::numVariables`. -/
def Impl.numVariables (st : Impl) : Nat := st.lu.cols

/-- The accessor `Canonicalizer::numEquations`. -/
def Impl.numEquations (st : Impl) : Nat := st.lu.rows

/-- The accessor `Canonicalizer::numBasicVariables`. -/
def Impl.numBasicVariables (st : Impl) : Nat := st.lu.rank

/-- The accessor `Canonicalizer::numNonBasicVariables`. -/
def Impl.numNonBasicVariables (st : Impl) : Nat := st.numVariables - st.numBasicVariables

/-- The matrix `zeros(m, n)`. -/
def zeros (m n : Nat) : Matrix := ⟨m, n, fun _ _ => 0⟩

/-- The matrix `identity(m, n)`. -/
def identity (m n : Nat) : Matrix := ⟨m, n, fun i j => if i = j then 1 else 0⟩

/-- The comma initialization `res.topRows(nb) << left, right`: the top `nb` rows of `res`
become the block `left` followed on its right by the block `right`. -/
def Matrix.setTopRows (res : Matrix) (nb : Nat) (left right : Matrix) : Matrix :=
  { res with
    coeff := fun i k =>
      if i < nb then
        (if k < left.cols then left.coeff i k else right.coeff i (k - left.cols))
      else res.coeff i k }

/-- The accessor `Canonicalizer::C`: `zeros(m, n)` with `[identity(nb, nb), S]` in its top rows. -/
def Impl.C (st : Impl) : Matrix :=
  let m := st.numEquations
  let n := st.numVariables
  let nb := st.numBasicVariables
  (zeros m n).setTopRows nb (identity nb nb) st.S

/-- The accessor `Canonicalizer::indicesBasicVariables`. -/
def Impl.indicesBasicVariables (st : Impl) : Indices := st.Q.head st.numBasicVariables

/-- The accessor `Canonicalizer::indicesNonBasicVariables`. -/
def Impl.indicesNonBasicVariables (st : Impl) : Indices := st.Q.tail st.numNonBasicVariables

/-- The accessor `Canonicalizer::indicesLinearlyIndependentEquations`. -/
def Impl.indicesLinearlyIndependentEquations (st : Impl) : Indices := st.Ptr

/-! ## std::sort -/

/-- The requirement of the C++ standard on a comparator: a strict weak ordering. -/
structure StrictWeakOrdering (comp : Nat → Nat → Bool) : Prop where
  irrefl : ∀ a, comp a a = false
  trans : ∀ a b c, comp a b = true → comp b c = true → comp a c = true
  incomp_trans : ∀ a b c, comp a b = false → comp b a = false →
    comp b c = false → comp c b = false → comp a c = false ∧ comp c a = false

/-- The library routine `std::sort` on an array of indices, with the contract of the
C++ standard: the result is a rearrangement of the input and, for a comparator that is a
strict weak ordering, no later element compares less than an earlier one.  The order
of equivalent elements is left open. -/
structure StdSort where
  run : (Nat → Nat → Bool) → List Nat → List Nat
  perm : ∀ comp l, (run comp l).Perm l
  sorted : ∀ comp l, StrictWeakOrdering comp →
    (run comp l).Pairwise (fun a b => comp b a = false)

/-! ## Priority weights -/

/-- One iteration of the scan in `find_nonbasic_candidate` for row `i`: `acc` is the pair
`(j, max)` before column `k` is looked at. -/
def Impl.candidateStep (st : Impl) (w : Vector) (i : Nat) (acc : Nat × WithBot ℚ) (k : Nat) :
    Nat × WithBot ℚ :=
  let nn := st.lu.cols - st.lu.rank
  let inonbasic := st.Q.tail nn
  if |st.S.coeff i k| ≤ st.threshold then acc
  else
    let tmp : ℚ := w.coeff (inonbasic.coeff k) * |st.S.coeff i k|
    if (tmp : WithBot ℚ) > acc.2 then (k, (tmp : WithBot ℚ)) else acc

/-- The lambda `find_nonbasic_candidate` of `updateWithPriorityWeights`: the pair
`(j, max)` after the scan of the columns `k = 0 .. nn-1` of row `i`, started from
`j = 0` and `max = -infinity()`. -/
def Impl.find_nonbasic_candidate (st : Impl) (w : Vector) (i : Nat) : Nat × WithBot ℚ :=
  (List.range (st.lu.cols - st.lu.rank)).foldl (st.candidateStep w i) (0, ⊥)

/-- The body of the improvement loop of `updateWithPriorityWeights` for row `i`. -/
def Impl.improveStep (st : Impl) (w : Vector) (i : Nat) : Option Impl :=
  let wi : ℚ := w.coeff ((st.Q.head st.lu.rank).coeff i)
  let cand := st.find_nonbasic_candidate w i
  if (wi : WithBot ℚ) < cand.2 then st.updateWithSwapBasicVariable i cand.1
  else some st

/-- The improvement loop of `updateWithPriorityWeights` over the rows listed. -/
def Impl.improve (w : Vector) : List Nat → Impl → Option Impl
  | [], st => some st
  | i :: is, st =>
      match st.improveStep w i with
      | none => none
      | some st1 => Impl.improve w is st1

/-- The in-place product `K.transpose().applyThisOnTheLeft(X.topRows(nb))`: row `j` becomes
the former row `K[j]`. -/
def permuteRows (K : Indices) (nb : Nat) (X : Nat → Nat → ℚ) : Nat → Nat → ℚ :=
  fun i k => if i < nb then X (K.coeff i) k else X i k

/-- The in-place product `K.applyThisOnTheRight(X)`: column `j` becomes the former column `K[j]`. -/
def permuteCols (K : Indices) (nn : Nat) (X : Nat → Nat → ℚ) : Nat → Nat → ℚ :=
  fun i k => if k < nn then X i (K.coeff k) else X i k

/-- The in-place product `K.transpose().applyThisOnTheLeft(Q.head(nb))`. -/
def permuteHead (K : Indices) (nb : Nat) (Q : Indices) : Indices :=
  (List.range nb).map (fun j => (Q.head nb).coeff (K.coeff j)) ++ Q.drop nb

/-- The in-place product `K.transpose().applyThisOnTheLeft(Q.tail(nn))`. -/
def permuteTail (K : Indices) (nn : Nat) (Q : Indices) : Indices :=
  Q.take (Q.length - nn) ++ (List.range nn).map (fun j => (Q.tail nn).coeff (K.coeff j))

/-- The sort phase of `updateWithPriorityWeights`. -/
def Impl.sortPhase (srt : StdSort) (st : Impl) (w : Vector) : Impl :=
  let nb := st.lu.rank
  let nn := st.lu.cols - st.lu.rank
  let ibasic := st.Q.head nb
  let inonbasic := st.Q.tail nn
  let Kb := srt.run (fun l r => decide (w.coeff (ibasic.coeff l) > w.coeff (ibasic.coeff r)))
      (st.Kb.take nb) ++ st.Kb.drop nb
  let Kn := srt.run (fun l r => decide (w.coeff (inonbasic.coeff l) > w.coeff (inonbasic.coeff r)))
      (st.Kn.take nn) ++ st.Kn.drop nn
  { st with
    Kb := Kb
    Kn := Kn
    S := { st.S with coeff := permuteCols Kn nn (permuteRows Kb nb st.S.coeff) }
    R := { st.R with coeff := permuteRows Kb nb st.R.coeff }
    Q := permuteTail Kn nn (permuteHead Kb nb st.Q) }

/-- The method `Impl::updateWithPriorityWeights`; `none` when the assertion on the
number of weights fails, or when a swap it calls fails one of its assertions. -/
def Impl.updateWithPriorityWeights (srt : StdSort) (st : Impl) (w : Vector) : Option Impl :=
  if ¬ (w.rows = st.lu.cols) then none else
  let nb := st.lu.rank
  let nn := st.lu.cols - st.lu.rank
  match (if nn > 0 then Impl.improve w (List.range nb) st else some st) with
  | none => none
  | some st1 => some (st1.sortPhase srt w)

/-! ## Rational approximation -/

/-- The loop of `farey`, with the pairs `a/b` and `c/d` as loop state; `fuel` bounds the
number of iterations, and the value after the loop is returned when it is used up. -/
def fareyLoop (x : ℚ) (n : Nat) : Nat → Int → Int → Int → Int → Int × Int
  | 0, a, b, c, d => if b > n then (c, d) else (a, b)
  | fuel + 1, a, b, c, d =>
      if b ≤ n ∧ d ≤ n then
        let mediant : ℚ := ((a + c : Int) : ℚ) / ((b + d : Int) : ℚ)
        if x = mediant then
          if b + d ≤ n then (a + c, b + d)
          else if d > b then (c, d)
          else (a, b)
        else if x > mediant then fareyLoop x n fuel (a + c) (b + d) c d
        else fareyLoop x n fuel a b (a + c) (b + d)
      else if b > n then (c, d) else (a, b)

/-- The function `farey(x, n)`; each iteration raises `b + d`, so `2 * n + 2`
iterations are never exceeded. -/
def farey (x : ℚ) (n : Nat) : Int × Int := fareyLoop x n (2 * n + 2) 0 1 1 1

/-- The function `rationalize(x, n)` of `Utils.cpp`. -/
def rationalize (x : ℚ) (n : Nat) : Int × Int :=
  let sign : Int := if x ≥ 0 then 1 else -1
  if |x| > 1 then
    let ab := farey (1 / |x|) n
    (sign * ab.2, ab.1)
  else
    let ab := farey |x| n
    (sign * ab.1, ab.2)

/-- The method `Impl::rationalize`; the `Index` argument is converted to `unsigned`.  The
quotient is the exact one; a pair with denominator zero, whose quotient is infinite in
`double` arithmetic, has no counterpart in `ℚ` (the division then gives 0). -/
def Impl.rationalize (st : Impl) (maxdenominator : Nat) : Impl :=
  let rational : ℚ → ℚ := fun val =>
    let pair := Optima.rationalize val (maxdenominator % 2 ^ 32)
    (pair.1 : ℚ) / (pair.2 : ℚ)
  { st with
    S := { st.S with coeff := fun i k => rational (st.S.coeff i k) }
    R := { st.R with coeff := fun i k => rational (st.R.coeff i k) } }

/-- Insertion sort by the comparator, one function that meets the contract of `std::sort`. -/
def insertionStdSort : StdSort where
  run comp l := l.insertionSort (fun a b => comp b a = false)
  perm comp l := List.perm_insertionSort _ l
  sorted comp l h := by
    haveI : IsTotal Nat (fun a b => comp b a = false) := ⟨fun a b => by
      by_cases hba : comp b a = true
      · right
        by_contra hab
        have := h.trans b a b hba (by simpa using hab)
        simp [h.irrefl] at this
      · left; simpa using hba⟩
    haveI : IsTrans Nat (fun a b => comp b a = false) := ⟨fun a b c hab hbc => by
      by_contra hca
      have hca : comp c a = true := by simpa using hca
      have h1 : comp a b = false := by
        by_contra h1
        have := h.trans c a b hca (by simpa using h1)
        simp [hbc] at this
      have h2 : comp b c = false := by
        by_contra h2
        have := h.trans b c a (by simpa using h2) hca
        simp [hab] at this
      have := (h.incomp_trans a b c h1 hab h2 hbc).2
      simp [hca] at this⟩
    exact List.sorted_insertionSort _ l

/-! ## Specification predicates -/

/-- Entry `(i, k)` of the product `R * A * Qperm`, where `Qperm` is the column
permutation with index vector `Q`: column `k` of `A * Qperm` is column `Q[k]` of `A`. -/
def Impl.RAQ (st : Impl) (A : Matrix) (i k : Nat) : ℚ :=
  ∑ j ∈ Finset.range A.rows, st.R.coeff i j * A.coeff j (st.Q.coeff k)

/-- The canonical identity `R * A * Qperm = [I_r S; 0 0]`, entry by entry, for a matrix
`A` of the shape of the decomposition. -/
def Impl.CanonicalIdentity (st : Impl) (A : Matrix) : Prop :=
  A.rows = st.numEquations ∧ A.cols = st.numVariables ∧
  ∀ i, i < st.numEquations → ∀ k, k < st.numVariables → st.RAQ A i k = st.C.coeff i k

/-- Shape conditions that `compute` establishes and every update keeps. -/
structure Impl.WellFormed (st : Impl) : Prop where
  rank_le_rows : st.lu.rank ≤ st.lu.rows
  rows_le_cols : st.lu.rows ≤ st.lu.cols
  S_rows : st.S.rows = st.lu.rank
  S_cols : st.S.cols = st.lu.cols - st.lu.rank
  Q_perm : st.Q.Perm (List.range st.lu.cols)
  Kb_perm : st.Kb.Perm (List.range st.lu.rank)
  Kn_perm : st.Kn.Perm (List.range (st.lu.cols - st.lu.rank))
  threshold_nonneg : 0 ≤ st.threshold

/-- What `lu.compute(A)` is assumed to deliver in exact arithmetic: a decomposition
`P * A * Q = L * U` of the shape of `A`, with permutations `P` and `Q`, whose first `rank`
pivots are non-zero and whose rows of `U` from `rank` on vanish, and a non-negative tolerance. -/
structure IsFullPivLU (A : Matrix) (lu : FullPivLU) : Prop where
  rows_eq : lu.rows = A.rows
  cols_eq : lu.cols = A.cols
  P_perm : lu.permutationP.Perm (List.range A.rows)
  Q_perm : lu.permutationQ.Perm (List.range A.cols)
  rank_le : lu.rank ≤ A.rows
  pivot_ne_zero : ∀ i, i < lu.rank → lu.matrixLU i i ≠ 0
  rows_zero : ∀ i, lu.rank ≤ i → i < A.rows → ∀ k, k < A.cols → lu.U i k = 0
  factorization : ∀ j, j < A.rows → ∀ k, k < A.cols →
    A.coeff j (lu.permutationQ.coeff k)
      = ∑ l ∈ Finset.range A.rows, lu.L (lu.permutationP.coeff j) l * lu.U l k
  threshold_nonneg : 0 ≤ lu.threshold

/-! ## The scenario of the specification -/

/-- The state of a default-constructed `Canonicalizer`. -/
def Impl.init : Impl where
  lu := ⟨0, 0, fun _ _ => 0, [], [], 0, 0, 0⟩
  S := ⟨0, 0, fun _ _ => 0⟩
  P := []
  Ptr := []
  Q := []
  Qaux := []
  inv_ordering := []
  R := ⟨0, 0, fun _ _ => 0⟩
  M := ⟨0, fun _ => 0⟩
  Kb := []
  Kn := []
  threshold := 0

/-- A matrix given by its rows. -/
def Matrix.ofRows (m n : Nat) (rows : List (List ℚ)) : Matrix :=
  ⟨m, n, fun i j => (rows.getD i []).getD j 0⟩

/-- The matrix `A = [[1,0,1,1],[0,1,1,2]]` of the scenario. -/
def scenarioA : Matrix := Matrix.ofRows 2 4 [[1, 0, 1, 1], [0, 1, 1, 2]]

/-- The full-pivoting LU decomposition of `scenarioA`: the pivots are the entry 2 of row 1,
column 3, then the entry 1 of column 1, so that `P = [1, 0]`, `Q = [3, 0, 2, 1]` and
`matrixLU = [[2, 0, 1, 1], [1/2, 1, 1/2, -1/2]]`; the tolerance is `2 * 2^-52`. -/
def scenarioLU : FullPivLU where
  rows := 2
  cols := 4
  matrixLU := fun i j => (([[2, 0, 1, 1], [1/2, 1, 1/2, -1/2]] : List (List ℚ)).getD i []).getD j 0
  permutationP := [1, 0]
  permutationQ := [3, 0, 2, 1]
  rank := 2
  maxPivot := 2
  threshold := 2 / 2 ^ 52

/-- The state after `compute(scenarioA)`. -/
def scenarioState : Impl :=
  (Impl.compute (fun _ => scenarioLU) Impl.init scenarioA).getD Impl.init

/-- Priority weights `2, 1, 3, 2` for the four variables of the scenario. -/
def scenarioWeights : Vector := ⟨4, fun i => ([2, 1, 3, 2] : List ℚ).getD i 0⟩

/-- A matrix whose first row has two entries `2^-49`, which the threshold of its
decomposition does not tell from zero. -/
def smallEntriesA : Matrix :=
  Matrix.ofRows 2 4 [[1, 0, 1 / 2 ^ 49, 1 / 2 ^ 49], [0, 1, 1, -1]]

/-- The full-pivoting LU decomposition of `smallEntriesA`: the pivots are the two entries 1
of its diagonal, so that `P` and `Q` are the identity, `L` is the identity and `U` is the
matrix itself; the tolerance is `2 * 2^-52`. -/
def smallEntriesLU : FullPivLU where
  rows := 2
  cols := 4
  matrixLU := smallEntriesA.coeff
  permutationP := [0, 1]
  permutationQ := [0, 1, 2, 3]
  rank := 2
  maxPivot := 1
  threshold := 2 / 2 ^ 52

/-- The state after `compute(smallEntriesA)`; its threshold is `2^-49`. -/
def smallEntriesState : Impl :=
  (Impl.compute (fun _ => smallEntriesLU) Impl.init smallEntriesA).getD Impl.init

/-- Priority weights `0, 1, 3, 2`: variable 0 is the only one with a non-positive weight. -/
def smallEntriesWeights : Vector := ⟨4, fun i => ([0, 1, 3, 2] : List ℚ).getD i 0⟩

/-- Priority weights `0, -1, 3, -1` for the four variables of the scenario: variable 2 is the
only one of positive weight. -/
def scenarioSignedWeights : Vector := ⟨4, fun i => ([0, -1, 3, -1] : List ℚ).getD i 0⟩

/-- A square matrix of rank 1: its second row is twice the first. -/
def rankDeficientA : Matrix := Matrix.ofRows 2 2 [[1, 1], [2, 2]]

/-- The full-pivoting LU decomposition of `rankDeficientA`: the first pivot is the entry 2 of
row 1, column 0, so that `P = [1, 0]` and `Q = [0, 1]`; after the elimination the remaining
corner is zero, `matrixLU = [[2, 2], [1/2, 0]]` and the rank is 1. -/
def rankDeficientLU : FullPivLU where
  rows := 2
  cols := 2
  matrixLU := fun i j => (([[2, 2], [1/2, 0]] : List (List ℚ)).getD i []).getD j 0
  permutationP := [1, 0]
  permutationQ := [0, 1]
  rank := 1
  maxPivot := 2
  threshold := 2 / 2 ^ 52

/-- The state after `compute(rankDeficientA)`. -/
def rankDeficientState : Impl :=
  (Impl.compute (fun _ => rankDeficientLU) Impl.init rankDeficientA).getD Impl.init

/-! ## Sequences of updates -/

/-- A call of one of the three mutators of a computed `Canonicalizer`. -/
inductive Update where
  | swap (ibasic inonbasic : Nat)
  | priority (weights : Vector)
  | rationalize (maxdenominator : Nat)

/-- The effect of one call; `none` when an assertion of the call fails. -/
def Impl.applyUpdate (srt : StdSort) (st : Impl) : Update → Option Impl
  | .swap ib inn => st.updateWithSwapBasicVariable ib inn
  | .priority w => st.updateWithPriorityWeights srt w
  | .rationalize maxdenominator => some (st.rationalize maxdenominator)

/-- The effect of a sequence of calls, in order. -/
def Impl.applyUpdates (srt : StdSort) : Impl → List Update → Option Impl
  | st, [] => some st
  | st, u :: us =>
      match st.applyUpdate srt u with
      | none => none
      | some st1 => Impl.applyUpdates srt st1 us

/-! ## The state in which an assertion fails

The same methods once more, with the outcome of a failed assertion made visible: `.error st`
carries the state the object is in at the moment the assertion fails, `.ok st` the state the
method leaves behind. -/

/-- The method `Impl::compute`, keeping the state in which its assertion fails. -/
def Impl.computeTraced (fullPivLu : Matrix → FullPivLU) (st : Impl) (A : Matrix) :
    Except Impl Impl :=
  if ¬ (A.cols ≥ A.rows) then .error st else .ok (Impl.computeBody fullPivLu st A)

/-- The method `Impl::updateWithSwapBasicVariable`, keeping the state in which an assertion
fails. -/
def Impl.updateWithSwapBasicVariableTraced (st : Impl) (ib inn : Nat) : Except Impl Impl :=
  if ¬ (ib < st.lu.rank) then .error st else
  if ¬ (inn < st.lu.cols - st.lu.rank) then .error st else
  if ¬ (|st.S.coeff ib inn| > st.threshold) then .error st else
  .ok (st.swapBody ib inn)

/-- The body of the improvement loop for row `i`, keeping the state in which an assertion of
the swap it calls fails. -/
def Impl.improveStepTraced (st : Impl) (w : Vector) (i : Nat) : Except Impl Impl :=
  let wi : ℚ := w.coeff ((st.Q.head st.lu.rank).coeff i)
  let cand := st.find_nonbasic_candidate w i
  if (wi : WithBot ℚ) < cand.2 then st.updateWithSwapBasicVariableTraced i cand.1
  else .ok st

/-- The improvement loop over the rows listed, stopping at the first failed assertion. -/
def Impl.improveTraced (w : Vector) : List Nat → Impl → Except Impl Impl
  | [], st => .ok st
  | i :: is, st =>
      match st.improveStepTraced w i with
      | .error e => .error e
      | .ok st1 => Impl.improveTraced w is st1

/-- The method `Impl::updateWithPriorityWeights`, keeping the state in which an assertion
fails: its own on the number of weights, or one of a swap it calls. -/
def Impl.updateWithPriorityWeightsTraced (srt : StdSort) (st : Impl) (w : Vector) :
    Except Impl Impl :=
  if ¬ (w.rows = st.lu.cols) then .error st else
  let nb := st.lu.rank
  let nn := st.lu.cols - st.lu.rank
  match (if nn > 0 then Impl.improveTraced w (List.range nb) st else .ok st) with
  | .error e => .error e
  | .ok st1 => .ok (st1.sortPhase srt w)

/-! ## The read accessors as calls on the object -/

/-- The read accessors `S()`, `R()`, `Q()` and `C()` of `Canonicalizer`. -/
inductive Accessor where
  | S
  | R
  | Q
  | C

/-- What a read accessor returns: a matrix (`S`, `R`, `C`) or an index vector (`Q`). -/
inductive AccessorValue where
  | matrix (M : Matrix)
  | indices (v : Indices)

/-- A call of a read accessor on the object: the value returned and the state of the object
after the call.  The four methods are `const` and assign to no member: `S`, `R` and `Q`
return the member, `C` assembles its result in a local matrix. -/
def Impl.callAccessor (st : Impl) : Accessor → AccessorValue × Impl
  | .S => (.matrix st.S, st)
  | .R => (.matrix st.R, st)
  | .Q => (.indices st.Q, st)
  | .C => (.matrix st.C, st)

/-- A sequence of accessor calls, in order: the values returned and the state after the last
call. -/
def Impl.callAccessors : Impl → List Accessor → List AccessorValue × Impl
  | st, [] => ([], st)
  | st, a :: as =>
      let r := st.callAccessor a
      let rs := Impl.callAccessors r.2 as
      (r.1 :: rs.1, rs.2)

/-- Priority weights `2, 3, 3, 2`: the two non-basic variables of the scenario state, 2 and 1,
then have the same proportional weight `3 * 1/2` in row 0. -/
def tiedWeights : Vector := ⟨4, fun i => ([2, 3, 3, 2] : List ℚ).getD i 0⟩

/-! ## Step lengths -/

/-- One iteration of the loop of `largestStep`: `alpha` before entry `i` of `res` is looked at. -/
def largestStepLoop (res : Vector) (alpha : WithTop ℚ) (i : Nat) : WithTop ℚ :=
  if res.coeff i > 0 ∧ (res.coeff i : WithTop ℚ) < alpha then (res.coeff i : WithTop ℚ) else alpha

/-- The function `largestStep(p, dp)` of `Utils.cpp`; `infinity()` is the top element of
`WithTop ℚ`.  A quotient by zero, which is infinite or not a number in `double` arithmetic
and fails the test `res[i] > 0.0 && res[i] < alpha` there, is 0 in `ℚ` and fails it too. -/
def largestStep (p dp : Vector) : WithTop ℚ :=
  let res : Vector := ⟨p.rows, fun i => -p.coeff i / dp.coeff i⟩
  (List.range res.rows).foldl (largestStepLoop res) ⊤

/-- One iteration of the loop of `fractionToTheBoundary(p, dp, tau, ilimiting)`: `acc` is the
pair `(alpha_max, ilimiting)` before component `i` is looked at. -/
def fractionToTheBoundaryLoop (p dp : Vector) (tau : ℚ) (acc : ℚ × Nat) (i : Nat) : ℚ × Nat :=
  if dp.coeff i < 0 then
    let alpha_trial : ℚ := -tau * p.coeff i / dp.coeff i
    if alpha_trial < acc.1 then (alpha_trial, i) else acc
  else acc

/-- The function `fractionToTheBoundary(p, dp, tau, ilimiting)` of `Utils.cpp`: the pair of
the value returned and of `ilimiting` on return. -/
def fractionToTheBoundaryIndex (p dp : Vector) (tau : ℚ) : ℚ × Nat :=
  (List.range p.rows).foldl (fractionToTheBoundaryLoop p dp tau) (1, p.rows)

/-- The function `fractionToTheBoundary(p, dp, tau)` of `Utils.cpp`, which calls the one with
`ilimiting` and drops the index. -/
def fractionToTheBoundary (p dp : Vector) (tau : ℚ) : ℚ :=
  (fractionToTheBoundaryIndex p dp tau).1

/-- The product `C.row(i).dot(v)`. -/
def Matrix.rowDot (C : Matrix) (i : Nat) (v : Vector) : ℚ :=
  ∑ k ∈ Finset.range C.cols, C.coeff i k * v.coeff k

/-- One iteration of the loop of `fractionToTheBoundary(p, dp, C, r, tau)`: `alpha_max`
before row `i` of `C` is looked at. -/
def fractionToTheBoundaryConstraintLoop (p dp : Vector) (C : Matrix) (r : Vector) (tau : ℚ)
    (alpha_max : ℚ) (i : Nat) : ℚ :=
  let tmp : ℚ := C.rowDot i dp
  if tmp < 0 then
    let alpha_trial : ℚ := -tau * (C.rowDot i p - r.coeff i) / tmp
    if alpha_trial < alpha_max then alpha_trial else alpha_max
  else alpha_max

/-- The function `fractionToTheBoundary(p, dp, C, r, tau)` of `Utils.cpp`. -/
def fractionToTheBoundaryConstraint (p dp : Vector) (C : Matrix) (r : Vector) (tau : ℚ) : ℚ :=
  let m := C.rows
  if m = 0 then 1 else
  (List.range m).foldl (fractionToTheBoundaryConstraintLoop p dp C r tau) 1


/-- The vector with the entries listed. -/
def Vector.ofList (l : List ℚ) : Vector := ⟨l.length, fun i => l.getD i 0⟩


/-! ## The saddle-point matrix -/

/-- Modelled from the spec: the class `SaddlePointMatrix` of `Optima/Core/SaddlePointMatrix.hpp`,
which is not among the sources (its test `TestSaddlePointMatrix.cpp` is), with the members the
test sets: the diagonal `H` of the Hessian matrix, the matrix `A`, and the indices `fixed` of
the fixed variables. -/
structure SaddlePointMatrix where
  H : Vector
  A : Matrix
  fixed : Indices

/-- Modelled from the spec: the replacement of row `i` by the unit row, which the test writes
`M.row(i).fill(0.0); M(i, i) = 1.0`. -/
def unitRow (i : Nat) (M : Nat → Nat → ℚ) : Nat → Nat → ℚ :=
  fun i' j => if i' = i then (if j = i then 1 else 0) else M i' j

/-- Modelled from the spec: the method `SaddlePointMatrix::matrix()`, which is not among the
sources: the matrix `[diag(H) tr(A); A 0]` of order `n + m`, in which the row of each fixed
variable is then replaced by the unit row, one fixed variable after the other. -/
def SaddlePointMatrix.matrix (mat : SaddlePointMatrix) : Matrix :=
  let m := mat.A.rows
  let n := mat.A.cols
  let res : Nat → Nat → ℚ := fun i j =>
    if i < n then
      (if j < n then (if i = j then mat.H.coeff i else 0) else mat.A.coeff (j - n) i)
    else
      (if j < n then mat.A.coeff (i - n) j else 0)
  ⟨n + m, n + m, mat.fixed.foldl (fun M i => unitRow i M) res⟩

/-- The saddle-point matrix of the test: `H = {1, 2, 3}` and `A = {{1, 2, 3}, {3, 4, 5}}`. -/
def testSaddlePointMatrix : SaddlePointMatrix :=
  ⟨Vector.ofList [1, 2, 3], Matrix.ofRows 2 3 [[1, 2, 3], [3, 4, 5]], []⟩

/-- The matrix `M` the test expects of `matrix()`. -/
def testExpectedM : Matrix :=
  Matrix.ofRows 5 5
    [[1, 0, 0, 1, 3], [0, 2, 0, 2, 4], [0, 0, 3, 3, 5], [1, 2, 3, 0, 0], [3, 4, 5, 0, 0]]

/-- The matrix `M` the test expects once variable 1 is fixed. -/
def testExpectedMFixed : Matrix :=
  Matrix.ofRows 5 5
    [[1, 0, 0, 1, 3], [0, 1, 0, 0, 0], [0, 0, 3, 3, 5], [1, 2, 3, 0, 0], [3, 4, 5, 0, 0]]

/-! ## The swaps called by the priority update -/

/-- The calls of `updateWithSwapBasicVariable` that the improvement loop makes over the rows
listed: for each call, the state in which it is made and its two arguments.  The record ends
with a call that fails an assertion. -/
def Impl.improveCalls (w : Vector) : List Nat → Impl → List (Impl × Nat × Nat)
  | [], _ => []
  | i :: is, st =>
      let wi : ℚ := w.coeff ((st.Q.head st.lu.rank).coeff i)
      let cand := st.find_nonbasic_candidate w i
      if (wi : WithBot ℚ) < cand.2 then
        (st, i, cand.1) ::
          (match st.updateWithSwapBasicVariable i cand.1 with
            | none => []
            | some st1 => Impl.improveCalls w is st1)
      else Impl.improveCalls w is st

/-- The calls of `updateWithSwapBasicVariable` made by `updateWithPriorityWeights(w)`. -/
def Impl.priorityCalls (st : Impl) (w : Vector) : List (Impl × Nat × Nat) :=
  if ¬ (w.rows = st.lu.cols) then [] else
  if st.lu.cols - st.lu.rank > 0 then Impl.improveCalls w (List.range st.lu.rank) st else []

/-- Priority weights `1, 1, 5, 1`: the non-basic variable 2 of the scenario state outweighs
the basic variables of both rows. -/
def heavyWeights : Vector := ⟨4, fun i => ([1, 1, 5, 1] : List ℚ).getD i 0⟩

/-! ## Comparisons with a tolerance -/

/-- Rounding of a rational number to the nearest integer, a tie going to the even one. -/
def roundHalfEven (x : ℚ) : Int :=
  let f : Int := Rat.floor x
  if x - f < 1 / 2 then f
  else if x - f > 1 / 2 then f + 1
  else if f % 2 = 0 then f else f + 1

/-- The search upward for the binade of a number `x ≥ 2^e`: the exponent is raised while
`2^(e+1) ≤ x`, at most `fuel` times. -/
def binadeUp (x : ℚ) : Nat → Int → Int
  | 0, e => e
  | fuel + 1, e => if (2 : ℚ) ^ (e + 1) ≤ x then binadeUp x fuel (e + 1) else e

/-- The search downward for the binade of a number `x < 2^(e+1)`: the exponent is lowered
while `x < 2^e`, at most `fuel` times. -/
def binadeDown (x : ℚ) : Nat → Int → Int
  | 0, e => e
  | fuel + 1, e => if x < (2 : ℚ) ^ e then binadeDown x fuel (e - 1) else e

/-- The exponent of a magnitude `x` in the `double` format: the `e` with `2^e ≤ x < 2^(e+1)`,
kept between -1022, the exponent of the subnormal numbers, and 1023, the largest one. -/
def doubleExponent (x : ℚ) : Int :=
  if 1 ≤ x then binadeUp x 1023 0 else binadeDown x 1022 0

/-- Rounding of a rational number to the `double` format (IEEE 754 binary64, 53 significant
bits, round to nearest, ties to even).  A magnitude beyond the largest `double`, which is
infinite in the format, is left as a number beyond every `double`: it compares with the
finite numbers as the infinite value does. -/
def roundDouble (x : ℚ) : ℚ :=
  if x = 0 then 0 else
  let ulp : ℚ := (2 : ℚ) ^ (doubleExponent |x| - 52)
  (roundHalfEven (x / ulp) : ℚ) * ulp

/-- The constant `std::numeric_limits<double>::epsilon()`, which is `2^-52`. -/
def epsilon : ℚ := 1 / 2 ^ 52

/-- The function `lessThan(lhs, rhs, baseval)` of `Utils.cpp`; the product
`10.0 * epsilon * std::abs(baseval)` and the sum are rounded as the `double` operations are. -/
def lessThan (lhs rhs baseval : ℚ) : Bool :=
  decide (lhs < roundDouble (rhs + roundDouble (roundDouble (10 * epsilon) * |baseval|)))

/-- The function `greaterThan(lhs, rhs, baseval)` of `Utils.cpp`, rounded likewise. -/
def greaterThan (lhs rhs baseval : ℚ) : Bool :=
  decide (lhs > roundDouble (rhs - roundDouble (roundDouble (10 * epsilon) * |baseval|)))

/-! ## The structure of a matrix -/

/-- The enumeration `MatrixStructure`. -/
inductive MatrixStructure where
  | Zero
  | Dense
  | Diagonal
  deriving DecidableEq

/-- The member `size()` of an Eigen matrix: the number of its coefficients. -/
def Matrix.size (mat : Matrix) : Nat := mat.rows * mat.cols

/-- The function `isZeroMatrix(mat)`. -/
def isZeroMatrix (mat : Matrix) : Bool := decide (mat.size = 0)

/-- The function `isDiagonalMatrix(mat)`: `mat.size() && mat.cols() == 1`. -/
def isDiagonalMatrix (mat : Matrix) : Bool := decide (mat.size ≠ 0) && decide (mat.cols = 1)

/-- The function `isDenseMatrix(mat)`: `mat.size() > 1 && mat.rows() == mat.cols()`. -/
def isDenseMatrix (mat : Matrix) : Bool := decide (mat.size > 1) && decide (mat.rows = mat.cols)

/-- The function `matrixStructure(mat)`. -/
def matrixStructure (mat : Matrix) : MatrixStructure :=
  if isDenseMatrix mat then MatrixStructure.Dense
  else if isDiagonalMatrix mat then MatrixStructure.Diagonal
  else MatrixStructure.Zero

/-! ## The Sherman-Morrison update of an inverse -/

/-- One pass of the loop of `inverseShermanMorrison`, for the index `i`:
`invM = invM - (D[i]/(1 + D[i]*invM(i, i)))*invM.col(i)*invM.row(i)`.  Eigen evaluates the
right-hand side, which holds a matrix product, into a temporary before it assigns. -/
def shermanMorrisonStep (D : Vector) (invM : Matrix) (i : Nat) : Matrix :=
  { invM with
    coeff := fun r c =>
      invM.coeff r c
        - D.coeff i / (1 + D.coeff i * invM.coeff i i) * invM.coeff r i * invM.coeff i c }

/-- The function `inverseShermanMorrison(invA, D)` of `Utils.cpp`. -/
def inverseShermanMorrison (invA : Matrix) (D : Vector) : Matrix :=
  (List.range D.rows).foldl (shermanMorrisonStep D) invA

/-! ## The BFGS approximation of the inverse Hessian -/

/-- The variables captured by the closure that `bfgs()` returns. -/
structure BfgsState where
  x0 : Vector
  g0 : Vector
  dx : Vector
  dg : Vector
  H : Matrix

/-- The captured variables when `bfgs()` returns the closure: empty vectors and an empty
matrix. -/
def bfgsInit : BfgsState where
  x0 := ⟨0, fun _ => 0⟩
  g0 := ⟨0, fun _ => 0⟩
  dx := ⟨0, fun _ => 0⟩
  dg := ⟨0, fun _ => 0⟩
  H := ⟨0, 0, fun _ _ => 0⟩

/-- The matrix `diag(x)`. -/
def diag (x : Vector) : Matrix := ⟨x.rows, x.rows, fun i j => if i = j then x.coeff i else 0⟩

/-- The product `u.dot(v)`. -/
def Vector.dot (u v : Vector) : ℚ := ∑ i ∈ Finset.range u.rows, u.coeff i * v.coeff i

/-- The matrix product `A * B`. -/
def Matrix.mul (A B : Matrix) : Matrix :=
  ⟨A.rows, B.cols, fun i j => ∑ k ∈ Finset.range A.cols, A.coeff i k * B.coeff k j⟩

/-- A call `f(x, g)` of the closure that `bfgs()` returns: the matrix returned and the captured
variables after the call. -/
def bfgsCall (s : BfgsState) (x g : Vector) : Matrix × BfgsState :=
  if s.x0.rows = 0 then
    let H := diag x
    (H, { s with x0 := x, g0 := g, H := H })
  else
    let dx : Vector := ⟨x.rows, fun i => x.coeff i - s.x0.coeff i⟩
    let dg : Vector := ⟨g.rows, fun i => g.coeff i - s.g0.coeff i⟩
    let n := x.rows
    let a : ℚ := dx.dot dg
    let I := identity n n
    -- H = (I - dx*tr(dg)/a)*H*(I - dg*tr(dx)/a) + dx*tr(dx)/a
    let left : Matrix := ⟨n, n, fun i j => I.coeff i j - dx.coeff i * dg.coeff j / a⟩
    let right : Matrix := ⟨n, n, fun i j => I.coeff i j - dg.coeff i * dx.coeff j / a⟩
    let prod := (left.mul s.H).mul right
    let H : Matrix :=
      ⟨prod.rows, prod.cols, fun i j => prod.coeff i j + dx.coeff i * dx.coeff j / a⟩
    (H, { x0 := x, g0 := g, dx := dx, dg := dg, H := H })

/-! ## Lemmas on the swap -/

theorem eliminateRows_apply (ib : Nat) (c : (Nat → Nat → ℚ) → Nat → ℚ)
    (hc : ∀ X Y i, (∀ k, X i k = Y i k) → c X i = c Y i) :
    ∀ (l : List Nat) (X : Nat → Nat → ℚ), l.Nodup → ∀ i k,
      eliminateRows ib c l X i k
        = if i ∈ l ∧ i ≠ ib then X i k - c X i * X ib k else X i k := by
  intro l
  induction l with
  | nil => intro X _ i k; simp [eliminateRows]
  | cons a l ih =>
    intro X hnd i k
    have hal : a ∉ l := (List.nodup_cons.mp hnd).1
    have hl : l.Nodup := (List.nodup_cons.mp hnd).2
    by_cases ha : a = ib
    · subst ha
      simp only [eliminateRows, ne_eq, not_true_eq_false, if_false]
      rw [ih X hl i k]
      by_cases hi : i = a
      · subst hi; simp
      · simp [hi]
    · simp only [eliminateRows, ne_eq, ha, not_false_eq_true, if_true]
      rw [ih _ hl i k]
      by_cases hi : i = a
      · subst hi
        simp [hal, ha]
      · have hib : ¬ ib = a := fun h => ha h.symm
        have hcc : c (fun i' k => if i' = a then X a k - c X a * X ib k else X i' k) i = c X i :=
          hc _ _ i (fun k => by simp [hi])
        simp only [hi, hib, if_false, hcc, List.mem_cons, false_or]

theorem swapBody_S (st : Impl) (ib inn i k : Nat) :
    (st.swapBody ib inn).S.coeff i k =
      if i = ib then
        (if k = inn then 1 / st.S.coeff ib inn else st.S.coeff ib k * (1 / st.S.coeff ib inn))
      else if k = inn then -(st.S.coeff i inn) * (1 / st.S.coeff ib inn)
      else if i < st.S.rows then
        st.S.coeff i k - st.S.coeff i inn * (st.S.coeff ib k * (1 / st.S.coeff ib inn))
      else st.S.coeff i k := by
  have hc : ∀ (X Y : Nat → Nat → ℚ) (i : Nat), (∀ k, X i k = Y i k) →
      (fun (X : Nat → Nat → ℚ) i => X i inn) X i = (fun (X : Nat → Nat → ℚ) i => X i inn) Y i :=
    fun X Y i h => h inn
  simp only [Impl.swapBody]
  rw [eliminateRows_apply ib _ hc _ _ (List.nodup_range _)]
  by_cases hi : i = ib
  · subst hi
    by_cases hk : k = inn
    · simp [hk]
    · simp [hk, scaleRow]
  · by_cases hk : k = inn
    · simp [hi, hk]
    · by_cases hr : i < st.S.rows
      · simp [hi, hk, hr, scaleRow]
      · simp [hi, hk, hr, scaleRow]

theorem swapBody_R (st : Impl) (ib inn i k : Nat) :
    (st.swapBody ib inn).R.coeff i k =
      if i = ib then st.R.coeff ib k * (1 / st.S.coeff ib inn)
      else if i < st.S.rows then
        st.R.coeff i k - st.S.coeff i inn * (st.R.coeff ib k * (1 / st.S.coeff ib inn))
      else st.R.coeff i k := by
  have hc : ∀ (X Y : Nat → Nat → ℚ) (i : Nat), (∀ k, X i k = Y i k) →
      (fun (_ : Nat → Nat → ℚ) i => st.S.coeff i inn) X i
        = (fun (_ : Nat → Nat → ℚ) i => st.S.coeff i inn) Y i :=
    fun X Y i _ => rfl
  simp only [Impl.swapBody]
  rw [eliminateRows_apply ib _ hc _ _ (List.nodup_range _)]
  by_cases hi : i = ib
  · subst hi
    simp [scaleRow]
  · by_cases hr : i < st.S.rows
    · simp [hi, hr, scaleRow]
    · simp [hi, hr, scaleRow]

theorem updateWithSwapBasicVariable_eq_some (st : Impl) (ib inn : Nat)
    (hib : ib < st.lu.rank) (hin : inn < st.lu.cols - st.lu.rank)
    (hp : |st.S.coeff ib inn| > st.threshold) :
    st.updateWithSwapBasicVariable ib inn = some (st.swapBody ib inn) := by
  simp [Impl.updateWithSwapBasicVariable, hib, hin, hp]

/-! ## Lemmas on index vectors -/

theorem Indices.swap_coeff (v : Indices) (a b k : Nat) (ha : a < v.length) (hb : b < v.length) :
    (v.swap a b).coeff k = v.coeff (if k = b then a else if k = a then b else k) := by
  unfold Indices.swap Indices.coeff
  by_cases hkb : k = b
  · subst hkb
    simp [List.getD_eq_getElem?_getD, List.getElem?_set, hb, ha]
  · by_cases hka : k = a
    · subst hka
      have : ¬ b = k := fun h => hkb h.symm
      simp [List.getD_eq_getElem?_getD, List.getElem?_set, hb, ha, this, hkb]
    · have h1 : ¬ b = k := fun h => hkb h.symm
      have h2 : ¬ a = k := fun h => hka h.symm
      simp [List.getD_eq_getElem?_getD, List.getElem?_set, h1, h2, hka, hkb]

theorem Indices.swap_length (v : Indices) (a b : Nat) : (v.swap a b).length = v.length := by
  simp [Indices.swap]

theorem Indices.map_coeff_range (v : Indices) : (List.range v.length).map v.coeff = v := by
  apply List.ext_getElem
  · simp
  · intro n h1 h2
    simp [Indices.coeff, List.getElem?_eq_getElem h2]

theorem Indices.eq_map_of_coeff (v u : Indices) (f : Nat → Nat) (hl : v.length = u.length)
    (h : ∀ k, k < u.length → v.coeff k = u.coeff (f k)) :
    v = ((List.range u.length).map f).map u.coeff := by
  apply List.ext_getElem
  · simp [hl]
  · intro n h1 h2
    have hn : n < u.length := by simpa using h2
    have := h n hn
    simp only [Indices.coeff, List.getD_eq_getElem _ _ h1] at this
    simp [this, Indices.coeff]

theorem perm_map_range_of_injOn (n : Nat) (f : Nat → Nat) (hinj : Set.InjOn f {k | k < n})
    (hmaps : ∀ k, k < n → f k < n) : ((List.range n).map f).Perm (List.range n) := by
  have hnd : ((List.range n).map f).Nodup := by
    apply List.Nodup.map_on _ (List.nodup_range n)
    intro x hx y hy hxy
    exact hinj (by simpa using hx) (by simpa using hy) hxy
  have hsub : ((List.range n).map f) ⊆ List.range n := by
    intro x hx
    simp only [List.mem_map, List.mem_range] at hx
    obtain ⟨k, hk, rfl⟩ := hx
    simpa using hmaps k hk
  exact (List.subperm_of_subset hnd hsub).perm_of_length_le (by simp)

theorem Indices.swap_perm (v : Indices) (a b : Nat) (ha : a < v.length) (hb : b < v.length) :
    (v.swap a b).Perm v := by
  have h1 := Indices.eq_map_of_coeff (v.swap a b) v
    (fun k => if k = b then a else if k = a then b else k)
    (Indices.swap_length v a b) (fun k _ => Indices.swap_coeff v a b k ha hb)
  have h2 : ((List.range v.length).map
      (fun k => if k = b then a else if k = a then b else k)).Perm (List.range v.length) := by
    apply perm_map_range_of_injOn
    · intro x _ y _ hxy
      beta_reduce at hxy
      split_ifs at hxy <;> omega
    · intro k hk
      beta_reduce
      split_ifs <;> omega
  have h3 := h2.map v.coeff
  rw [Indices.map_coeff_range] at h3
  rw [h1]
  exact h3

/-! ## The swap: preconditions, Gauss-Jordan step, canonical identity -/

theorem swapBody_RAQ (st : Impl) (A : Matrix) (ib inn i k : Nat)
    (hS : st.S.rows = st.lu.rank) (hib : ib < st.Q.length)
    (hin : st.lu.rank + inn < st.Q.length) :
    (st.swapBody ib inn).RAQ A i k =
      if i = ib then
        (1 / st.S.coeff ib inn)
          * st.RAQ A ib (if k = st.lu.rank + inn then ib else if k = ib then st.lu.rank + inn else k)
      else if i < st.lu.rank then
        st.RAQ A i (if k = st.lu.rank + inn then ib else if k = ib then st.lu.rank + inn else k)
          - st.S.coeff i inn * (1 / st.S.coeff ib inn)
            * st.RAQ A ib
                (if k = st.lu.rank + inn then ib else if k = ib then st.lu.rank + inn else k)
      else
        st.RAQ A i (if k = st.lu.rank + inn then ib else if k = ib then st.lu.rank + inn else k) := by
  have hQ : (st.swapBody ib inn).Q.coeff k
      = st.Q.coeff (if k = st.lu.rank + inn then ib else if k = ib then st.lu.rank + inn else k) := by
    have : (st.swapBody ib inn).Q = st.Q.swap ib (st.lu.rank + inn) := by
      simp [Impl.swapBody, hS]
    rw [this, Indices.swap_coeff _ _ _ _ hib hin]
  unfold Impl.RAQ
  rw [hQ]
  simp only [swapBody_R, hS]
  by_cases hi : i = ib
  · simp only [hi, if_true]
    rw [Finset.mul_sum]
    apply Finset.sum_congr rfl
    intro j _
    ring
  · simp only [hi, if_false]
    by_cases hr : i < st.lu.rank
    · simp only [hr, if_true]
      rw [Finset.mul_sum, ← Finset.sum_sub_distrib]
      apply Finset.sum_congr rfl
      intro j _
      ring
    · simp only [hr, if_false]

/-- Claim C6: `updateWithSwapBasicVariable(ib, in)` fails its precondition check exactly
when `ib >= r`, or `in >= n - r`, or `|S(ib, in)| <= threshold`. -/
theorem updateWithSwapBasicVariable_fails_iff (st : Impl) (ib inn : Nat) :
    st.updateWithSwapBasicVariable ib inn = none ↔
      (ib ≥ st.lu.rank ∨ inn ≥ st.lu.cols - st.lu.rank ∨ |st.S.coeff ib inn| ≤ st.threshold) := by
  unfold Impl.updateWithSwapBasicVariable
  by_cases h1 : ib < st.lu.rank
  · by_cases h2 : inn < st.lu.cols - st.lu.rank
    · by_cases h3 : |st.S.coeff ib inn| > st.threshold
      · rw [if_neg (not_not.mpr h1), if_neg (not_not.mpr h2), if_neg (not_not.mpr h3)]
        constructor
        · intro h; cases h
        · rintro (h | h | h)
          · exact absurd h1 (not_lt.mpr h)
          · exact absurd h2 (not_lt.mpr h)
          · exact absurd h3 (not_lt.mpr h)
      · simp only [h1, h2, h3, not_true_eq_false, not_false_eq_true, if_true, if_false, true_iff]
        right; right; exact not_lt.mp h3
    · simp only [h1, h2, not_true_eq_false, not_false_eq_true, if_true, if_false, true_iff]
      right; left; exact not_lt.mp h2
  · simp only [h1, not_false_eq_true, if_true, true_iff]
    left; exact not_lt.mp h1

/-- Claim C7: a valid swap with pivot `p = S(ib, in)` is the one-step Gauss-Jordan update of
`S` and of the top `r` rows of `R`. -/
theorem updateWithSwapBasicVariable_gauss_jordan (st : Impl) (ib inn : Nat)
    (hS : st.S.rows = st.lu.rank) (hib : ib < st.lu.rank)
    (hin : inn < st.lu.cols - st.lu.rank) (hp : |st.S.coeff ib inn| > st.threshold) :
    ∃ st1, st.updateWithSwapBasicVariable ib inn = some st1 ∧
      st1.S.coeff ib inn = 1 / st.S.coeff ib inn ∧
      (∀ k, k ≠ inn → st1.S.coeff ib k = st.S.coeff ib k / st.S.coeff ib inn) ∧
      (∀ i, i ≠ ib → st1.S.coeff i inn = -(st.S.coeff i inn) / st.S.coeff ib inn) ∧
      (∀ i, i < st.lu.rank → i ≠ ib → ∀ k, k ≠ inn →
        st1.S.coeff i k
          = st.S.coeff i k - st.S.coeff i inn * st.S.coeff ib k / st.S.coeff ib inn) ∧
      (∀ k, st1.R.coeff ib k = st.R.coeff ib k / st.S.coeff ib inn) ∧
      (∀ i, i < st.lu.rank → i ≠ ib → ∀ k,
        st1.R.coeff i k
          = st.R.coeff i k - st.S.coeff i inn * st.R.coeff ib k / st.S.coeff ib inn) := by
  refine ⟨_, updateWithSwapBasicVariable_eq_some st ib inn hib hin hp, ?_, ?_, ?_, ?_, ?_, ?_⟩
  · simp [swapBody_S]
  · intro k hk
    simp [swapBody_S, hk, div_eq_mul_inv]
  · intro i hi
    simp [swapBody_S, hi, div_eq_mul_inv]
  · intro i hir hi k hk
    simp only [swapBody_S, hi, hk, hS, hir, if_true, if_false]
    ring
  · intro k
    simp [swapBody_R, div_eq_mul_inv]
  · intro i hir hi k
    simp only [swapBody_R, hi, hS, hir, if_true, if_false]
    ring

/-- Witness of `updateWithSwapBasicVariable_gauss_jordan`: the swap of basic position 0 with
non-basic position 1 in the scenario state. -/
theorem updateWithSwapBasicVariable_gauss_jordan_witness :
    ∃ st1, scenarioState.updateWithSwapBasicVariable 0 1 = some st1 ∧
      st1.S.coeff 0 1 = 1 / scenarioState.S.coeff 0 1 ∧
      (∀ k, k ≠ 1 → st1.S.coeff 0 k = scenarioState.S.coeff 0 k / scenarioState.S.coeff 0 1) ∧
      (∀ i, i ≠ 0 → st1.S.coeff i 1 = -(scenarioState.S.coeff i 1) / scenarioState.S.coeff 0 1) ∧
      (∀ i, i < scenarioState.lu.rank → i ≠ 0 → ∀ k, k ≠ 1 →
        st1.S.coeff i k
          = scenarioState.S.coeff i k
            - scenarioState.S.coeff i 1 * scenarioState.S.coeff 0 k / scenarioState.S.coeff 0 1) ∧
      (∀ k, st1.R.coeff 0 k = scenarioState.R.coeff 0 k / scenarioState.S.coeff 0 1) ∧
      (∀ i, i < scenarioState.lu.rank → i ≠ 0 → ∀ k,
        st1.R.coeff i k
          = scenarioState.R.coeff i k
            - scenarioState.S.coeff i 1 * scenarioState.R.coeff 0 k / scenarioState.S.coeff 0 1) :=
  updateWithSwapBasicVariable_gauss_jordan scenarioState 0 1 (by decide!) (by decide!)
    (by decide!) (by decide!)

theorem swapBody_canonicalIdentity (st : Impl) (A : Matrix) (ib inn : Nat)
    (hwf : st.WellFormed) (hid : st.CanonicalIdentity A)
    (hib : ib < st.lu.rank) (hin : inn < st.lu.cols - st.lu.rank)
    (hp : st.S.coeff ib inn ≠ 0) :
    (st.swapBody ib inn).CanonicalIdentity A := by
  obtain ⟨hrows, hcols, h⟩ := hid
  have hQl : st.Q.length = st.lu.cols := by
    have := hwf.Q_perm.length_eq
    simpa using this
  have hrm := hwf.rank_le_rows
  have hmn := hwf.rows_le_cols
  refine ⟨hrows, hcols, ?_⟩
  intro i hi k hk
  have hi1 : i < st.lu.rows := hi
  have hk1 : k < st.lu.cols := hk
  rw [swapBody_RAQ st A ib inn i k hwf.S_rows (by omega) (by omega)]
  have hσ : (if k = st.lu.rank + inn then ib else if k = ib then st.lu.rank + inn else k)
      < st.numVariables := by
    show _ < st.lu.cols
    split_ifs <;> omega
  have hib1 : ib < st.numEquations := by show ib < st.lu.rows; omega
  rw [h ib hib1 _ hσ, h i hi _ hσ]
  simp only [Impl.C, Matrix.setTopRows, zeros, identity, Impl.numBasicVariables, Impl.numEquations, Impl.numVariables]
  have hlu : (st.swapBody ib inn).lu = st.lu := rfl
  simp only [hlu, swapBody_S, hwf.S_rows]
  by_cases hiib : i = ib
  · subst hiib
    simp only [if_true, hib]
    by_cases hk1 : k = st.lu.rank + inn
    · subst hk1
      have h1 : ¬ (st.lu.rank + inn < st.lu.rank) := by omega
      simp [h1, hib]
    · simp only [hk1, if_false]
      by_cases hk2 : k = i
      · subst hk2
        have h1 : ¬ (st.lu.rank + inn < st.lu.rank) := by omega
        simp only [if_true, h1, if_false, hib, Nat.add_sub_cancel_left]
        field_simp
      · simp only [hk2, if_false]
        by_cases hkr : k < st.lu.rank
        · have : ¬ i = k := fun h => hk2 h.symm
          simp [hkr, this]
        · have : ¬ (k - st.lu.rank = inn) := by omega
          simp only [hkr, if_false, this]
          ring
  · simp only [hiib, if_false]
    by_cases hir : i < st.lu.rank
    · simp only [hir, if_true, hib]
      by_cases hk1 : k = st.lu.rank + inn
      · subst hk1
        have h1 : ¬ (st.lu.rank + inn < st.lu.rank) := by omega
        have h2 : ¬ ib = i := fun h => hiib h.symm
        simp only [if_true, hib, hiib, h1, if_false, Nat.add_sub_cancel_left]
        ring
      · simp only [hk1, if_false]
        by_cases hk2 : k = ib
        · subst hk2
          have h1 : ¬ (st.lu.rank + inn < st.lu.rank) := by omega
          simp only [if_true, h1, if_false, Nat.add_sub_cancel_left, hib, hiib]
          field_simp
        · simp only [hk2, if_false]
          by_cases hkr : k < st.lu.rank
          · have : ¬ ib = k := fun h => hk2 h.symm
            simp only [hkr, if_true, this, if_false]
            ring
          · have : ¬ (k - st.lu.rank = inn) := by omega
            simp only [hkr, if_false, this]
            ring
    · simp only [hir, if_false]

/-- Claim C2: from a state in which `R * A * Qperm = [I_r S; 0 0]`, a swap at `(ib, in)` with
`ib < r`, `in < n - r` and `|S(ib, in)| > threshold` succeeds and the identity holds again. -/
theorem updateWithSwapBasicVariable_preserves_identity (st : Impl) (A : Matrix) (ib inn : Nat)
    (hwf : st.WellFormed) (hid : st.CanonicalIdentity A)
    (hib : ib < st.lu.rank) (hin : inn < st.lu.cols - st.lu.rank)
    (hp : |st.S.coeff ib inn| > st.threshold) :
    ∃ st1, st.updateWithSwapBasicVariable ib inn = some st1 ∧ st1.CanonicalIdentity A := by
  have hne : st.S.coeff ib inn ≠ 0 := by
    intro h0
    rw [h0, abs_zero] at hp
    exact absurd hwf.threshold_nonneg (not_le.mpr hp)
  exact ⟨_, updateWithSwapBasicVariable_eq_some st ib inn hib hin hp,
    swapBody_canonicalIdentity st A ib inn hwf hid hib hin hne⟩

/-! ## Triangular solves: correctness and cancellation -/

theorem solveUnitLowerRows_inv (L B : Nat → Nat → ℚ) (k : Nat) :
    ∀ t, (∀ i, t ≤ i → solveUnitLowerRows L B t i k = B i k) ∧
      (∀ i, i < t → solveUnitLowerRows L B t i k
          + ∑ j ∈ Finset.range i, L i j * solveUnitLowerRows L B t j k = B i k) := by
  intro t
  induction t with
  | zero => exact ⟨fun i _ => rfl, fun i hi => absurd hi (Nat.not_lt_zero i)⟩
  | succ t ih =>
    obtain ⟨ih1, ih2⟩ := ih
    have hlow : ∀ i, i < t → ∑ j ∈ Finset.range i, L i j * solveUnitLowerRows L B (t + 1) j k
        = ∑ j ∈ Finset.range i, L i j * solveUnitLowerRows L B t j k := by
      intro i hi
      apply Finset.sum_congr rfl
      intro j hj
      have hjt : j ≠ t := by
        have := Finset.mem_range.mp hj
        omega
      simp [solveUnitLowerRows, hjt]
    constructor
    · intro i hi
      have hit : i ≠ t := by omega
      simp only [solveUnitLowerRows, hit, if_false]
      exact ih1 i (by omega)
    · intro i hi
      by_cases hit : i = t
      · subst hit
        have hsum : ∑ j ∈ Finset.range i, L i j * solveUnitLowerRows L B (i + 1) j k
            = ∑ j ∈ Finset.range i, L i j * solveUnitLowerRows L B i j k := by
          apply Finset.sum_congr rfl
          intro j hj
          have hjt : j ≠ i := by
            have := Finset.mem_range.mp hj
            omega
          simp [solveUnitLowerRows, hjt]
        rw [hsum]
        simp only [solveUnitLowerRows, if_true]
        rw [ih1 i (le_refl i)]
        ring
      · have hlt : i < t := by omega
        rw [hlow i hlt]
        simp only [solveUnitLowerRows, hit, if_false]
        exact ih2 i hlt

theorem solveUnitLower_spec (L B : Nat → Nat → ℚ) (m i k : Nat) (hi : i < m) :
    solveUnitLower L m B i k + ∑ j ∈ Finset.range i, L i j * solveUnitLower L m B j k = B i k :=
  (solveUnitLowerRows_inv L B k m).2 i hi

theorem solveUpperRows_inv (U B : Nat → Nat → ℚ) (r k : Nat) (hU : ∀ i, i < r → U i i ≠ 0) :
    ∀ t, t ≤ r → (∀ i, i < r - t ∨ r ≤ i → solveUpperRows U r B t i k = B i k) ∧
      (∀ i, r - t ≤ i → i < r → U i i * solveUpperRows U r B t i k
          + ∑ j ∈ Finset.Ico (i + 1) r, U i j * solveUpperRows U r B t j k = B i k) := by
  intro t
  induction t with
  | zero =>
    intro _
    exact ⟨fun i _ => rfl, fun i h1 h2 => by omega⟩
  | succ t ih =>
    intro ht
    obtain ⟨ih1, ih2⟩ := ih (by omega)
    have hkeep : ∀ i, r - 1 - t < i →
        ∑ j ∈ Finset.Ico (i + 1) r, U i j * solveUpperRows U r B (t + 1) j k
          = ∑ j ∈ Finset.Ico (i + 1) r, U i j * solveUpperRows U r B t j k := by
      intro i hi
      apply Finset.sum_congr rfl
      intro j hj
      have hjt : j ≠ r - 1 - t := by
        have := (Finset.mem_Ico.mp hj).1
        omega
      simp [solveUpperRows, hjt]
    constructor
    · intro i hi
      have hit : i ≠ r - 1 - t := by omega
      simp only [solveUpperRows, hit, if_false]
      exact ih1 i (by omega)
    · intro i h1 h2
      by_cases hit : i = r - 1 - t
      · have hsum : ∑ j ∈ Finset.Ico (i + 1) r, U i j * solveUpperRows U r B (t + 1) j k
            = ∑ j ∈ Finset.Ico (i + 1) r, U i j * solveUpperRows U r B t j k := by
          apply Finset.sum_congr rfl
          intro j hj
          have hjt : j ≠ r - 1 - t := by
            have := (Finset.mem_Ico.mp hj).1
            omega
          simp [solveUpperRows, hjt]
        rw [hsum]
        simp only [solveUpperRows, hit, if_true]
        rw [← hit, ih1 i (by omega)]
        have := hU i h2
        field_simp
      · have hlt : r - 1 - t < i := by omega
        rw [hkeep i hlt]
        simp only [solveUpperRows, hit, if_false]
        exact ih2 i (by omega) h2

theorem solveUpper_spec (U B : Nat → Nat → ℚ) (r i k : Nat) (hU : ∀ i, i < r → U i i ≠ 0)
    (hi : i < r) :
    U i i * solveUpper U r B i k
      + ∑ j ∈ Finset.Ico (i + 1) r, U i j * solveUpper U r B j k = B i k :=
  (solveUpperRows_inv U B r k hU r (le_refl r)).2 i (by omega) hi

theorem solveUpper_rest (U B : Nat → Nat → ℚ) (r i k : Nat) (hi : r ≤ i) :
    solveUpper U r B i k = B i k := by
  have : ∀ t, t ≤ r → solveUpperRows U r B t i k = B i k := by
    intro t
    induction t with
    | zero => intro _; rfl
    | succ t ih =>
      intro ht
      have hit : i ≠ r - 1 - t := by omega
      simp only [solveUpperRows, hit, if_false]
      exact ih (by omega)
  exact this r (le_refl r)

theorem cancel_unitLower (c : Nat → Nat → ℚ) (y z : Nat → ℚ) (m : Nat)
    (h : ∀ i, i < m → y i + ∑ j ∈ Finset.range i, c i j * y j
        = z i + ∑ j ∈ Finset.range i, c i j * z j) :
    ∀ i, i < m → y i = z i := by
  intro i
  induction i using Nat.strong_induction_on with
  | _ i ih =>
    intro hi
    have hs : ∑ j ∈ Finset.range i, c i j * y j = ∑ j ∈ Finset.range i, c i j * z j := by
      apply Finset.sum_congr rfl
      intro j hj
      have hj1 := Finset.mem_range.mp hj
      rw [ih j hj1 (by omega)]
    have := h i hi
    rw [hs] at this
    exact add_right_cancel this

theorem cancel_upper (u : Nat → Nat → ℚ) (y z : Nat → ℚ) (r : Nat) (hu : ∀ i, i < r → u i i ≠ 0)
    (h : ∀ i, i < r → u i i * y i + ∑ j ∈ Finset.Ico (i + 1) r, u i j * y j
        = u i i * z i + ∑ j ∈ Finset.Ico (i + 1) r, u i j * z j) :
    ∀ i, i < r → y i = z i := by
  have key : ∀ d i, i < r → r - i ≤ d → y i = z i := by
    intro d
    induction d with
    | zero => intro i hi hd; omega
    | succ d ih =>
      intro i hi hd
      have hs : ∑ j ∈ Finset.Ico (i + 1) r, u i j * y j
          = ∑ j ∈ Finset.Ico (i + 1) r, u i j * z j := by
        apply Finset.sum_congr rfl
        intro j hj
        have hj1 := Finset.mem_Ico.mp hj
        rw [ih j hj1.2 (by omega)]
      have := h i hi
      rw [hs] at this
      exact mul_left_cancel₀ (hu i hi) (add_right_cancel this)
  intro i hi
  exact key (r - i) i hi (le_refl _)

/-! ## The decomposition: `compute` establishes the canonical identity -/

theorem sum_mul_sum_comm (s t : Finset Nat) (c : Nat → ℚ) (X : Nat → Nat → ℚ) (a : Nat → ℚ) :
    ∑ l ∈ s, c l * ∑ j ∈ t, X l j * a j = ∑ j ∈ t, (∑ l ∈ s, c l * X l j) * a j := by
  simp_rw [Finset.mul_sum, Finset.sum_mul]
  rw [Finset.sum_comm]
  apply Finset.sum_congr rfl
  intro j _
  apply Finset.sum_congr rfl
  intro l _
  ring

theorem sum_L_mul (lu : FullPivLU) (m i : Nat) (hi : i < m) (y : Nat → ℚ) :
    ∑ l ∈ Finset.range m, lu.L i l * y l = y i + ∑ l ∈ Finset.range i, lu.L i l * y l := by
  rw [← Finset.sum_range_add_sum_Ico _ (show i + 1 ≤ m by omega), Finset.sum_range_succ]
  have hz : ∑ l ∈ Finset.Ico (i + 1) m, lu.L i l * y l = 0 := by
    apply Finset.sum_eq_zero
    intro l hl
    have := (Finset.mem_Ico.mp hl).1
    have h1 : ¬ i = l := by omega
    have h2 : ¬ l < i := by omega
    simp [FullPivLU.L, h1, h2]
  rw [hz]
  simp [FullPivLU.L]
  ring

theorem Indices.coeff_eq_getElem (v : Indices) (j : Nat) (h : j < v.length) :
    v.coeff j = v[j] := by
  simp [Indices.coeff, List.getElem?_eq_getElem h]

theorem Indices.perm_range_length (v : Indices) (n : Nat) (h : v.Perm (List.range n)) :
    v.length = n := by
  simpa using h.length_eq

theorem Indices.perm_range_coeff_lt (v : Indices) (n j : Nat) (h : v.Perm (List.range n))
    (hj : j < n) : v.coeff j < n := by
  have hl := Indices.perm_range_length v n h
  rw [Indices.coeff_eq_getElem v j (by omega)]
  have : v[j] ∈ List.range n := h.mem_iff.mp (List.getElem_mem _)
  simpa using this

theorem Indices.perm_range_coeff_inj (v : Indices) (n j1 j2 : Nat) (h : v.Perm (List.range n))
    (h1 : j1 < n) (h2 : j2 < n) (heq : v.coeff j1 = v.coeff j2) : j1 = j2 := by
  have hl := Indices.perm_range_length v n h
  have hnd : v.Nodup := h.nodup_iff.mpr (List.nodup_range n)
  rw [Indices.coeff_eq_getElem v j1 (by omega), Indices.coeff_eq_getElem v j2 (by omega)] at heq
  exact (hnd.getElem_inj_iff).mp heq

theorem Indices.perm_range_exists (v : Indices) (n i : Nat) (h : v.Perm (List.range n))
    (hi : i < n) : ∃ j, j < n ∧ v.coeff j = i := by
  have hl := Indices.perm_range_length v n h
  have hmem : i ∈ v := h.mem_iff.mpr (by simpa using hi)
  obtain ⟨j, hj, hji⟩ := List.getElem_of_mem hmem
  exact ⟨j, by omega, by rw [Indices.coeff_eq_getElem v j hj]; exact hji⟩

theorem sum_indicator (P : Indices) (m i : Nat) (hP : P.Perm (List.range m)) (hi : i < m)
    (a : Nat → ℚ) :
    ∃ j0, j0 < m ∧ P.coeff j0 = i ∧
      ∑ c ∈ Finset.range m, (if P.coeff c = i then (1 : ℚ) else 0) * a c = a j0 := by
  obtain ⟨j0, hj0, hj0i⟩ := Indices.perm_range_exists P m i hP hi
  refine ⟨j0, hj0, hj0i, ?_⟩
  rw [Finset.sum_eq_single j0]
  · simp [hj0i]
  · intro c hc hne
    have hc1 := Finset.mem_range.mp hc
    have : ¬ P.coeff c = i := by
      intro h
      exact hne (Indices.perm_range_coeff_inj P m c j0 hP hc1 hj0 (h.trans hj0i.symm))
    simp [this]
  · intro h
    exact absurd (Finset.mem_range.mpr hj0) h

theorem compute_stage1 (A : Matrix) (lu : FullPivLU) (hlu : IsFullPivLU A lu) (i k : Nat)
    (hi : i < A.rows) (hk : k < A.cols) :
    ∑ j ∈ Finset.range A.rows,
        solveUnitLower lu.L A.rows (fun i j => if lu.permutationP.coeff j = i then 1 else 0) i j
          * A.coeff j (lu.permutationQ.coeff k)
      = lu.U i k := by
  revert i
  apply cancel_unitLower lu.L _ _ A.rows
  intro i hi
  rw [sum_mul_sum_comm, ← Finset.sum_add_distrib]
  have h1 : ∀ j ∈ Finset.range A.rows,
      solveUnitLower lu.L A.rows (fun i j => if lu.permutationP.coeff j = i then 1 else 0) i j
          * A.coeff j (lu.permutationQ.coeff k)
        + (∑ l ∈ Finset.range i, lu.L i l
            * solveUnitLower lu.L A.rows
                (fun i j => if lu.permutationP.coeff j = i then 1 else 0) l j)
          * A.coeff j (lu.permutationQ.coeff k)
      = (if lu.permutationP.coeff j = i then (1 : ℚ) else 0)
          * A.coeff j (lu.permutationQ.coeff k) := by
    intro j _
    rw [← add_mul, solveUnitLower_spec lu.L _ A.rows i j hi]
  rw [Finset.sum_congr rfl h1]
  obtain ⟨j0, hj0, hj0i, hsum⟩ := sum_indicator lu.permutationP A.rows i hlu.P_perm hi
    (fun c => A.coeff c (lu.permutationQ.coeff k))
  rw [hsum, hlu.factorization j0 hj0 k hk, hj0i, sum_L_mul lu A.rows i hi]

theorem sum_Ubb_delta (lu : FullPivLU) (r i k : Nat) (hk : k < r) :
    lu.Ubb i i * (if i = k then (1 : ℚ) else 0)
      + ∑ j ∈ Finset.Ico (i + 1) r, lu.Ubb i j * (if j = k then (1 : ℚ) else 0)
      = lu.U i k := by
  by_cases hik : i = k
  · subst hik
    have hz : ∑ j ∈ Finset.Ico (i + 1) r, lu.Ubb i j * (if j = i then (1 : ℚ) else 0) = 0 := by
      apply Finset.sum_eq_zero
      intro j hj
      have := (Finset.mem_Ico.mp hj).1
      have h1 : ¬ j = i := by omega
      simp [h1]
    rw [hz]
    simp [FullPivLU.Ubb, FullPivLU.U]
  · by_cases hlt : i < k
    · rw [Finset.sum_eq_single k]
      · have : i ≤ k := by omega
        simp [hik, FullPivLU.Ubb, FullPivLU.U, this]
      · intro j _ hjk
        simp [hjk]
      · intro h
        exact absurd (Finset.mem_Ico.mpr ⟨by omega, hk⟩) h
    · have hz : ∑ j ∈ Finset.Ico (i + 1) r, lu.Ubb i j * (if j = k then (1 : ℚ) else 0) = 0 := by
        apply Finset.sum_eq_zero
        intro j hj
        have := (Finset.mem_Ico.mp hj).1
        have h1 : ¬ j = k := by omega
        simp [h1]
      have hle : ¬ i ≤ k := by omega
      rw [hz]
      simp [hik, FullPivLU.U, hle]

theorem compute_stage2 (A : Matrix) (lu : FullPivLU) (hlu : IsFullPivLU A lu) (i k : Nat)
    (hi : i < lu.rank) (hk : k < A.cols) :
    ∑ j ∈ Finset.range A.rows,
        solveUpper lu.Ubb lu.rank
            (solveUnitLower lu.L A.rows
              (fun i j => if lu.permutationP.coeff j = i then 1 else 0)) i j
          * A.coeff j (lu.permutationQ.coeff k)
      = if k < lu.rank then (if i = k then 1 else 0)
        else solveUpper lu.Ubb lu.rank lu.Ubn i (k - lu.rank) := by
  have hU : ∀ i, i < lu.rank → lu.Ubb i i ≠ 0 := by
    intro i hi
    simpa [FullPivLU.Ubb] using hlu.pivot_ne_zero i hi
  revert i
  apply cancel_upper lu.Ubb _ _ lu.rank hU
  intro i hi
  have him : i < A.rows := lt_of_lt_of_le hi hlu.rank_le
  rw [sum_mul_sum_comm, Finset.mul_sum, ← Finset.sum_add_distrib]
  have h1 : ∀ j ∈ Finset.range A.rows,
      lu.Ubb i i * (solveUpper lu.Ubb lu.rank
            (solveUnitLower lu.L A.rows
              (fun i j => if lu.permutationP.coeff j = i then 1 else 0)) i j
          * A.coeff j (lu.permutationQ.coeff k))
        + (∑ l ∈ Finset.Ico (i + 1) lu.rank, lu.Ubb i l
            * solveUpper lu.Ubb lu.rank
                (solveUnitLower lu.L A.rows
                  (fun i j => if lu.permutationP.coeff j = i then 1 else 0)) l j)
          * A.coeff j (lu.permutationQ.coeff k)
      = solveUnitLower lu.L A.rows
            (fun i j => if lu.permutationP.coeff j = i then 1 else 0) i j
          * A.coeff j (lu.permutationQ.coeff k) := by
    intro j _
    rw [← mul_assoc, ← add_mul, solveUpper_spec lu.Ubb _ lu.rank i j hU hi]
  rw [Finset.sum_congr rfl h1, compute_stage1 A lu hlu i k him hk]
  by_cases hkr : k < lu.rank
  · simp only [hkr, if_true]
    exact (sum_Ubb_delta lu lu.rank i k hkr).symm
  · simp only [hkr, if_false]
    rw [solveUpper_spec lu.Ubb _ lu.rank i _ hU hi]
    have hle : i ≤ k := by omega
    have hkk : lu.rank + (k - lu.rank) = k := by omega
    simp [FullPivLU.Ubn, FullPivLU.U, hle, hkk]

theorem compute_eq_some (fullPivLu : Matrix → FullPivLU) (st : Impl) (A : Matrix)
    (hmn : A.rows ≤ A.cols) :
    Impl.compute fullPivLu st A = some (Impl.computeBody fullPivLu st A) := by
  simp [Impl.compute, hmn]

theorem computeBody_wellFormed (fullPivLu : Matrix → FullPivLU) (st : Impl) (A : Matrix)
    (hmn : A.rows ≤ A.cols) (hlu : IsFullPivLU A (fullPivLu A)) :
    (Impl.computeBody fullPivLu st A).WellFormed where
  rank_le_rows := by
    show (fullPivLu A).rank ≤ (fullPivLu A).rows
    rw [hlu.rows_eq]; exact hlu.rank_le
  rows_le_cols := by
    show (fullPivLu A).rows ≤ (fullPivLu A).cols
    rw [hlu.rows_eq, hlu.cols_eq]; exact hmn
  S_rows := rfl
  S_cols := by
    show A.cols - (fullPivLu A).rank = (fullPivLu A).cols - (fullPivLu A).rank
    rw [hlu.cols_eq]
  Q_perm := by
    show (fullPivLu A).permutationQ.Perm (List.range (fullPivLu A).cols)
    rw [hlu.cols_eq]; exact hlu.Q_perm
  Kb_perm := List.Perm.refl _
  Kn_perm := by
    show (List.range (A.cols - (fullPivLu A).rank)).Perm
      (List.range ((fullPivLu A).cols - (fullPivLu A).rank))
    rw [hlu.cols_eq]
  threshold_nonneg := by
    show 0 ≤ |(fullPivLu A).maxPivot| * (fullPivLu A).threshold * ((max A.rows A.cols : Nat) : ℚ)
    have h1 := abs_nonneg (fullPivLu A).maxPivot
    have h2 := hlu.threshold_nonneg
    positivity

theorem computeBody_canonicalIdentity (fullPivLu : Matrix → FullPivLU) (st : Impl) (A : Matrix)
    (hlu : IsFullPivLU A (fullPivLu A)) :
    (Impl.computeBody fullPivLu st A).CanonicalIdentity A := by
  refine ⟨hlu.rows_eq.symm, hlu.cols_eq.symm, ?_⟩
  intro i hi k hk
  have hi1 : i < A.rows := by
    have : i < (fullPivLu A).rows := hi
    rw [hlu.rows_eq] at this; exact this
  have hk1 : k < A.cols := by
    have : k < (fullPivLu A).cols := hk
    rw [hlu.cols_eq] at this; exact this
  show ∑ j ∈ Finset.range A.rows,
      solveUpper (fullPivLu A).Ubb (fullPivLu A).rank
          (solveUnitLower (fullPivLu A).L A.rows
            (fun i j => if (fullPivLu A).permutationP.coeff j = i then 1 else 0)) i j
        * A.coeff j ((fullPivLu A).permutationQ.coeff k)
    = if i < (fullPivLu A).rank then
        (if k < (fullPivLu A).rank then (if i = k then 1 else 0)
          else solveUpper (fullPivLu A).Ubb (fullPivLu A).rank (fullPivLu A).Ubn i
            (k - (fullPivLu A).rank))
      else 0
  by_cases hir : i < (fullPivLu A).rank
  · simp only [hir, if_true]
    exact compute_stage2 A (fullPivLu A) hlu i k hir hk1
  · simp only [hir, if_false]
    have h1 : ∀ j ∈ Finset.range A.rows,
        solveUpper (fullPivLu A).Ubb (fullPivLu A).rank
            (solveUnitLower (fullPivLu A).L A.rows
              (fun i j => if (fullPivLu A).permutationP.coeff j = i then 1 else 0)) i j
          * A.coeff j ((fullPivLu A).permutationQ.coeff k)
        = solveUnitLower (fullPivLu A).L A.rows
              (fun i j => if (fullPivLu A).permutationP.coeff j = i then 1 else 0) i j
          * A.coeff j ((fullPivLu A).permutationQ.coeff k) := by
      intro j _
      rw [solveUpper_rest _ _ _ i j (by omega)]
    rw [Finset.sum_congr rfl h1, compute_stage1 A (fullPivLu A) hlu i k hi1 hk1]
    exact hlu.rows_zero i (by omega) hi1 k hk1

theorem scenario_isFullPivLU : IsFullPivLU scenarioA scenarioLU where
  rows_eq := rfl
  cols_eq := rfl
  P_perm := by decide
  Q_perm := by decide
  rank_le := by decide
  pivot_ne_zero := by decide!
  rows_zero := by
    intro i h1 h2
    have h3 : i < 2 := h2
    have h4 : 2 ≤ i := h1
    omega
  factorization := by decide!
  threshold_nonneg := by decide!

theorem scenario_rank (lu : FullPivLU) (hlu : IsFullPivLU scenarioA lu) : lu.rank = 2 := by
  have hle : lu.rank ≤ 2 := hlu.rank_le
  by_contra hne
  have hlt : lu.rank ≤ 1 := by omega
  -- row 1 of `U` vanishes, so row 1 of `L⁻¹ P` annihilates every column of `A`
  have hrow : ∀ k, k < 4 →
      ∑ j ∈ Finset.range 2,
        solveUnitLower lu.L 2 (fun i j => if lu.permutationP.coeff j = i then 1 else 0) 1 j
          * scenarioA.coeff j (lu.permutationQ.coeff k) = 0 := by
    intro k hk
    have h1 := compute_stage1 scenarioA lu hlu 1 k (by decide) hk
    have h2 := hlu.rows_zero 1 hlt (by decide) k hk
    rw [h2] at h1
    exact h1
  obtain ⟨k0, hk0, hQ0⟩ := Indices.perm_range_exists lu.permutationQ 4 0 hlu.Q_perm (by decide)
  obtain ⟨k1, hk1, hQ1⟩ := Indices.perm_range_exists lu.permutationQ 4 1 hlu.Q_perm (by decide)
  have hx0 := hrow k0 hk0
  have hx1 := hrow k1 hk1
  rw [hQ0] at hx0
  rw [hQ1] at hx1
  simp [Finset.sum_range_succ, scenarioA, Matrix.ofRows] at hx0 hx1
  obtain ⟨c1, hc1, hP1⟩ := Indices.perm_range_exists lu.permutationP 2 1 hlu.P_perm (by decide)
  have hs1 := solveUnitLower_spec lu.L (fun i j => if lu.permutationP.coeff j = i then 1 else 0)
    2 1 c1 (by decide)
  have hs0 := solveUnitLower_spec lu.L (fun i j => if lu.permutationP.coeff j = i then 1 else 0)
    2 0 c1 (by decide)
  simp [Finset.sum_range_succ, hP1] at hs1 hs0
  rw [hs0] at hs1
  have hc : c1 = 0 ∨ c1 = 1 := by omega
  rcases hc with h | h
  · subst h
    rw [hx0] at hs1
    simp at hs1
  · subst h
    rw [hx1] at hs1
    simp at hs1

/-- Claim C1: for an `m x n` matrix `A` with `m <= n` and any full-pivoting decomposition
`P*A*Q = L*U` of rank `r`, `compute(A)` succeeds, the first `r` rows of `R * A * Qperm` are
`[I_r | S]` and its rows `r .. m-1` are zero; for the matrix of the scenario `r = 2` and
`C()` equals `R * A * Qperm`. -/
theorem compute_canonical_identity (fullPivLu : Matrix → FullPivLU) (st : Impl) (A : Matrix)
    (hmn : A.rows ≤ A.cols) (hlu : IsFullPivLU A (fullPivLu A)) :
    ∃ st1, Impl.compute fullPivLu st A = some st1 ∧
      (∀ i, i < st1.lu.rank → ∀ k, k < A.cols →
        st1.RAQ A i k
          = if k < st1.lu.rank then (if i = k then 1 else 0)
            else st1.S.coeff i (k - st1.lu.rank)) ∧
      (∀ i, st1.lu.rank ≤ i → i < A.rows → ∀ k, k < A.cols → st1.RAQ A i k = 0) ∧
      (A = scenarioA → st1.numBasicVariables = 2 ∧
        ∀ i, i < 2 → ∀ k, k < 4 → st1.C.coeff i k = st1.RAQ A i k) := by
  have hid := computeBody_canonicalIdentity fullPivLu st A hlu
  obtain ⟨hrows, hcols, h⟩ := hid
  refine ⟨_, compute_eq_some fullPivLu st A hmn, ?_, ?_, ?_⟩
  · intro i hi k hk
    have hrk : (Impl.computeBody fullPivLu st A).lu.rank ≤ A.rows := hlu.rank_le
    rw [h i (by rw [← hrows]; omega) k (by rw [← hcols]; exact hk)]
    simp [Impl.C, Matrix.setTopRows, zeros, identity, Impl.numBasicVariables, hi]
  · intro i hri hi k hk
    rw [h i (by rw [← hrows]; exact hi) k (by rw [← hcols]; exact hk)]
    have : ¬ i < (Impl.computeBody fullPivLu st A).lu.rank := by omega
    simp [Impl.C, Matrix.setTopRows, zeros, identity, Impl.numBasicVariables, this]
  · intro hA
    subst hA
    refine ⟨scenario_rank (fullPivLu scenarioA) hlu, ?_⟩
    intro i hi k hk
    have h2 : scenarioA.rows = 2 := rfl
    have h4 : scenarioA.cols = 4 := rfl
    exact (h i (by rw [← hrows, h2]; exact hi) k (by rw [← hcols, h4]; exact hk)).symm

/-- Witness of `compute_canonical_identity`: the scenario matrix with its full-pivoting
decomposition. -/
theorem compute_canonical_identity_witness :
    ∃ st1, Impl.compute (fun _ => scenarioLU) Impl.init scenarioA = some st1 ∧
      st1.numBasicVariables = 2 ∧
      ∀ i, i < 2 → ∀ k, k < 4 → st1.C.coeff i k = st1.RAQ scenarioA i k := by
  obtain ⟨st1, h1, _, _, h4⟩ := compute_canonical_identity (fun _ => scenarioLU) Impl.init
    scenarioA (by decide) scenario_isFullPivLU
  exact ⟨st1, h1, h4 rfl⟩

/-! ## The scenario state -/

theorem scenarioState_eq :
    scenarioState = Impl.computeBody (fun _ => scenarioLU) Impl.init scenarioA := rfl

theorem scenarioState_wellFormed : scenarioState.WellFormed := by
  rw [scenarioState_eq]
  exact computeBody_wellFormed _ _ _ (by decide) scenario_isFullPivLU

theorem scenarioState_identity : scenarioState.CanonicalIdentity scenarioA := by
  rw [scenarioState_eq]
  exact computeBody_canonicalIdentity _ _ _ scenario_isFullPivLU

/-- Witness of `updateWithSwapBasicVariable_preserves_identity`: the swap of basic position 0
with non-basic position 1 in the scenario state. -/
theorem updateWithSwapBasicVariable_preserves_identity_witness :
    ∃ st1, scenarioState.updateWithSwapBasicVariable 0 1 = some st1 ∧
      st1.CanonicalIdentity scenarioA :=
  updateWithSwapBasicVariable_preserves_identity scenarioState scenarioA 0 1
    scenarioState_wellFormed scenarioState_identity (by decide!) (by decide!) (by decide!)

/-! ## The improvement phase -/

theorem candidate_fold_inv (st : Impl) (w : Vector) (i : Nat) :
    ∀ t,
      (((List.range t).foldl (st.candidateStep w i) (0, ⊥)).2 = ⊥ ∨
        (((List.range t).foldl (st.candidateStep w i) (0, ⊥)).1 < t ∧
          st.threshold < |st.S.coeff i ((List.range t).foldl (st.candidateStep w i) (0, ⊥)).1| ∧
          ((List.range t).foldl (st.candidateStep w i) (0, ⊥)).2
            = ((w.coeff ((st.Q.tail (st.lu.cols - st.lu.rank)).coeff
                  ((List.range t).foldl (st.candidateStep w i) (0, ⊥)).1)
                * |st.S.coeff i ((List.range t).foldl (st.candidateStep w i) (0, ⊥)).1| : ℚ)
                : WithBot ℚ))) ∧
      (∀ k, k < t → st.threshold < |st.S.coeff i k| →
        ((w.coeff ((st.Q.tail (st.lu.cols - st.lu.rank)).coeff k) * |st.S.coeff i k| : ℚ)
            : WithBot ℚ)
          ≤ ((List.range t).foldl (st.candidateStep w i) (0, ⊥)).2) := by
  intro t
  induction t with
  | zero =>
    refine ⟨Or.inl rfl, ?_⟩
    intro k hk
    exact absurd hk (Nat.not_lt_zero k)
  | succ t ih =>
    rw [List.range_succ, List.foldl_append]
    simp only [List.foldl_cons, List.foldl_nil]
    generalize (List.range t).foldl (st.candidateStep w i) (0, ⊥) = acc at ih ⊢
    obtain ⟨ih1, ih2⟩ := ih
    unfold Impl.candidateStep
    by_cases hel : |st.S.coeff i t| ≤ st.threshold
    · simp only [hel, if_true]
      constructor
      · rcases ih1 with h | ⟨h1, h2, h3⟩
        · exact Or.inl h
        · exact Or.inr ⟨by omega, h2, h3⟩
      · intro k hk hk2
        by_cases hkt : k = t
        · subst hkt
          exact absurd hel (not_le.mpr hk2)
        · exact ih2 k (by omega) hk2
    · simp only [hel, if_false]
      by_cases hgt : ((w.coeff ((st.Q.tail (st.lu.cols - st.lu.rank)).coeff t)
          * |st.S.coeff i t| : ℚ) : WithBot ℚ) > acc.2
      · simp only [hgt, if_true]
        constructor
        · exact Or.inr ⟨by omega, not_le.mp hel, trivial⟩
        · intro k hk hk2
          by_cases hkt : k = t
          · subst hkt
            exact le_refl _
          · exact le_of_lt (lt_of_le_of_lt (ih2 k (by omega) hk2) hgt)
      · simp only [hgt, if_false]
        constructor
        · rcases ih1 with h | ⟨h1, h2, h3⟩
          · exact Or.inl h
          · exact Or.inr ⟨by omega, h2, h3⟩
        · intro k hk hk2
          by_cases hkt : k = t
          · subst hkt
            exact not_lt.mp hgt
          · exact ih2 k (by omega) hk2

theorem find_nonbasic_candidate_spec (st : Impl) (w : Vector) (i : Nat)
    (h : (st.find_nonbasic_candidate w i).2 ≠ ⊥) :
    (st.find_nonbasic_candidate w i).1 < st.lu.cols - st.lu.rank ∧
      st.threshold < |st.S.coeff i (st.find_nonbasic_candidate w i).1| ∧
      (st.find_nonbasic_candidate w i).2
        = ((w.coeff ((st.Q.tail (st.lu.cols - st.lu.rank)).coeff
              (st.find_nonbasic_candidate w i).1)
            * |st.S.coeff i (st.find_nonbasic_candidate w i).1| : ℚ) : WithBot ℚ) := by
  rcases (candidate_fold_inv st w i (st.lu.cols - st.lu.rank)).1 with h1 | h1
  · exact absurd h1 h
  · exact h1

theorem find_nonbasic_candidate_max (st : Impl) (w : Vector) (i k : Nat)
    (hk : k < st.lu.cols - st.lu.rank) (hel : st.threshold < |st.S.coeff i k|) :
    ((w.coeff ((st.Q.tail (st.lu.cols - st.lu.rank)).coeff k) * |st.S.coeff i k| : ℚ)
        : WithBot ℚ)
      ≤ (st.find_nonbasic_candidate w i).2 :=
  (candidate_fold_inv st w i (st.lu.cols - st.lu.rank)).2 k hk hel

theorem improveStep_eq (st : Impl) (w : Vector) (i : Nat) (hi : i < st.lu.rank) :
    st.improveStep w i
      = some (if ((w.coeff ((st.Q.head st.lu.rank).coeff i) : ℚ) : WithBot ℚ)
            < (st.find_nonbasic_candidate w i).2
          then st.swapBody i (st.find_nonbasic_candidate w i).1 else st) := by
  unfold Impl.improveStep
  by_cases h : ((w.coeff ((st.Q.head st.lu.rank).coeff i) : ℚ) : WithBot ℚ)
      < (st.find_nonbasic_candidate w i).2
  · simp only [h, if_true]
    have hne : (st.find_nonbasic_candidate w i).2 ≠ ⊥ := ne_bot_of_gt h
    obtain ⟨h1, h2, _⟩ := find_nonbasic_candidate_spec st w i hne
    exact updateWithSwapBasicVariable_eq_some st i _ hi h1 h2
  · simp only [h, if_false]

theorem swapBody_wellFormed (st : Impl) (ib inn : Nat) (hwf : st.WellFormed)
    (hib : ib < st.lu.rank) (hin : inn < st.lu.cols - st.lu.rank) :
    (st.swapBody ib inn).WellFormed where
  rank_le_rows := hwf.rank_le_rows
  rows_le_cols := hwf.rows_le_cols
  S_rows := hwf.S_rows
  S_cols := hwf.S_cols
  Q_perm := by
    have hl := Indices.perm_range_length _ _ hwf.Q_perm
    have h1 := hwf.S_rows
    have h2 := hwf.rank_le_rows
    have h3 := hwf.rows_le_cols
    exact (Indices.swap_perm st.Q ib (st.S.rows + inn) (by omega) (by omega)).trans hwf.Q_perm
  Kb_perm := hwf.Kb_perm
  Kn_perm := hwf.Kn_perm
  threshold_nonneg := hwf.threshold_nonneg

theorem improve_induction (w : Vector) (Inv : Impl → Prop) (r : Nat)
    (hstep : ∀ st i, Inv st → i < r → ∃ st1, st.improveStep w i = some st1 ∧ Inv st1) :
    ∀ (l : List Nat) (st : Impl), Inv st → (∀ i ∈ l, i < r) →
      ∃ st1, Impl.improve w l st = some st1 ∧ Inv st1 := by
  intro l
  induction l with
  | nil => intro st h _; exact ⟨st, rfl, h⟩
  | cons i l ih =>
    intro st h hl
    obtain ⟨st1, h1, h2⟩ := hstep st i h (hl i (List.mem_cons_self _ _))
    obtain ⟨st2, h3, h4⟩ := ih st1 h2 (fun j hj => hl j (List.mem_cons_of_mem _ hj))
    refine ⟨st2, ?_, h4⟩
    simp only [Impl.improve, h1]
    exact h3

theorem improveStep_preserves (A : Matrix) (lu0 : FullPivLU) (w : Vector) (st : Impl) (i : Nat)
    (h : st.WellFormed ∧ st.CanonicalIdentity A ∧ st.lu = lu0) (hi : i < lu0.rank) :
    ∃ st1, st.improveStep w i = some st1 ∧
      (st1.WellFormed ∧ st1.CanonicalIdentity A ∧ st1.lu = lu0) := by
  obtain ⟨hwf, hid, hlu⟩ := h
  have hi1 : i < st.lu.rank := by rw [hlu]; exact hi
  refine ⟨_, improveStep_eq st w i hi1, ?_⟩
  by_cases hc : ((w.coeff ((st.Q.head st.lu.rank).coeff i) : ℚ) : WithBot ℚ)
      < (st.find_nonbasic_candidate w i).2
  · simp only [hc, if_true]
    have hne : (st.find_nonbasic_candidate w i).2 ≠ ⊥ := ne_bot_of_gt hc
    obtain ⟨h1, h2, _⟩ := find_nonbasic_candidate_spec st w i hne
    have hp : st.S.coeff i (st.find_nonbasic_candidate w i).1 ≠ 0 := by
      intro h0
      rw [h0, abs_zero] at h2
      exact absurd hwf.threshold_nonneg (not_le.mpr h2)
    exact ⟨swapBody_wellFormed st i _ hwf hi1 h1,
      swapBody_canonicalIdentity st A i _ hwf hid hi1 h1 hp, hlu⟩
  · simp only [hc, if_false]
    exact ⟨hwf, hid, hlu⟩

/-! ## The sort phase -/

theorem Indices.coeff_map_range (f : Nat → Nat) (m k : Nat) (hk : k < m) :
    Indices.coeff ((List.range m).map f) k = f k := by
  simp [Indices.coeff, hk]

theorem Indices.coeff_take (v : Indices) (r k : Nat) (hk : k < r) :
    Indices.coeff (v.take r) k = v.coeff k := by
  simp [Indices.coeff, List.getElem?_take, hk]

theorem Indices.coeff_drop (v : Indices) (r k : Nat) :
    Indices.coeff (v.drop r) k = v.coeff (r + k) := by
  simp [Indices.coeff, List.getElem?_drop]

theorem Indices.coeff_append_left (u v : Indices) (k : Nat) (hk : k < u.length) :
    Indices.coeff (u ++ v) k = u.coeff k := by
  simp [Indices.coeff, List.getElem?_append_left hk]

theorem Indices.coeff_append_right (u v : Indices) (k : Nat) (hk : u.length ≤ k) :
    Indices.coeff (u ++ v) k = v.coeff (k - u.length) := by
  simp [Indices.coeff, List.getElem?_append_right hk]

theorem Indices.map_range_comp_coeff (K : Indices) (f : Nat → Nat) :
    (List.range K.length).map (fun j => f (K.coeff j)) = K.map f := by
  have h := congrArg (List.map f) (Indices.map_coeff_range K)
  rw [List.map_map] at h
  exact h

theorem permuteHead_perm (K Q : Indices) (nb : Nat) (hK : K.Perm (List.range nb))
    (hQ : nb ≤ Q.length) : (permuteHead K nb Q).Perm Q := by
  have hKl := Indices.perm_range_length K nb hK
  unfold permuteHead
  have h1 : (List.range nb).map (fun j => (Q.head nb).coeff (K.coeff j))
      = K.map (Q.head nb).coeff := by
    rw [← hKl]
    exact Indices.map_range_comp_coeff K _
  have h2 : (K.map (Q.head nb).coeff).Perm (Q.take nb) := by
    have h3 := hK.map (Q.head nb).coeff
    have h4 : (Q.head nb).length = nb := by simp [Indices.head, hQ]
    have h5 := Indices.map_coeff_range (Q.head nb)
    rw [h4] at h5
    rw [h5] at h3
    exact h3
  rw [h1]
  have h6 := h2.append_right (Q.drop nb)
  rw [List.take_append_drop] at h6
  exact h6

theorem permuteHead_length (K Q : Indices) (nb : Nat) (hQ : nb ≤ Q.length) :
    (permuteHead K nb Q).length = Q.length := by
  simp [permuteHead]
  omega

theorem permuteHead_coeff (K Q : Indices) (nb k : Nat) (hK : K.Perm (List.range nb)) :
    (permuteHead K nb Q).coeff k = if k < nb then Q.coeff (K.coeff k) else Q.coeff k := by
  unfold permuteHead
  by_cases hk : k < nb
  · simp only [hk, if_true]
    rw [Indices.coeff_append_left _ _ _ (by simpa using hk), Indices.coeff_map_range _ _ _ hk]
    exact Indices.coeff_take Q nb _ (Indices.perm_range_coeff_lt K nb k hK hk)
  · simp only [hk, if_false]
    rw [Indices.coeff_append_right _ _ _ (by simp; omega), Indices.coeff_drop]
    congr 1
    simp
    omega

theorem permuteTail_perm (K Q : Indices) (nn : Nat) (hK : K.Perm (List.range nn))
    (hQ : nn ≤ Q.length) : (permuteTail K nn Q).Perm Q := by
  have hKl := Indices.perm_range_length K nn hK
  unfold permuteTail
  have h1 : (List.range nn).map (fun j => (Q.tail nn).coeff (K.coeff j))
      = K.map (Q.tail nn).coeff := by
    rw [← hKl]
    exact Indices.map_range_comp_coeff K _
  have h2 : (K.map (Q.tail nn).coeff).Perm (Q.drop (Q.length - nn)) := by
    have h3 := hK.map (Q.tail nn).coeff
    have h4 : (Q.tail nn).length = nn := by simp [Indices.tail]; omega
    have h5 := Indices.map_coeff_range (Q.tail nn)
    rw [h4] at h5
    rw [h5] at h3
    exact h3
  rw [h1]
  have h6 := h2.append_left (Q.take (Q.length - nn))
  rw [List.take_append_drop] at h6
  exact h6

theorem permuteTail_coeff (K Q : Indices) (nn k : Nat) (hQ : nn ≤ Q.length)
    (hk : k < Q.length) :
    (permuteTail K nn Q).coeff k
      = if k < Q.length - nn then Q.coeff k
        else Q.coeff (Q.length - nn + K.coeff (k - (Q.length - nn))) := by
  unfold permuteTail
  by_cases hk1 : k < Q.length - nn
  · simp only [hk1, if_true]
    rw [Indices.coeff_append_left _ _ _ (by simp; omega)]
    exact Indices.coeff_take Q _ _ hk1
  · simp only [hk1, if_false]
    have hlen : (Q.take (Q.length - nn)).length = Q.length - nn := by simp
    rw [Indices.coeff_append_right _ _ _ (by rw [hlen]; omega), hlen,
      Indices.coeff_map_range _ _ _ (by omega)]
    exact Indices.coeff_drop Q _ _

theorem strictWeakOrdering_key (key : Nat → ℚ) :
    StrictWeakOrdering (fun l r => decide (key l > key r)) where
  irrefl := by intro a; simp
  trans := by
    intro a b c h1 h2
    simp only [gt_iff_lt, decide_eq_true_eq] at h1 h2 ⊢
    exact lt_trans h2 h1
  incomp_trans := by
    intro a b c h1 h2 h3 h4
    simp only [gt_iff_lt, decide_eq_false_iff_not, not_lt] at h1 h2 h3 h4 ⊢
    exact ⟨le_trans h1 h3, le_trans h4 h2⟩

theorem sortPhase_Kb_perm (srt : StdSort) (st : Impl) (w : Vector) (hwf : st.WellFormed) :
    (st.sortPhase srt w).Kb.Perm (List.range st.lu.rank) := by
  have h1 := (srt.perm (fun l r => decide (w.coeff ((st.Q.head st.lu.rank).coeff l)
    > w.coeff ((st.Q.head st.lu.rank).coeff r))) (st.Kb.take st.lu.rank)).append_right
    (st.Kb.drop st.lu.rank)
  rw [List.take_append_drop] at h1
  exact h1.trans hwf.Kb_perm

theorem sortPhase_Kn_perm (srt : StdSort) (st : Impl) (w : Vector) (hwf : st.WellFormed) :
    (st.sortPhase srt w).Kn.Perm (List.range (st.lu.cols - st.lu.rank)) := by
  have h1 := (srt.perm (fun l r => decide
    (w.coeff ((st.Q.tail (st.lu.cols - st.lu.rank)).coeff l)
      > w.coeff ((st.Q.tail (st.lu.cols - st.lu.rank)).coeff r)))
    (st.Kn.take (st.lu.cols - st.lu.rank))).append_right
    (st.Kn.drop (st.lu.cols - st.lu.rank))
  rw [List.take_append_drop] at h1
  exact h1.trans hwf.Kn_perm

theorem sortPhase_Kb_sorted (srt : StdSort) (st : Impl) (w : Vector) (hwf : st.WellFormed) :
    (st.sortPhase srt w).Kb.Pairwise
      (fun a b => w.coeff ((st.Q.head st.lu.rank).coeff b)
        ≤ w.coeff ((st.Q.head st.lu.rank).coeff a)) := by
  have hl := Indices.perm_range_length _ _ hwf.Kb_perm
  have h1 := srt.sorted (fun l r => decide (w.coeff ((st.Q.head st.lu.rank).coeff l)
    > w.coeff ((st.Q.head st.lu.rank).coeff r))) (st.Kb.take st.lu.rank)
    (strictWeakOrdering_key _)
  have h2 : (st.sortPhase srt w).Kb
      = srt.run (fun l r => decide (w.coeff ((st.Q.head st.lu.rank).coeff l)
          > w.coeff ((st.Q.head st.lu.rank).coeff r))) (st.Kb.take st.lu.rank) := by
    show _ ++ st.Kb.drop st.lu.rank = _
    rw [List.drop_eq_nil_of_le (by omega), List.append_nil]
  rw [h2]
  refine h1.imp ?_
  intro a b hab
  simpa using hab

theorem sortPhase_Kn_sorted (srt : StdSort) (st : Impl) (w : Vector) (hwf : st.WellFormed) :
    (st.sortPhase srt w).Kn.Pairwise
      (fun a b => w.coeff ((st.Q.tail (st.lu.cols - st.lu.rank)).coeff b)
        ≤ w.coeff ((st.Q.tail (st.lu.cols - st.lu.rank)).coeff a)) := by
  have hl := Indices.perm_range_length _ _ hwf.Kn_perm
  have h1 := srt.sorted (fun l r => decide
    (w.coeff ((st.Q.tail (st.lu.cols - st.lu.rank)).coeff l)
      > w.coeff ((st.Q.tail (st.lu.cols - st.lu.rank)).coeff r)))
    (st.Kn.take (st.lu.cols - st.lu.rank)) (strictWeakOrdering_key _)
  have h2 : (st.sortPhase srt w).Kn
      = srt.run (fun l r => decide
          (w.coeff ((st.Q.tail (st.lu.cols - st.lu.rank)).coeff l)
            > w.coeff ((st.Q.tail (st.lu.cols - st.lu.rank)).coeff r)))
          (st.Kn.take (st.lu.cols - st.lu.rank)) := by
    show _ ++ st.Kn.drop (st.lu.cols - st.lu.rank) = _
    rw [List.drop_eq_nil_of_le (by omega), List.append_nil]
  rw [h2]
  refine h1.imp ?_
  intro a b hab
  simpa using hab

theorem sortPhase_Q_eq (srt : StdSort) (st : Impl) (w : Vector) :
    (st.sortPhase srt w).Q
      = permuteTail (st.sortPhase srt w).Kn (st.lu.cols - st.lu.rank)
          (permuteHead (st.sortPhase srt w).Kb st.lu.rank st.Q) := rfl

theorem sortPhase_Q_perm (srt : StdSort) (st : Impl) (w : Vector) (hwf : st.WellFormed) :
    (st.sortPhase srt w).Q.Perm (List.range st.lu.cols) := by
  have hl := Indices.perm_range_length _ _ hwf.Q_perm
  have h1 := hwf.rank_le_rows
  have h2 := hwf.rows_le_cols
  rw [sortPhase_Q_eq]
  have hl1 : (permuteHead (st.sortPhase srt w).Kb st.lu.rank st.Q).length = st.lu.cols := by
    rw [permuteHead_length _ _ _ (by omega), hl]
  exact ((permuteTail_perm _ _ _ (sortPhase_Kn_perm srt st w hwf) (by omega)).trans
    (permuteHead_perm _ _ _ (sortPhase_Kb_perm srt st w hwf) (by omega))).trans hwf.Q_perm

theorem sortPhase_Q_coeff (srt : StdSort) (st : Impl) (w : Vector) (hwf : st.WellFormed)
    (k : Nat) (hk : k < st.lu.cols) :
    (st.sortPhase srt w).Q.coeff k
      = if k < st.lu.rank then st.Q.coeff ((st.sortPhase srt w).Kb.coeff k)
        else st.Q.coeff (st.lu.rank + (st.sortPhase srt w).Kn.coeff (k - st.lu.rank)) := by
  have hl := Indices.perm_range_length _ _ hwf.Q_perm
  have h1 := hwf.rank_le_rows
  have h2 := hwf.rows_le_cols
  have hKb := sortPhase_Kb_perm srt st w hwf
  have hl1 : (permuteHead (st.sortPhase srt w).Kb st.lu.rank st.Q).length = st.lu.cols := by
    rw [permuteHead_length _ _ _ (by omega), hl]
  rw [sortPhase_Q_eq, permuteTail_coeff _ _ _ _ (by omega) (by omega), hl1]
  have h3 : st.lu.cols - (st.lu.cols - st.lu.rank) = st.lu.rank := by omega
  rw [h3]
  by_cases hkr : k < st.lu.rank
  · simp only [hkr, if_true]
    rw [permuteHead_coeff _ _ _ _ hKb]
    simp only [hkr, if_true]
  · simp only [hkr, if_false]
    rw [permuteHead_coeff _ _ _ _ hKb]
    have : ¬ (st.lu.rank + (st.sortPhase srt w).Kn.coeff (k - st.lu.rank) < st.lu.rank) := by
      omega
    simp only [this, if_false]

theorem sortPhase_wellFormed (srt : StdSort) (st : Impl) (w : Vector) (hwf : st.WellFormed) :
    (st.sortPhase srt w).WellFormed where
  rank_le_rows := hwf.rank_le_rows
  rows_le_cols := hwf.rows_le_cols
  S_rows := hwf.S_rows
  S_cols := hwf.S_cols
  Q_perm := sortPhase_Q_perm srt st w hwf
  Kb_perm := sortPhase_Kb_perm srt st w hwf
  Kn_perm := sortPhase_Kn_perm srt st w hwf
  threshold_nonneg := hwf.threshold_nonneg

theorem sortPhase_canonicalIdentity (srt : StdSort) (st : Impl) (w : Vector) (A : Matrix)
    (hwf : st.WellFormed) (hid : st.CanonicalIdentity A) :
    (st.sortPhase srt w).CanonicalIdentity A := by
  obtain ⟨hrows, hcols, h⟩ := hid
  have h1 := hwf.rank_le_rows
  have h2 := hwf.rows_le_cols
  have hKb := sortPhase_Kb_perm srt st w hwf
  have hKn := sortPhase_Kn_perm srt st w hwf
  refine ⟨hrows, hcols, ?_⟩
  intro i hi k hk
  have hi1 : i < st.lu.rows := hi
  have hk1 : k < st.lu.cols := hk
  have hR : ∀ j, (st.sortPhase srt w).R.coeff i j
      = st.R.coeff (if i < st.lu.rank then (st.sortPhase srt w).Kb.coeff i else i) j := by
    intro j
    show permuteRows (st.sortPhase srt w).Kb st.lu.rank st.R.coeff i j = _
    unfold permuteRows
    split_ifs <;> rfl
  have hRAQ : (st.sortPhase srt w).RAQ A i k
      = st.RAQ A (if i < st.lu.rank then (st.sortPhase srt w).Kb.coeff i else i)
          (if k < st.lu.rank then (st.sortPhase srt w).Kb.coeff k
            else st.lu.rank + (st.sortPhase srt w).Kn.coeff (k - st.lu.rank)) := by
    unfold Impl.RAQ
    rw [sortPhase_Q_coeff srt st w hwf k hk1]
    apply Finset.sum_congr rfl
    intro j _
    rw [hR j]
    split_ifs <;> rfl
  rw [hRAQ]
  have hS : ∀ c, c < st.lu.cols - st.lu.rank → i < st.lu.rank →
      (st.sortPhase srt w).S.coeff i c
        = st.S.coeff ((st.sortPhase srt w).Kb.coeff i) ((st.sortPhase srt w).Kn.coeff c) := by
    intro c hc hir
    show permuteCols (st.sortPhase srt w).Kn (st.lu.cols - st.lu.rank)
      (permuteRows (st.sortPhase srt w).Kb st.lu.rank st.S.coeff) i c = _
    simp [permuteCols, permuteRows, hc, hir]
  have hlu : (st.sortPhase srt w).lu = st.lu := rfl
  have hi' : (if i < st.lu.rank then (st.sortPhase srt w).Kb.coeff i else i)
      < st.numEquations := by
    show _ < st.lu.rows
    split_ifs with hir
    · have := Indices.perm_range_coeff_lt _ _ i hKb hir
      omega
    · exact hi1
  have hk' : (if k < st.lu.rank then (st.sortPhase srt w).Kb.coeff k
      else st.lu.rank + (st.sortPhase srt w).Kn.coeff (k - st.lu.rank)) < st.numVariables := by
    show _ < st.lu.cols
    split_ifs with hkr
    · have := Indices.perm_range_coeff_lt _ _ k hKb hkr
      omega
    · have := Indices.perm_range_coeff_lt _ _ (k - st.lu.rank) hKn (by omega)
      omega
  rw [h _ hi' _ hk']
  simp only [Impl.C, Matrix.setTopRows, zeros, identity, Impl.numBasicVariables, Impl.numEquations, Impl.numVariables, hlu]
  by_cases hir : i < st.lu.rank
  · have hi2 := Indices.perm_range_coeff_lt _ _ i hKb hir
    by_cases hkr : k < st.lu.rank
    · have hk2 := Indices.perm_range_coeff_lt _ _ k hKb hkr
      simp only [hi2, hk2, hir, hkr, if_true]
      by_cases hik : i = k
      · subst hik
        simp
      · have : ¬ (st.sortPhase srt w).Kb.coeff i = (st.sortPhase srt w).Kb.coeff k :=
          fun he => hik (Indices.perm_range_coeff_inj _ _ i k hKb hir hkr he)
        simp [hik, this]
    · have hk2 := Indices.perm_range_coeff_lt _ _ (k - st.lu.rank) hKn (by omega)
      have hge : ¬ (st.lu.rank + (st.sortPhase srt w).Kn.coeff (k - st.lu.rank)
          < st.lu.rank) := by omega
      simp only [hi2, hir, hkr, hge, if_true, if_false, Nat.add_sub_cancel_left]
      exact (hS (k - st.lu.rank) (by omega) hir).symm
  · simp only [hir, if_false]

theorem pairwise_coeff (K : Indices) (R : Nat → Nat → Prop) (h : K.Pairwise R) (a b : Nat)
    (hab : a < b) (hb : b < K.length) : R (K.coeff a) (K.coeff b) := by
  rw [Indices.coeff_eq_getElem K a (by omega), Indices.coeff_eq_getElem K b hb]
  exact List.pairwise_iff_getElem.mp h a b (by omega) hb hab

theorem sortPhase_basic_sorted (srt : StdSort) (st : Impl) (w : Vector) (hwf : st.WellFormed)
    (a b : Nat) (hab : a < b) (hb : b < st.lu.rank) :
    w.coeff ((st.sortPhase srt w).indicesBasicVariables.coeff b)
      ≤ w.coeff ((st.sortPhase srt w).indicesBasicVariables.coeff a) := by
  have h1 := hwf.rank_le_rows
  have h2 := hwf.rows_le_cols
  have hKb := sortPhase_Kb_perm srt st w hwf
  have hKl := Indices.perm_range_length _ _ hKb
  have hacc : ∀ c, c < st.lu.rank →
      (st.sortPhase srt w).indicesBasicVariables.coeff c
        = (st.Q.head st.lu.rank).coeff ((st.sortPhase srt w).Kb.coeff c) := by
    intro c hc
    show Indices.coeff ((st.sortPhase srt w).Q.take st.lu.rank) c = _
    rw [Indices.coeff_take _ _ _ hc, sortPhase_Q_coeff srt st w hwf c (by omega)]
    simp only [hc, if_true]
    exact (Indices.coeff_take _ _ _ (Indices.perm_range_coeff_lt _ _ c hKb hc)).symm
  rw [hacc a (by omega), hacc b hb]
  exact pairwise_coeff _ _ (sortPhase_Kb_sorted srt st w hwf) a b hab (by omega)

theorem sortPhase_nonbasic_sorted (srt : StdSort) (st : Impl) (w : Vector) (hwf : st.WellFormed)
    (a b : Nat) (hab : a < b) (hb : b < st.lu.cols - st.lu.rank) :
    w.coeff ((st.sortPhase srt w).indicesNonBasicVariables.coeff b)
      ≤ w.coeff ((st.sortPhase srt w).indicesNonBasicVariables.coeff a) := by
  have h1 := hwf.rank_le_rows
  have h2 := hwf.rows_le_cols
  have hKn := sortPhase_Kn_perm srt st w hwf
  have hKl := Indices.perm_range_length _ _ hKn
  have hQl := Indices.perm_range_length _ _ hwf.Q_perm
  have hQl1 := Indices.perm_range_length _ _ (sortPhase_Q_perm srt st w hwf)
  have hacc : ∀ c, c < st.lu.cols - st.lu.rank →
      (st.sortPhase srt w).indicesNonBasicVariables.coeff c
        = (st.Q.tail (st.lu.cols - st.lu.rank)).coeff ((st.sortPhase srt w).Kn.coeff c) := by
    intro c hc
    show Indices.coeff ((st.sortPhase srt w).Q.drop
      ((st.sortPhase srt w).Q.length - (st.lu.cols - st.lu.rank))) c
      = Indices.coeff (st.Q.drop (st.Q.length - (st.lu.cols - st.lu.rank))) _
    rw [Indices.coeff_drop, Indices.coeff_drop, hQl, hQl1,
      sortPhase_Q_coeff srt st w hwf _ (by omega)]
    have h3 : st.lu.cols - (st.lu.cols - st.lu.rank) = st.lu.rank := by omega
    have h4 : ¬ (st.lu.rank + c < st.lu.rank) := by omega
    simp only [h3, h4, if_false, Nat.add_sub_cancel_left]
  rw [hacc a (by omega), hacc b hb]
  exact pairwise_coeff _ _ (sortPhase_Kn_sorted srt st w hwf) a b hab (by omega)

/-! ## The priority update as a whole -/

theorem updateWithPriorityWeights_induction (srt : StdSort) (st : Impl) (w : Vector)
    (Inv : Impl → Prop) (hw : w.rows = st.lu.cols) (h0 : Inv st)
    (hstep : ∀ st1 i, Inv st1 → i < st.lu.rank →
      ∃ st2, st1.improveStep w i = some st2 ∧ Inv st2) :
    ∃ st1 : Impl, Inv st1 ∧
      st.updateWithPriorityWeights srt w = some (st1.sortPhase srt w) := by
  unfold Impl.updateWithPriorityWeights
  simp only [hw, not_true_eq_false, if_false]
  by_cases hnn : st.lu.cols - st.lu.rank > 0
  · obtain ⟨st1, h1, h2⟩ := improve_induction w Inv st.lu.rank hstep (List.range st.lu.rank) st h0
      (fun i hi => List.mem_range.mp hi)
    refine ⟨st1, h2, ?_⟩
    simp only [hnn, if_true, h1]
  · refine ⟨st, h0, ?_⟩
    simp only [hnn, if_false]

theorem improveStep_wellFormed (lu0 : FullPivLU) (w : Vector) (st : Impl) (i : Nat)
    (h : st.WellFormed ∧ st.lu = lu0) (hi : i < lu0.rank) :
    ∃ st1, st.improveStep w i = some st1 ∧ (st1.WellFormed ∧ st1.lu = lu0) := by
  obtain ⟨hwf, hlu⟩ := h
  have hi1 : i < st.lu.rank := by rw [hlu]; exact hi
  refine ⟨_, improveStep_eq st w i hi1, ?_⟩
  by_cases hc : ((w.coeff ((st.Q.head st.lu.rank).coeff i) : ℚ) : WithBot ℚ)
      < (st.find_nonbasic_candidate w i).2
  · simp only [hc, if_true]
    have hne : (st.find_nonbasic_candidate w i).2 ≠ ⊥ := ne_bot_of_gt hc
    obtain ⟨h1, _, _⟩ := find_nonbasic_candidate_spec st w i hne
    exact ⟨swapBody_wellFormed st i _ hwf hi1 h1, hlu⟩
  · simp only [hc, if_false]
    exact ⟨hwf, hlu⟩

theorem updateWithPriorityWeights_wellFormed (srt : StdSort) (st : Impl) (w : Vector)
    (hwf : st.WellFormed) (hw : w.rows = st.lu.cols) :
    ∃ st1 : Impl, (st1.WellFormed ∧ st1.lu = st.lu) ∧
      st.updateWithPriorityWeights srt w = some (st1.sortPhase srt w) :=
  updateWithPriorityWeights_induction srt st w (fun s => s.WellFormed ∧ s.lu = st.lu) hw
    ⟨hwf, rfl⟩ (fun st1 i h hi => improveStep_wellFormed st.lu w st1 i h hi)

/-- Claim C3: from a state in which `R * A * Qperm = [I_r S; 0 0]`, the priority update with
a weight vector of length `n` succeeds and the identity holds for the updated `Q`, `R`, `S`. -/
theorem updateWithPriorityWeights_preserves_identity (srt : StdSort) (st : Impl) (A : Matrix)
    (w : Vector) (hwf : st.WellFormed) (hid : st.CanonicalIdentity A)
    (hw : w.rows = st.lu.cols) :
    ∃ st2, st.updateWithPriorityWeights srt w = some st2 ∧ st2.CanonicalIdentity A := by
  obtain ⟨st1, ⟨h1, h2, _⟩, h3⟩ := updateWithPriorityWeights_induction srt st w
    (fun s => s.WellFormed ∧ s.CanonicalIdentity A ∧ s.lu = st.lu) hw ⟨hwf, hid, rfl⟩
    (fun st1 i h hi => improveStep_preserves A st.lu w st1 i h hi)
  exact ⟨_, h3, sortPhase_canonicalIdentity srt st1 w A h1 h2⟩

/-- Witness of `updateWithPriorityWeights_preserves_identity`: weights `4, 1, 3, 2` for the
four variables of the scenario. -/
theorem updateWithPriorityWeights_preserves_identity_witness :
    ∃ st2, scenarioState.updateWithPriorityWeights insertionStdSort
        ⟨4, fun i => ([4, 1, 3, 2] : List ℚ).getD i 0⟩ = some st2 ∧
      st2.CanonicalIdentity scenarioA :=
  updateWithPriorityWeights_preserves_identity insertionStdSort scenarioState scenarioA
    ⟨4, fun i => ([4, 1, 3, 2] : List ℚ).getD i 0⟩ scenarioState_wellFormed
    scenarioState_identity rfl

/-- Claim C5: after `updateWithPriorityWeights(w)` with `w` of length `n`, adjacent basic
variables and adjacent non-basic variables are in descending order of weight. -/
theorem updateWithPriorityWeights_sorted (srt : StdSort) (st : Impl) (w : Vector)
    (hwf : st.WellFormed) (hw : w.rows = st.lu.cols) :
    ∃ st2, st.updateWithPriorityWeights srt w = some st2 ∧
      (∀ k, k + 1 < st2.numBasicVariables →
        w.coeff (st2.indicesBasicVariables.coeff k)
          ≥ w.coeff (st2.indicesBasicVariables.coeff (k + 1))) ∧
      (∀ k, k + 1 < st2.numNonBasicVariables →
        w.coeff (st2.indicesNonBasicVariables.coeff k)
          ≥ w.coeff (st2.indicesNonBasicVariables.coeff (k + 1))) := by
  obtain ⟨st1, ⟨h1, h2⟩, h3⟩ := updateWithPriorityWeights_wellFormed srt st w hwf hw
  refine ⟨_, h3, ?_, ?_⟩
  · intro k hk
    exact sortPhase_basic_sorted srt st1 w h1 k (k + 1) (by omega) hk
  · intro k hk
    exact sortPhase_nonbasic_sorted srt st1 w h1 k (k + 1) (by omega) hk

/-- Witness of `updateWithPriorityWeights_sorted`: weights `4, 1, 3, 2` in the scenario. -/
theorem updateWithPriorityWeights_sorted_witness :
    ∃ st2, scenarioState.updateWithPriorityWeights insertionStdSort
        ⟨4, fun i => ([4, 1, 3, 2] : List ℚ).getD i 0⟩ = some st2 ∧
      (∀ k, k + 1 < st2.numBasicVariables →
        (([4, 1, 3, 2] : List ℚ).getD (st2.indicesBasicVariables.coeff k) 0)
          ≥ (([4, 1, 3, 2] : List ℚ).getD (st2.indicesBasicVariables.coeff (k + 1)) 0)) ∧
      (∀ k, k + 1 < st2.numNonBasicVariables →
        (([4, 1, 3, 2] : List ℚ).getD (st2.indicesNonBasicVariables.coeff k) 0)
          ≥ (([4, 1, 3, 2] : List ℚ).getD (st2.indicesNonBasicVariables.coeff (k + 1)) 0)) :=
  updateWithPriorityWeights_sorted insertionStdSort scenarioState
    ⟨4, fun i => ([4, 1, 3, 2] : List ℚ).getD i 0⟩ scenarioState_wellFormed rfl

/-! ## The partition of `Q` along sequences of updates -/

theorem updateWithSwapBasicVariable_some (st st1 : Impl) (ib inn : Nat)
    (h : st.updateWithSwapBasicVariable ib inn = some st1) :
    ib < st.lu.rank ∧ inn < st.lu.cols - st.lu.rank ∧ st.threshold < |st.S.coeff ib inn| ∧
      st1 = st.swapBody ib inn := by
  unfold Impl.updateWithSwapBasicVariable at h
  by_cases h1 : ib < st.lu.rank
  · by_cases h2 : inn < st.lu.cols - st.lu.rank
    · by_cases h3 : |st.S.coeff ib inn| > st.threshold
      · rw [if_neg (not_not.mpr h1), if_neg (not_not.mpr h2), if_neg (not_not.mpr h3)] at h
        exact ⟨h1, h2, h3, (Option.some.inj h).symm⟩
      · rw [if_neg (not_not.mpr h1), if_neg (not_not.mpr h2), if_pos h3] at h
        cases h
    · rw [if_neg (not_not.mpr h1), if_pos h2] at h
      cases h
  · rw [if_pos h1] at h
    cases h

theorem rationalize_wellFormed (st : Impl) (maxdenominator : Nat) (hwf : st.WellFormed) :
    (st.rationalize maxdenominator).WellFormed where
  rank_le_rows := hwf.rank_le_rows
  rows_le_cols := hwf.rows_le_cols
  S_rows := hwf.S_rows
  S_cols := hwf.S_cols
  Q_perm := hwf.Q_perm
  Kb_perm := hwf.Kb_perm
  Kn_perm := hwf.Kn_perm
  threshold_nonneg := hwf.threshold_nonneg

theorem applyUpdate_wellFormed (srt : StdSort) (st st1 : Impl) (u : Update)
    (hwf : st.WellFormed) (h : st.applyUpdate srt u = some st1) :
    st1.WellFormed ∧ st1.lu = st.lu := by
  cases u with
  | swap ib inn =>
    obtain ⟨h1, h2, _, h4⟩ := updateWithSwapBasicVariable_some st st1 ib inn h
    subst h4
    exact ⟨swapBody_wellFormed st ib inn hwf h1 h2, rfl⟩
  | priority w =>
    have hw : w.rows = st.lu.cols := by
      by_contra hne
      simp [Impl.applyUpdate, Impl.updateWithPriorityWeights, hne] at h
    obtain ⟨st2, ⟨h1, h2⟩, h3⟩ := updateWithPriorityWeights_wellFormed srt st w hwf hw
    have h4 : st.updateWithPriorityWeights srt w = some st1 := h
    rw [h3] at h4
    have h5 := Option.some.inj h4
    subst h5
    exact ⟨sortPhase_wellFormed srt st2 w h1, h2⟩
  | rationalize maxdenominator =>
    have h4 : some (st.rationalize maxdenominator) = some st1 := h
    have h5 := Option.some.inj h4
    subst h5
    exact ⟨rationalize_wellFormed st maxdenominator hwf, rfl⟩

theorem applyUpdates_wellFormed (srt : StdSort) (us : List Update) :
    ∀ (st st1 : Impl), st.WellFormed → Impl.applyUpdates srt st us = some st1 →
      st1.WellFormed ∧ st1.lu = st.lu := by
  induction us with
  | nil =>
    intro st st1 hwf h
    have h1 := Option.some.inj h
    subst h1
    exact ⟨hwf, rfl⟩
  | cons u us ih =>
    intro st st1 hwf h
    simp only [Impl.applyUpdates] at h
    cases hu : st.applyUpdate srt u with
    | none => rw [hu] at h; cases h
    | some st2 =>
      rw [hu] at h
      obtain ⟨h1, h2⟩ := applyUpdate_wellFormed srt st st2 u hwf hu
      obtain ⟨h3, h4⟩ := ih st2 st1 h1 h
      exact ⟨h3, h4.trans h2⟩

theorem wellFormed_partition (st : Impl) (hwf : st.WellFormed) :
    st.indicesBasicVariables = st.Q.take st.lu.rank ∧
      st.indicesNonBasicVariables = st.Q.drop st.lu.rank ∧
      st.indicesBasicVariables ++ st.indicesNonBasicVariables = st.Q ∧
      List.Disjoint st.indicesBasicVariables st.indicesNonBasicVariables := by
  have hl := Indices.perm_range_length _ _ hwf.Q_perm
  have h1 := hwf.rank_le_rows
  have h2 := hwf.rows_le_cols
  have hb : st.indicesBasicVariables = st.Q.take st.lu.rank := rfl
  have hn : st.indicesNonBasicVariables = st.Q.drop st.lu.rank := by
    show st.Q.drop (st.Q.length - (st.lu.cols - st.lu.rank)) = _
    congr 1
    omega
  have happ : st.indicesBasicVariables ++ st.indicesNonBasicVariables = st.Q := by
    rw [hb, hn, List.take_append_drop]
  refine ⟨hb, hn, happ, ?_⟩
  have hnd : (st.indicesBasicVariables ++ st.indicesNonBasicVariables).Nodup := by
    rw [happ]
    exact hwf.Q_perm.nodup_iff.mpr (List.nodup_range _)
  exact List.disjoint_of_nodup_append hnd

/-- Claim C4: after `compute(A)` and any sequence of swap, priority and rationalize calls
that pass their assertions, `Q` is a permutation of `0 .. n-1`, the basic indices are its first
`r` entries and the non-basic indices its last `n - r` entries (disjoint, together all of `Q`),
and `S` has the shape `r x (n - r)`. -/
theorem updates_keep_partition (fullPivLu : Matrix → FullPivLU) (st0 : Impl) (A : Matrix)
    (srt : StdSort) (us : List Update) (st1 st : Impl)
    (hlu : IsFullPivLU A (fullPivLu A))
    (hc : Impl.compute fullPivLu st0 A = some st1)
    (hrun : Impl.applyUpdates srt st1 us = some st) :
    st.Q.Perm (List.range A.cols) ∧
      st.indicesBasicVariables = st.Q.take (fullPivLu A).rank ∧
      st.indicesNonBasicVariables = st.Q.drop (fullPivLu A).rank ∧
      st.indicesNonBasicVariables.length = A.cols - (fullPivLu A).rank ∧
      st.indicesBasicVariables ++ st.indicesNonBasicVariables = st.Q ∧
      List.Disjoint st.indicesBasicVariables st.indicesNonBasicVariables ∧
      st.S.rows = (fullPivLu A).rank ∧ st.S.cols = A.cols - (fullPivLu A).rank := by
  have hmn : A.rows ≤ A.cols := by
    by_contra hne
    simp [Impl.compute, hne] at hc
  rw [compute_eq_some fullPivLu st0 A hmn] at hc
  have hc1 := Option.some.inj hc
  subst hc1
  have hwf0 := computeBody_wellFormed fullPivLu st0 A hmn hlu
  obtain ⟨hwf, hlu1⟩ := applyUpdates_wellFormed srt us _ st hwf0 hrun
  have hlu2 : st.lu = fullPivLu A := hlu1
  obtain ⟨hb, hn, happ, hdis⟩ := wellFormed_partition st hwf
  have hQ := hwf.Q_perm
  have hSr := hwf.S_rows
  have hSc := hwf.S_cols
  rw [hlu2] at hb hn hQ hSr hSc
  rw [hlu.cols_eq] at hQ hSc
  have hQl := Indices.perm_range_length _ _ hQ
  refine ⟨hQ, hb, hn, ?_, happ, hdis, hSr, hSc⟩
  rw [hn, List.length_drop, hQl]

/-- Witness of `updates_keep_partition`: in the scenario, a swap of basic position 0 with
non-basic position 1, then a priority update with weights `4, 1, 3, 2`, then `rationalize(10)`. -/
theorem updates_keep_partition_witness :
    ∃ st, Impl.applyUpdates insertionStdSort scenarioState
        [.swap 0 1, .priority ⟨4, fun i => ([4, 1, 3, 2] : List ℚ).getD i 0⟩, .rationalize 10]
        = some st ∧
      st.Q.Perm (List.range 4) ∧
      st.indicesBasicVariables = st.Q.take 2 ∧
      st.indicesNonBasicVariables = st.Q.drop 2 ∧
      st.indicesNonBasicVariables.length = 2 ∧
      st.indicesBasicVariables ++ st.indicesNonBasicVariables = st.Q ∧
      List.Disjoint st.indicesBasicVariables st.indicesNonBasicVariables ∧
      st.S.rows = 2 ∧ st.S.cols = 2 := by
  have h : (Impl.applyUpdates insertionStdSort scenarioState
      [.swap 0 1, .priority ⟨4, fun i => ([4, 1, 3, 2] : List ℚ).getD i 0⟩,
        .rationalize 10]).isSome = true := by decide!
  obtain ⟨st, hst⟩ := Option.isSome_iff_exists.mp h
  exact ⟨st, hst, updates_keep_partition (fun _ => scenarioLU) Impl.init scenarioA
    insertionStdSort _ scenarioState st scenario_isFullPivLU rfl hst⟩

/-! ## What decides a swap in the improvement phase -/

theorem swapBody_Q_coeff (st : Impl) (ib inn k : Nat) (hwf : st.WellFormed)
    (hib : ib < st.lu.rank) (hin : inn < st.lu.cols - st.lu.rank) :
    (st.swapBody ib inn).Q.coeff k
      = st.Q.coeff (if k = st.lu.rank + inn then ib
          else if k = ib then st.lu.rank + inn else k) := by
  have hl := Indices.perm_range_length _ _ hwf.Q_perm
  have h1 := hwf.rank_le_rows
  have h2 := hwf.rows_le_cols
  have : (st.swapBody ib inn).Q = st.Q.swap ib (st.lu.rank + inn) := by
    simp [Impl.swapBody, hwf.S_rows]
  rw [this, Indices.swap_coeff _ _ _ _ (by omega) (by omega)]

theorem swapBody_ne (st : Impl) (ib inn : Nat) (hwf : st.WellFormed)
    (hib : ib < st.lu.rank) (hin : inn < st.lu.cols - st.lu.rank) :
    st.swapBody ib inn ≠ st := by
  intro h
  have h1 := hwf.rank_le_rows
  have h2 := hwf.rows_le_cols
  have hq := swapBody_Q_coeff st ib inn ib hwf hib hin
  rw [h] at hq
  have hne : ¬ ib = st.lu.rank + inn := by omega
  simp only [hne, if_false, if_true] at hq
  have := Indices.perm_range_coeff_inj st.Q st.lu.cols ib (st.lu.rank + inn) hwf.Q_perm
    (by omega) (by omega) hq
  omega

theorem find_nonbasic_candidate_ne_bot (st : Impl) (w : Vector) (i : Nat)
    (hex : ∃ k, k < st.lu.cols - st.lu.rank ∧ st.threshold < |st.S.coeff i k|) :
    (st.find_nonbasic_candidate w i).2 ≠ ⊥ := by
  obtain ⟨k, hk, hel⟩ := hex
  intro h
  have := find_nonbasic_candidate_max st w i k hk hel
  rw [h] at this
  exact WithBot.coe_ne_bot (le_bot_iff.mp this)

/-- Counterexample to claim C8 as stated: in the scenario state with weights `2, 1, 3, 2`,
the candidate of row 0 is column 0, its non-basic variable has weight 3, more than the
weight 2 of the basic variable of row 0, and yet the row is left unswapped (the swap itself
would have changed the state); the proportional weight `3 * 1/2` is below 2. -/
theorem improveStep_not_decided_by_weight :
    (scenarioState.find_nonbasic_candidate scenarioWeights 0).1 = 0 ∧
      scenarioWeights.coeff (scenarioState.indicesNonBasicVariables.coeff 0)
        > scenarioWeights.coeff (scenarioState.indicesBasicVariables.coeff 0) ∧
      scenarioState.improveStep scenarioWeights 0 = some scenarioState ∧
      scenarioState.updateWithSwapBasicVariable 0 0 ≠ some scenarioState := by
  refine ⟨by decide!, by decide!, ?_, ?_⟩
  · have h : ¬ (((scenarioWeights.coeff ((scenarioState.Q.head scenarioState.lu.rank).coeff 0) : ℚ)
        : WithBot ℚ) < (scenarioState.find_nonbasic_candidate scenarioWeights 0).2) := by
      decide!
    simp only [Impl.improveStep, h, if_false]
  · rw [updateWithSwapBasicVariable_eq_some scenarioState 0 0 (by decide!) (by decide!)
      (by decide!)]
    intro h
    exact swapBody_ne scenarioState 0 0 scenarioState_wellFormed (by decide!) (by decide!)
      (Option.some.inj h)

/-- Claim C8, amended: in the improvement phase, for a basic row `i` with a usable pivot and
candidate column `j` (a usable-pivot column maximizing `w[nonbasic[j]] * |S(i, j)|`), the basic
variable at row `i` is swapped with the non-basic variable at column `j` exactly when the
proportional weight `w[nonbasic[j]] * |S(i, j)|` exceeds `w[basic[i]]`, and the row is left
as it is exactly when it does not. -/
theorem improveStep_swaps_iff (st : Impl) (w : Vector) (i : Nat) (hwf : st.WellFormed)
    (hi : i < st.lu.rank)
    (hex : ∃ k, k < st.lu.cols - st.lu.rank ∧ st.threshold < |st.S.coeff i k|) :
    ∃ j, j = (st.find_nonbasic_candidate w i).1 ∧
      j < st.lu.cols - st.lu.rank ∧ st.threshold < |st.S.coeff i j| ∧
      (∀ k, k < st.lu.cols - st.lu.rank → st.threshold < |st.S.coeff i k| →
        w.coeff (st.indicesNonBasicVariables.coeff k) * |st.S.coeff i k|
          ≤ w.coeff (st.indicesNonBasicVariables.coeff j) * |st.S.coeff i j|) ∧
      (st.improveStep w i = st.updateWithSwapBasicVariable i j ↔
        w.coeff (st.indicesBasicVariables.coeff i)
          < w.coeff (st.indicesNonBasicVariables.coeff j) * |st.S.coeff i j|) ∧
      (st.improveStep w i = some st ↔
        ¬ (w.coeff (st.indicesBasicVariables.coeff i)
          < w.coeff (st.indicesNonBasicVariables.coeff j) * |st.S.coeff i j|)) := by
  have hne := find_nonbasic_candidate_ne_bot st w i hex
  obtain ⟨h1, h2, h3⟩ := find_nonbasic_candidate_spec st w i hne
  have hstep := improveStep_eq st w i hi
  have hswap := updateWithSwapBasicVariable_eq_some st i _ hi h1 h2
  have hdiff := swapBody_ne st i _ hwf hi h1
  have hcond : (((w.coeff ((st.Q.head st.lu.rank).coeff i) : ℚ) : WithBot ℚ)
      < (st.find_nonbasic_candidate w i).2) ↔
      w.coeff (st.indicesBasicVariables.coeff i)
        < w.coeff (st.indicesNonBasicVariables.coeff (st.find_nonbasic_candidate w i).1)
          * |st.S.coeff i (st.find_nonbasic_candidate w i).1| := by
    rw [h3, WithBot.coe_lt_coe]
    rfl
  refine ⟨_, rfl, h1, h2, ?_, ?_, ?_⟩
  · intro k hk hel
    have := find_nonbasic_candidate_max st w i k hk hel
    rw [h3, WithBot.coe_le_coe] at this
    exact this
  · rw [← hcond, hstep, hswap]
    constructor
    · intro h
      by_contra hc
      simp only [hc, if_false] at h
      exact hdiff (Option.some.inj h).symm
    · intro h
      simp only [h, if_true]
  · rw [← hcond, hstep]
    constructor
    · intro h hc
      simp only [hc, if_true] at h
      exact hdiff (Option.some.inj h)
    · intro h
      simp only [h, if_false]

/-- Witness of `improveStep_swaps_iff`: row 0 of the scenario state with weights `2, 1, 3, 2`. -/
theorem improveStep_swaps_iff_witness :
    ∃ j, j = (scenarioState.find_nonbasic_candidate scenarioWeights 0).1 ∧
      j < scenarioState.lu.cols - scenarioState.lu.rank ∧
      scenarioState.threshold < |scenarioState.S.coeff 0 j| ∧
      (∀ k, k < scenarioState.lu.cols - scenarioState.lu.rank →
        scenarioState.threshold < |scenarioState.S.coeff 0 k| →
        scenarioWeights.coeff (scenarioState.indicesNonBasicVariables.coeff k)
            * |scenarioState.S.coeff 0 k|
          ≤ scenarioWeights.coeff (scenarioState.indicesNonBasicVariables.coeff j)
            * |scenarioState.S.coeff 0 j|) ∧
      (scenarioState.improveStep scenarioWeights 0
          = scenarioState.updateWithSwapBasicVariable 0 j ↔
        scenarioWeights.coeff (scenarioState.indicesBasicVariables.coeff 0)
          < scenarioWeights.coeff (scenarioState.indicesNonBasicVariables.coeff j)
            * |scenarioState.S.coeff 0 j|) ∧
      (scenarioState.improveStep scenarioWeights 0 = some scenarioState ↔
        ¬ (scenarioWeights.coeff (scenarioState.indicesBasicVariables.coeff 0)
          < scenarioWeights.coeff (scenarioState.indicesNonBasicVariables.coeff j)
            * |scenarioState.S.coeff 0 j|)) :=
  improveStep_swaps_iff scenarioState scenarioWeights 0 scenarioState_wellFormed (by decide!)
    ⟨0, by decide!, by decide!⟩

/-! ## What the improvement phase guarantees for a row -/

theorem basic_coeff (st : Impl) (i : Nat) (hi : i < st.lu.rank) :
    st.indicesBasicVariables.coeff i = st.Q.coeff i :=
  Indices.coeff_take st.Q st.lu.rank i hi

theorem nonbasic_coeff (st : Impl) (k : Nat) (hwf : st.WellFormed) :
    st.indicesNonBasicVariables.coeff k = st.Q.coeff (st.lu.rank + k) := by
  have hl := Indices.perm_range_length _ _ hwf.Q_perm
  have h1 := hwf.rank_le_rows
  have h2 := hwf.rows_le_cols
  show Indices.coeff (st.Q.drop (st.Q.length - (st.lu.cols - st.lu.rank))) k = _
  rw [Indices.coeff_drop, hl]
  congr 1
  omega

theorem scaled_le_of_le (a b s p : ℚ) (hp : p ≠ 0) (h : a * |s| ≤ b * |p|) :
    a * |s * (1 / p)| ≤ b := by
  have hp0 : 0 < |p| := abs_pos.mpr hp
  have h1 : a * |s * (1 / p)| = a * |s| / |p| := by
    rw [abs_mul, abs_div, abs_one]
    ring
  rw [h1, div_le_iff₀ hp0]
  exact h

theorem scenario_priority_isSome :
    (scenarioState.updateWithPriorityWeights insertionStdSort scenarioWeights).isSome = true := by
  decide!

/-- Counterexample to claim C9 as stated: after the priority update of the scenario state
with weights `2, 1, 3, 2`, basic position 0 has weight 2 while non-basic position 0, whose
coefficient `1/2` in row 0 is above the threshold, has weight 3. -/
theorem updateWithPriorityWeights_leaves_heavier_candidate :
    ∃ st2, scenarioState.updateWithPriorityWeights insertionStdSort scenarioWeights = some st2 ∧
      ∃ i, i < st2.numBasicVariables ∧ ∃ j, j < st2.numNonBasicVariables ∧
        |st2.S.coeff i j| > st2.threshold ∧
        scenarioWeights.coeff (st2.indicesNonBasicVariables.coeff j)
          > scenarioWeights.coeff (st2.indicesBasicVariables.coeff i) := by
  exact ⟨(scenarioState.updateWithPriorityWeights insertionStdSort scenarioWeights).get
      scenario_priority_isSome,
    (Option.some_get scenario_priority_isSome).symm, 0, by decide!, 0, by decide!,
    by decide!, by decide!⟩

/-- Claim C9, amended: when the improvement phase of `updateWithPriorityWeights(w)` examines
basic row `i`, the step succeeds and right after it no non-basic position `k` whose coefficient
in row `i` was usable when the row was examined has a proportional weight
`w[nonbasic[k]] * |S(i, k)|` above `w[basic[i]]` (all three read after the step). -/
theorem improveStep_row_bound (st : Impl) (w : Vector) (i : Nat) (hwf : st.WellFormed)
    (hi : i < st.lu.rank) :
    ∃ st1, st.improveStep w i = some st1 ∧
      ∀ k, k < st.lu.cols - st.lu.rank → st.threshold < |st.S.coeff i k| →
        w.coeff (st1.indicesNonBasicVariables.coeff k) * |st1.S.coeff i k|
          ≤ w.coeff (st1.indicesBasicVariables.coeff i) := by
  refine ⟨_, improveStep_eq st w i hi, ?_⟩
  intro k hk hel
  have hmax := find_nonbasic_candidate_max st w i k hk hel
  by_cases hc : ((w.coeff ((st.Q.head st.lu.rank).coeff i) : ℚ) : WithBot ℚ)
      < (st.find_nonbasic_candidate w i).2
  · simp only [hc, if_true]
    have hne : (st.find_nonbasic_candidate w i).2 ≠ ⊥ := ne_bot_of_gt hc
    obtain ⟨h1, h2, h3⟩ := find_nonbasic_candidate_spec st w i hne
    rw [h3, WithBot.coe_lt_coe] at hc
    rw [h3, WithBot.coe_le_coe] at hmax
    have hp : st.S.coeff i (st.find_nonbasic_candidate w i).1 ≠ 0 := by
      intro h0
      rw [h0, abs_zero] at h2
      exact absurd hwf.threshold_nonneg (not_le.mpr h2)
    have hwf1 := swapBody_wellFormed st i _ hwf hi h1
    have hb : (st.Q.head st.lu.rank).coeff i = st.Q.coeff i := basic_coeff st i hi
    have hn : ∀ c, (st.Q.tail (st.lu.cols - st.lu.rank)).coeff c = st.Q.coeff (st.lu.rank + c) :=
      fun c => nonbasic_coeff st c hwf
    rw [hb, hn] at hc
    rw [hn, hn] at hmax
    rw [nonbasic_coeff _ k hwf1,
      basic_coeff (st.swapBody i (st.find_nonbasic_candidate w i).1) i hi,
      swapBody_Q_coeff st i _ _ hwf hi h1,
      swapBody_Q_coeff st i _ _ hwf hi h1, swapBody_S]
    have hlu : (st.swapBody i (st.find_nonbasic_candidate w i).1).lu = st.lu := rfl
    have hne1 : ¬ i = st.lu.rank + (st.find_nonbasic_candidate w i).1 := by omega
    have hne2 : ¬ st.lu.rank + k = i := by omega
    simp only [hlu, hne1, hne2, if_true, if_false]
    by_cases hkj : k = (st.find_nonbasic_candidate w i).1
    · have hkj1 : st.lu.rank + k = st.lu.rank + (st.find_nonbasic_candidate w i).1 := by
        rw [hkj]
      simp only [hkj, if_true]
      have := scaled_le_of_le (w.coeff (st.Q.coeff i))
        (w.coeff (st.Q.coeff (st.lu.rank + (st.find_nonbasic_candidate w i).1))) 1 _ hp
        (by rw [abs_one, mul_one]; exact le_of_lt hc)
      rw [one_mul] at this
      exact this
    · have hkj1 : ¬ st.lu.rank + k = st.lu.rank + (st.find_nonbasic_candidate w i).1 := by
        omega
      simp only [hkj, hkj1, if_false]
      exact scaled_le_of_le _ _ _ _ hp hmax
  · simp only [hc, if_false]
    have h1 := le_trans hmax (not_lt.mp hc)
    rw [WithBot.coe_le_coe] at h1
    exact h1

/-- Witness of `improveStep_row_bound`: row 0 of the scenario state with weights `2, 1, 3, 2`. -/
theorem improveStep_row_bound_witness :
    ∃ st1, scenarioState.improveStep scenarioWeights 0 = some st1 ∧
      ∀ k, k < scenarioState.lu.cols - scenarioState.lu.rank →
        scenarioState.threshold < |scenarioState.S.coeff 0 k| →
        scenarioWeights.coeff (st1.indicesNonBasicVariables.coeff k) * |st1.S.coeff 0 k|
          ≤ scenarioWeights.coeff (st1.indicesBasicVariables.coeff 0) :=
  improveStep_row_bound scenarioState scenarioWeights 0 scenarioState_wellFormed (by decide!)

/-! ## Variables of non-positive weight -/

theorem smallEntries_isFullPivLU : IsFullPivLU smallEntriesA smallEntriesLU where
  rows_eq := rfl
  cols_eq := rfl
  P_perm := by decide
  Q_perm := by decide
  rank_le := by decide
  pivot_ne_zero := by decide!
  rows_zero := by
    intro i h1 h2
    have h3 : i < 2 := h2
    have h4 : 2 ≤ i := h1
    omega
  factorization := by decide!
  threshold_nonneg := by decide!

theorem smallEntries_priority_isSome :
    (smallEntriesState.updateWithPriorityWeights insertionStdSort smallEntriesWeights).isSome
      = true := by
  decide!

/-- Counterexample to claim C10 as stated: `smallEntriesA` is canonicalized with a valid
decomposition and threshold `2^-49`; with weights `0, 1, 3, 2` the priority update leaves
variable 0, of weight 0, basic at row 1, although the non-basic variable at position 0 has the
positive weight 2 and the coefficient `2 * 2^-49` in that row, above the threshold. -/
theorem updateWithPriorityWeights_keeps_nonpositive_basic :
    ∃ st2, smallEntriesState.updateWithPriorityWeights insertionStdSort smallEntriesWeights
        = some st2 ∧
      ∃ i, i < st2.numBasicVariables ∧
        smallEntriesWeights.coeff (st2.indicesBasicVariables.coeff i) ≤ 0 ∧
        ∃ j, j < st2.numNonBasicVariables ∧ |st2.S.coeff i j| > st2.threshold ∧
          smallEntriesWeights.coeff (st2.indicesNonBasicVariables.coeff j) > 0 := by
  exact ⟨(smallEntriesState.updateWithPriorityWeights insertionStdSort smallEntriesWeights).get
      smallEntries_priority_isSome,
    (Option.some_get smallEntries_priority_isSome).symm, 1, by decide!, by decide!, 0,
    by decide!, by decide!, by decide!⟩

theorem nonpos_of_mul_abs_nonpos (x s : ℚ) (hs : s ≠ 0) (h : x * |s| ≤ 0) : x ≤ 0 := by
  by_contra hx
  have hx1 : 0 < x := not_le.mp hx
  have := mul_pos hx1 (abs_pos.mpr hs)
  linarith

theorem improve_append (w : Vector) (l1 l2 : List Nat) :
    ∀ st, Impl.improve w (l1 ++ l2) st
      = match Impl.improve w l1 st with
        | none => none
        | some st1 => Impl.improve w l2 st1 := by
  induction l1 with
  | nil => intro st; rfl
  | cons i l1 ih =>
    intro st
    simp only [List.cons_append, Impl.improve]
    cases h : st.improveStep w i with
    | none => rfl
    | some st1 => exact ih st1

theorem improve_range_induction (w : Vector) (Inv : Nat → Impl → Prop) (r : Nat) (st : Impl)
    (h0 : Inv 0 st)
    (hstep : ∀ t s, t < r → Inv t s → ∃ s1, s.improveStep w t = some s1 ∧ Inv (t + 1) s1) :
    ∀ t, t ≤ r → ∃ s, Impl.improve w (List.range t) st = some s ∧ Inv t s := by
  intro t
  induction t with
  | zero => intro _; exact ⟨st, rfl, h0⟩
  | succ t ih =>
    intro ht
    obtain ⟨s, h1, h2⟩ := ih (by omega)
    obtain ⟨s1, h3, h4⟩ := hstep t s (by omega) h2
    refine ⟨s1, ?_, h4⟩
    rw [List.range_succ, improve_append, h1]
    simp only [Impl.improve, h3]

theorem improveStep_excludes (s : Impl) (w : Vector) (t : Nat) (hwf : s.WellFormed)
    (hrow : ∀ k, k < s.lu.cols - s.lu.rank → s.S.coeff t k ≠ 0 →
      |s.S.coeff t k| > s.threshold)
    (ht : t < s.lu.rank)
    (hinv : ∀ i, i < t → w.coeff (s.Q.coeff i) ≤ 0 →
      ∀ k, k < s.lu.cols - s.lu.rank → s.S.coeff i k ≠ 0 →
        w.coeff (s.Q.coeff (s.lu.rank + k)) ≤ 0) :
    ∃ s1, s.improveStep w t = some s1 ∧ s1.WellFormed ∧ s1.lu = s.lu ∧
      ∀ i, i < t + 1 → w.coeff (s1.Q.coeff i) ≤ 0 →
        ∀ k, k < s.lu.cols - s.lu.rank → s1.S.coeff i k ≠ 0 →
          w.coeff (s1.Q.coeff (s.lu.rank + k)) ≤ 0 := by
  have hb : (s.Q.head s.lu.rank).coeff t = s.Q.coeff t := basic_coeff s t ht
  have hn : ∀ c, (s.Q.tail (s.lu.cols - s.lu.rank)).coeff c = s.Q.coeff (s.lu.rank + c) :=
    fun c => nonbasic_coeff s c hwf
  have hmax : ∀ k, k < s.lu.cols - s.lu.rank → s.S.coeff t k ≠ 0 →
      ((w.coeff (s.Q.coeff (s.lu.rank + k)) * |s.S.coeff t k| : ℚ) : WithBot ℚ)
        ≤ (s.find_nonbasic_candidate w t).2 := by
    intro k hk hne
    have := find_nonbasic_candidate_max s w t k hk (hrow k hk hne)
    rw [hn] at this
    exact this
  refine ⟨_, improveStep_eq s w t ht, ?_⟩
  by_cases hc : ((w.coeff ((s.Q.head s.lu.rank).coeff t) : ℚ) : WithBot ℚ)
      < (s.find_nonbasic_candidate w t).2
  · simp only [hc, if_true]
    have hne : (s.find_nonbasic_candidate w t).2 ≠ ⊥ := ne_bot_of_gt hc
    obtain ⟨h1, h2, h3⟩ := find_nonbasic_candidate_spec s w t hne
    generalize (s.find_nonbasic_candidate w t).1 = j at h1 h2 h3 ⊢
    rw [h3, WithBot.coe_lt_coe, hb, hn] at hc
    have hp : s.S.coeff t j ≠ 0 := by
      intro h0
      rw [h0, abs_zero] at h2
      exact absurd hwf.threshold_nonneg (not_le.mpr h2)
    have hmax1 : ∀ k, k < s.lu.cols - s.lu.rank → s.S.coeff t k ≠ 0 →
        w.coeff (s.Q.coeff (s.lu.rank + k)) * |s.S.coeff t k|
          ≤ w.coeff (s.Q.coeff (s.lu.rank + j)) * |s.S.coeff t j| := by
      intro k hk hne
      have := hmax k hk hne
      rw [h3, hn, WithBot.coe_le_coe] at this
      exact this
    have hpos : 0 < |s.S.coeff t j| := abs_pos.mpr hp
    -- consequences of a non-positive weight of the entering variable
    have F1 : w.coeff (s.Q.coeff (s.lu.rank + j)) ≤ 0 → w.coeff (s.Q.coeff t) ≤ 0 := by
      intro ha
      have := mul_nonpos_of_nonpos_of_nonneg ha (le_of_lt hpos)
      linarith
    have F2 : w.coeff (s.Q.coeff (s.lu.rank + j)) ≤ 0 →
        ∀ k, k < s.lu.cols - s.lu.rank → s.S.coeff t k ≠ 0 →
          w.coeff (s.Q.coeff (s.lu.rank + k)) ≤ 0 := by
      intro ha k hk hne
      have h4 := mul_nonpos_of_nonpos_of_nonneg ha (le_of_lt hpos)
      exact nonpos_of_mul_abs_nonpos _ _ hne (le_trans (hmax1 k hk hne) h4)
    refine ⟨swapBody_wellFormed s t j hwf ht h1, rfl, ?_⟩
    intro i hi hwi k hk hS
    rw [swapBody_Q_coeff s t j _ hwf ht h1] at hwi ⊢
    rw [swapBody_S] at hS
    have hne1 : ¬ i = s.lu.rank + j := by omega
    have hne2 : ¬ s.lu.rank + k = t := by omega
    have hir : i < s.S.rows := by rw [hwf.S_rows]; omega
    simp only [hne1, hne2, if_false] at hwi ⊢
    by_cases hit : i = t
    · subst hit
      simp only [if_true] at hwi hS
      by_cases hkj : k = j
      · subst hkj
        simp only [if_true]
        exact F1 hwi
      · have hkj1 : ¬ s.lu.rank + k = s.lu.rank + j := by omega
        simp only [hkj, hkj1, if_false] at hS ⊢
        exact F2 hwi k hk (left_ne_zero_of_mul hS)
    · have hlt : i < t := by omega
      simp only [hit, if_false, hir, if_true] at hwi hS
      have G := hinv i hlt hwi
      by_cases hkj : k = j
      · subst hkj
        simp only [if_true] at hS ⊢
        have hSij : s.S.coeff i k ≠ 0 := by
          intro h0
          apply hS
          rw [h0]
          ring
        exact F1 (G k hk hSij)
      · have hkj1 : ¬ s.lu.rank + k = s.lu.rank + j := by omega
        simp only [hkj, hkj1, if_false] at hS ⊢
        by_cases hSik : s.S.coeff i k = 0
        · rw [hSik, zero_sub, neg_ne_zero] at hS
          have hSij : s.S.coeff i j ≠ 0 := left_ne_zero_of_mul hS
          have hStk : s.S.coeff t k ≠ 0 := left_ne_zero_of_mul (right_ne_zero_of_mul hS)
          exact F2 (G j h1 hSij) k hk hStk
        · exact G k hk hSik
  · simp only [hc, if_false]
    refine ⟨hwf, trivial, ?_⟩
    intro i hi hwi k hk hS
    by_cases hit : i = t
    · subst hit
      have h1 := le_trans (hmax k hk hS) (not_lt.mp hc)
      rw [hb, WithBot.coe_le_coe] at h1
      exact nonpos_of_mul_abs_nonpos _ _ hS (le_trans h1 hwi)
    · exact hinv i (by omega) hwi k hk hS

theorem sortPhase_S_coeff (srt : StdSort) (s : Impl) (w : Vector) (i c : Nat)
    (hi : i < s.lu.rank) (hc : c < s.lu.cols - s.lu.rank) :
    (s.sortPhase srt w).S.coeff i c
      = s.S.coeff ((s.sortPhase srt w).Kb.coeff i) ((s.sortPhase srt w).Kn.coeff c) := by
  show permuteCols (s.sortPhase srt w).Kn (s.lu.cols - s.lu.rank)
    (permuteRows (s.sortPhase srt w).Kb s.lu.rank s.S.coeff) i c = _
  simp [permuteCols, permuteRows, hc, hi]

theorem sortPhase_excludes (srt : StdSort) (s : Impl) (w : Vector) (hwf : s.WellFormed)
    (hinv : ∀ i, i < s.lu.rank → w.coeff (s.Q.coeff i) ≤ 0 →
      ∀ k, k < s.lu.cols - s.lu.rank → s.S.coeff i k ≠ 0 →
        w.coeff (s.Q.coeff (s.lu.rank + k)) ≤ 0) :
    ∀ i, i < (s.sortPhase srt w).numBasicVariables →
      w.coeff ((s.sortPhase srt w).indicesBasicVariables.coeff i) ≤ 0 →
      ∀ j, j < (s.sortPhase srt w).numNonBasicVariables →
        |(s.sortPhase srt w).S.coeff i j| > (s.sortPhase srt w).threshold →
        w.coeff ((s.sortPhase srt w).indicesNonBasicVariables.coeff j) ≤ 0 := by
  intro i hi hwi j hj hS
  have h1 := hwf.rank_le_rows
  have h2 := hwf.rows_le_cols
  have hi1 : i < s.lu.rank := hi
  have hj1 : j < s.lu.cols - s.lu.rank := hj
  have hwf2 := sortPhase_wellFormed srt s w hwf
  have hKb := Indices.perm_range_coeff_lt _ _ i (sortPhase_Kb_perm srt s w hwf) hi1
  have hKn := Indices.perm_range_coeff_lt _ _ j (sortPhase_Kn_perm srt s w hwf) hj1
  have hthr2 : 0 ≤ (s.sortPhase srt w).threshold := hwf.threshold_nonneg
  have hlu : (s.sortPhase srt w).lu = s.lu := rfl
  rw [basic_coeff (s.sortPhase srt w) i hi1, sortPhase_Q_coeff srt s w hwf i (by omega)] at hwi
  rw [nonbasic_coeff (s.sortPhase srt w) j hwf2, hlu,
    sortPhase_Q_coeff srt s w hwf _ (by omega)]
  rw [sortPhase_S_coeff srt s w i j hi1 hj1] at hS
  have hS0 : s.S.coeff ((s.sortPhase srt w).Kb.coeff i) ((s.sortPhase srt w).Kn.coeff j) ≠ 0 :=
    abs_pos.mp (lt_of_le_of_lt hthr2 hS)
  have hge : ¬ (s.lu.rank + j < s.lu.rank) := by omega
  simp only [hi1, if_true] at hwi
  simp only [hge, if_false, Nat.add_sub_cancel_left]
  exact hinv _ hKb hwi _ hKn hS0

theorem improveStep_row_nonpositive (st : Impl) (w : Vector) (i : Nat) (hwf : st.WellFormed)
    (hi : i < st.lu.rank) :
    ∃ st1, st.improveStep w i = some st1 ∧
      (w.coeff (st1.indicesBasicVariables.coeff i) ≤ 0 →
        ∀ k, k < st.lu.cols - st.lu.rank → st.threshold < |st.S.coeff i k| →
          w.coeff (st.indicesNonBasicVariables.coeff k) ≤ 0) := by
  refine ⟨_, improveStep_eq st w i hi, ?_⟩
  intro hb k hk hel
  have hSk : st.S.coeff i k ≠ 0 := by
    intro h0
    rw [h0, abs_zero] at hel
    exact absurd hwf.threshold_nonneg (not_le.mpr hel)
  have hmax := find_nonbasic_candidate_max st w i k hk hel
  by_cases hc : ((w.coeff ((st.Q.head st.lu.rank).coeff i) : ℚ) : WithBot ℚ)
      < (st.find_nonbasic_candidate w i).2
  · simp only [hc, if_true] at hb
    have hne : (st.find_nonbasic_candidate w i).2 ≠ ⊥ := ne_bot_of_gt hc
    obtain ⟨h1, h2, h3⟩ := find_nonbasic_candidate_spec st w i hne
    rw [h3, WithBot.coe_le_coe] at hmax
    rw [basic_coeff (st.swapBody i (st.find_nonbasic_candidate w i).1) i hi,
      swapBody_Q_coeff st i _ _ hwf hi h1] at hb
    have hne1 : ¬ i = st.lu.rank + (st.find_nonbasic_candidate w i).1 := by omega
    simp only [hne1, if_false, if_true] at hb
    rw [← nonbasic_coeff st _ hwf] at hb
    have h4 := mul_nonpos_of_nonpos_of_nonneg hb
      (abs_nonneg (st.S.coeff i (st.find_nonbasic_candidate w i).1))
    exact nonpos_of_mul_abs_nonpos _ _ hSk (le_trans hmax h4)
  · simp only [hc, if_false] at hb
    have h1 := le_trans hmax (not_lt.mp hc)
    rw [WithBot.coe_le_coe] at h1
    exact nonpos_of_mul_abs_nonpos _ _ hSk (le_trans h1 hb)

theorem scenarioSigned_improve_isSome :
    (Impl.improve scenarioSignedWeights (List.range 0) scenarioState).isSome = true ∧
      (Impl.improve scenarioSignedWeights (List.range 1) scenarioState).isSome = true := by
  constructor
  · decide!
  · decide!

theorem scenarioSigned_row0_clear :
    ∀ k, k < scenarioState.lu.cols - scenarioState.lu.rank →
      ((Impl.improve scenarioSignedWeights (List.range 0) scenarioState).get
          scenarioSigned_improve_isSome.1).S.coeff 0 k ≠ 0 →
      |((Impl.improve scenarioSignedWeights (List.range 0) scenarioState).get
          scenarioSigned_improve_isSome.1).S.coeff 0 k|
        > ((Impl.improve scenarioSignedWeights (List.range 0) scenarioState).get
          scenarioSigned_improve_isSome.1).threshold := by
  decide!

theorem scenarioSigned_row1_clear :
    ∀ k, k < scenarioState.lu.cols - scenarioState.lu.rank →
      ((Impl.improve scenarioSignedWeights (List.range 1) scenarioState).get
          scenarioSigned_improve_isSome.2).S.coeff 1 k ≠ 0 →
      |((Impl.improve scenarioSignedWeights (List.range 1) scenarioState).get
          scenarioSigned_improve_isSome.2).S.coeff 1 k|
        > ((Impl.improve scenarioSignedWeights (List.range 1) scenarioState).get
          scenarioSigned_improve_isSome.2).threshold := by
  decide!

theorem scenarioSigned_rows_clear :
    ∀ t, t < scenarioState.lu.rank →
      ∀ s, Impl.improve scenarioSignedWeights (List.range t) scenarioState = some s →
        ∀ k, k < scenarioState.lu.cols - scenarioState.lu.rank → s.S.coeff t k ≠ 0 →
          |s.S.coeff t k| > s.threshold := by
  intro t ht s hs
  have ht2 : t < 2 := ht
  interval_cases t
  · rw [← Option.some_get scenarioSigned_improve_isSome.1] at hs
    rw [← Option.some.inj hs]
    exact scenarioSigned_row0_clear
  · rw [← Option.some_get scenarioSigned_improve_isSome.2] at hs
    rw [← Option.some.inj hs]
    exact scenarioSigned_row1_clear

/-- Claim C10, amended: with `Z` the variables of non-positive weight, if no row holds, when
the improvement phase comes to examine it, a non-zero coefficient at or below the threshold,
then the priority update with weights of length `n` succeeds and afterwards a variable of `Z`
is basic at row `i` only if every non-basic variable with a usable coefficient in row `i`
(`|S(i, j)| > threshold`) belongs to `Z`.  The state in which row `t` is examined is the one
the improvement loop leaves after the rows `0 .. t-1`. -/
theorem updateWithPriorityWeights_excludes_nonpositive (srt : StdSort) (st : Impl) (w : Vector)
    (hwf : st.WellFormed) (hw : w.rows = st.lu.cols)
    (hclear : ∀ t, t < st.lu.rank →
      ∀ s, Impl.improve w (List.range t) st = some s →
        ∀ k, k < st.lu.cols - st.lu.rank → s.S.coeff t k ≠ 0 →
          |s.S.coeff t k| > s.threshold) :
    ∃ st2, st.updateWithPriorityWeights srt w = some st2 ∧
      ∀ i, i < st2.numBasicVariables →
        w.coeff (st2.indicesBasicVariables.coeff i) ≤ 0 →
        ∀ j, j < st2.numNonBasicVariables → |st2.S.coeff i j| > st2.threshold →
          w.coeff (st2.indicesNonBasicVariables.coeff j) ≤ 0 := by
  by_cases hnn : st.lu.cols - st.lu.rank > 0
  · obtain ⟨s, h1, hwf1, hlu1, _, hinv⟩ := improve_range_induction w
      (fun t s => s.WellFormed ∧ s.lu = st.lu ∧
        Impl.improve w (List.range t) st = some s ∧
        ∀ i, i < t → w.coeff (s.Q.coeff i) ≤ 0 →
          ∀ k, k < st.lu.cols - st.lu.rank → s.S.coeff i k ≠ 0 →
            w.coeff (s.Q.coeff (st.lu.rank + k)) ≤ 0)
      st.lu.rank st ⟨hwf, rfl, rfl, fun i hi => absurd hi (Nat.not_lt_zero i)⟩
      (by
        intro t s ht ⟨a1, a2, a3, a4⟩
        have hrow := hclear t ht s a3
        rw [← a2] at ht a4 hrow
        obtain ⟨s1, b1, b2, b3, b5⟩ := improveStep_excludes s w t a1 hrow ht a4
        refine ⟨s1, b1, b2, b3.trans a2, ?_, ?_⟩
        · rw [List.range_succ, improve_append, a3]
          simp only [Impl.improve, b1]
        · rw [← a2]
          exact b5)
      st.lu.rank (le_refl _)
    refine ⟨s.sortPhase srt w, ?_, ?_⟩
    · simp only [Impl.updateWithPriorityWeights, hw, not_true_eq_false, if_false, hnn, if_true,
        h1]
    · rw [← hlu1] at hinv
      exact sortPhase_excludes srt s w hwf1 hinv
  · refine ⟨st.sortPhase srt w, ?_, ?_⟩
    · simp only [Impl.updateWithPriorityWeights, hw, not_true_eq_false, if_false, hnn]
    · intro i _ _ j hj
      have : j < st.lu.cols - st.lu.rank := hj
      omega

/-- Witness of `updateWithPriorityWeights_excludes_nonpositive`: the scenario state, whose
threshold is `2^-48`, with the weights `0, -1, 3, -1`; the rows examined hold the entries
`1/2, 1/2` and then, after the swap in row 0, `-1, -1`.  Variable 0 stays basic, and the two
non-basic variables, 3 and 1, have the weight `-1`. -/
theorem updateWithPriorityWeights_excludes_nonpositive_witness :
    ∃ st2, scenarioState.updateWithPriorityWeights insertionStdSort scenarioSignedWeights
        = some st2 ∧
      ∀ i, i < st2.numBasicVariables →
        scenarioSignedWeights.coeff (st2.indicesBasicVariables.coeff i) ≤ 0 →
        ∀ j, j < st2.numNonBasicVariables → |st2.S.coeff i j| > st2.threshold →
          scenarioSignedWeights.coeff (st2.indicesNonBasicVariables.coeff j) ≤ 0 :=
  updateWithPriorityWeights_excludes_nonpositive insertionStdSort scenarioState
    scenarioSignedWeights scenarioState_wellFormed rfl scenarioSigned_rows_clear

theorem scenarioSigned_result :
    (scenarioState.updateWithPriorityWeights insertionStdSort scenarioSignedWeights).map
        (fun s => (s.indicesBasicVariables, s.indicesNonBasicVariables))
      = some ([2, 0], [3, 1]) := by
  decide!

/-! ## Rows without a usable pivot -/

theorem find_nonbasic_candidate_eq_bot (st : Impl) (w : Vector) (i : Nat)
    (h : ∀ k, k < st.lu.cols - st.lu.rank → |st.S.coeff i k| ≤ st.threshold) :
    (st.find_nonbasic_candidate w i).2 = ⊥ := by
  by_contra hne
  obtain ⟨h1, h2, _⟩ := find_nonbasic_candidate_spec st w i hne
  exact absurd (h _ h1) (not_le.mpr h2)

/-- Claim C11: if every entry of row `i` of `S` is at or below the threshold when the
improvement phase examines the row, the step leaves the state as it is, whatever the weights;
in particular the basic variable of row `i` stays basic at row `i`. -/
theorem improveStep_without_usable_pivot (st : Impl) (w : Vector) (i : Nat)
    (h : ∀ k, k < st.lu.cols - st.lu.rank → |st.S.coeff i k| ≤ st.threshold) :
    st.improveStep w i = some st ∧
      ∀ st1, st.improveStep w i = some st1 →
        st1.indicesBasicVariables.coeff i = st.indicesBasicVariables.coeff i := by
  have hb := find_nonbasic_candidate_eq_bot st w i h
  have hs : st.improveStep w i = some st := by
    unfold Impl.improveStep
    simp only [hb, not_lt_bot, if_false]
  refine ⟨hs, ?_⟩
  intro st1 h1
  rw [hs] at h1
  rw [← Option.some.inj h1]

/-- Witness of `improveStep_without_usable_pivot`: row 0 of `smallEntriesState`, whose two
entries `2^-49` equal the threshold, with the weight 0 on its basic variable. -/
theorem improveStep_without_usable_pivot_witness :
    smallEntriesState.improveStep smallEntriesWeights 0 = some smallEntriesState ∧
      ∀ st1, smallEntriesState.improveStep smallEntriesWeights 0 = some st1 →
        st1.indicesBasicVariables.coeff 0 = smallEntriesState.indicesBasicVariables.coeff 0 :=
  improveStep_without_usable_pivot smallEntriesState smallEntriesWeights 0 (by decide!)

/-! ## Failed assertions -/

/-- Claim C12: `compute(A)` fails its assertion exactly when `A` has more rows than columns,
and succeeds exactly when `n >= m`. -/
theorem compute_fails_iff (fullPivLu : Matrix → FullPivLU) (st : Impl) (A : Matrix) :
    (Impl.compute fullPivLu st A = none ↔ A.cols < A.rows) ∧
      ((∃ st1, Impl.compute fullPivLu st A = some st1) ↔ A.cols ≥ A.rows) := by
  unfold Impl.compute
  by_cases h : A.cols ≥ A.rows
  · rw [if_neg (not_not.mpr h)]
    constructor
    · constructor
      · intro h1; cases h1
      · intro h1; exact absurd h (not_le.mpr h1)
    · exact ⟨fun _ => h, fun _ => ⟨_, rfl⟩⟩
  · rw [if_pos h]
    constructor
    · exact ⟨fun _ => not_le.mp h, fun _ => rfl⟩
    · constructor
      · rintro ⟨st1, h1⟩; cases h1
      · intro h1; exact absurd h1 h

theorem computeTraced_toOption (fullPivLu : Matrix → FullPivLU) (st : Impl) (A : Matrix) :
    (Impl.computeTraced fullPivLu st A).toOption = Impl.compute fullPivLu st A := by
  unfold Impl.computeTraced Impl.compute
  split_ifs <;> rfl

theorem updateWithSwapBasicVariableTraced_toOption (st : Impl) (ib inn : Nat) :
    (st.updateWithSwapBasicVariableTraced ib inn).toOption
      = st.updateWithSwapBasicVariable ib inn := by
  unfold Impl.updateWithSwapBasicVariableTraced Impl.updateWithSwapBasicVariable
  split_ifs <;> rfl

theorem improveStepTraced_toOption (st : Impl) (w : Vector) (i : Nat) :
    (st.improveStepTraced w i).toOption = st.improveStep w i := by
  unfold Impl.improveStepTraced Impl.improveStep
  by_cases h : ((w.coeff ((st.Q.head st.lu.rank).coeff i) : ℚ) : WithBot ℚ)
      < (st.find_nonbasic_candidate w i).2
  · simp only [h, if_true]
    exact updateWithSwapBasicVariableTraced_toOption st i _
  · simp only [h, if_false]
    rfl

theorem improveTraced_toOption (w : Vector) (l : List Nat) :
    ∀ st, (Impl.improveTraced w l st).toOption = Impl.improve w l st := by
  induction l with
  | nil => intro st; rfl
  | cons i l ih =>
    intro st
    have h := improveStepTraced_toOption st w i
    simp only [Impl.improveTraced, Impl.improve]
    cases h1 : st.improveStepTraced w i with
    | error e =>
      rw [h1] at h
      rw [← h]
      rfl
    | ok st1 =>
      rw [h1] at h
      rw [← h]
      exact ih st1

theorem updateWithPriorityWeightsTraced_toOption (srt : StdSort) (st : Impl) (w : Vector) :
    (st.updateWithPriorityWeightsTraced srt w).toOption
      = st.updateWithPriorityWeights srt w := by
  unfold Impl.updateWithPriorityWeightsTraced Impl.updateWithPriorityWeights
  by_cases hw : w.rows = st.lu.cols
  · simp only [hw, not_true_eq_false, if_false]
    by_cases hnn : st.lu.cols - st.lu.rank > 0
    · simp only [hnn, if_true]
      have h := improveTraced_toOption w (List.range st.lu.rank) st
      cases h1 : Impl.improveTraced w (List.range st.lu.rank) st with
      | error e =>
        rw [h1] at h
        rw [← h]
        rfl
      | ok st1 =>
        rw [h1] at h
        rw [← h]
        rfl
    · simp only [hnn, if_false]
      rfl
  · simp only [hw, not_false_eq_true, if_true]
    rfl

theorem updateWithSwapBasicVariableTraced_error_iff (st e : Impl) (ib inn : Nat) :
    st.updateWithSwapBasicVariableTraced ib inn = .error e ↔
      ((ib ≥ st.lu.rank ∨ inn ≥ st.lu.cols - st.lu.rank ∨ |st.S.coeff ib inn| ≤ st.threshold)
        ∧ e = st) := by
  unfold Impl.updateWithSwapBasicVariableTraced
  by_cases h1 : ib < st.lu.rank
  · by_cases h2 : inn < st.lu.cols - st.lu.rank
    · by_cases h3 : |st.S.coeff ib inn| > st.threshold
      · rw [if_neg (not_not.mpr h1), if_neg (not_not.mpr h2), if_neg (not_not.mpr h3)]
        constructor
        · intro h; cases h
        · rintro ⟨h | h | h, _⟩
          · exact absurd h1 (not_lt.mpr h)
          · exact absurd h2 (not_lt.mpr h)
          · exact absurd h3 (not_lt.mpr h)
      · rw [if_neg (not_not.mpr h1), if_neg (not_not.mpr h2), if_pos h3]
        constructor
        · intro h
          exact ⟨Or.inr (Or.inr (not_lt.mp h3)), (Except.error.inj h).symm⟩
        · rintro ⟨_, rfl⟩; rfl
    · rw [if_neg (not_not.mpr h1), if_pos h2]
      constructor
      · intro h
        exact ⟨Or.inr (Or.inl (not_lt.mp h2)), (Except.error.inj h).symm⟩
      · rintro ⟨_, rfl⟩; rfl
  · rw [if_pos h1]
    constructor
    · intro h
      exact ⟨Or.inl (not_lt.mp h1), (Except.error.inj h).symm⟩
    · rintro ⟨_, rfl⟩; rfl

theorem improveStepTraced_ok (st : Impl) (w : Vector) (i : Nat) (hi : i < st.lu.rank) :
    ∃ st1, st.improveStepTraced w i = .ok st1 ∧ st1.lu = st.lu := by
  unfold Impl.improveStepTraced
  by_cases h : ((w.coeff ((st.Q.head st.lu.rank).coeff i) : ℚ) : WithBot ℚ)
      < (st.find_nonbasic_candidate w i).2
  · simp only [h, if_true]
    have hne : (st.find_nonbasic_candidate w i).2 ≠ ⊥ := ne_bot_of_gt h
    obtain ⟨h1, h2, _⟩ := find_nonbasic_candidate_spec st w i hne
    refine ⟨st.swapBody i (st.find_nonbasic_candidate w i).1, ?_, rfl⟩
    unfold Impl.updateWithSwapBasicVariableTraced
    rw [if_neg (not_not.mpr hi), if_neg (not_not.mpr h1), if_neg (not_not.mpr h2)]
  · simp only [h, if_false]
    exact ⟨st, rfl, rfl⟩

theorem improveTraced_ok (w : Vector) (l : List Nat) :
    ∀ st, (∀ i ∈ l, i < st.lu.rank) → ∃ st1, Impl.improveTraced w l st = .ok st1 := by
  induction l with
  | nil => intro st _; exact ⟨st, rfl⟩
  | cons i l ih =>
    intro st hl
    obtain ⟨st1, h1, h2⟩ := improveStepTraced_ok st w i (hl i (List.mem_cons_self _ _))
    obtain ⟨st2, h3⟩ := ih st1 (fun j hj => by rw [h2]; exact hl j (List.mem_cons_of_mem _ hj))
    refine ⟨st2, ?_⟩
    simp only [Impl.improveTraced, h1]
    exact h3

/-- Claim C13: when `compute`, `updateWithSwapBasicVariable` or `updateWithPriorityWeights`
fails an assertion, the state in which it fails is the state before the call; and each fails
exactly on its own precondition (`n < m`; an index out of range or an unusable pivot; a weight
vector of the wrong length), never inside a swap called by the priority update. -/
theorem failed_assertion_leaves_state :
    (∀ (fullPivLu : Matrix → FullPivLU) (st e : Impl) (A : Matrix),
      Impl.computeTraced fullPivLu st A = .error e ↔ (A.cols < A.rows ∧ e = st)) ∧
    (∀ (st e : Impl) (ib inn : Nat),
      st.updateWithSwapBasicVariableTraced ib inn = .error e ↔
        ((ib ≥ st.lu.rank ∨ inn ≥ st.lu.cols - st.lu.rank
            ∨ |st.S.coeff ib inn| ≤ st.threshold) ∧ e = st)) ∧
    (∀ (srt : StdSort) (st e : Impl) (w : Vector),
      st.updateWithPriorityWeightsTraced srt w = .error e ↔
        (w.rows ≠ st.lu.cols ∧ e = st)) := by
  refine ⟨?_, updateWithSwapBasicVariableTraced_error_iff, ?_⟩
  · intro fullPivLu st e A
    unfold Impl.computeTraced
    by_cases h : A.cols ≥ A.rows
    · rw [if_neg (not_not.mpr h)]
      constructor
      · intro h1; cases h1
      · rintro ⟨h1, _⟩; exact absurd h (not_le.mpr h1)
    · rw [if_pos h]
      constructor
      · intro h1
        exact ⟨not_le.mp h, (Except.error.inj h1).symm⟩
      · rintro ⟨_, rfl⟩; rfl
  · intro srt st e w
    unfold Impl.updateWithPriorityWeightsTraced
    by_cases hw : w.rows = st.lu.cols
    · simp only [hw, not_true_eq_false, if_false, ne_eq, false_and, iff_false]
      by_cases hnn : st.lu.cols - st.lu.rank > 0
      · obtain ⟨st1, h1⟩ := improveTraced_ok w (List.range st.lu.rank) st
          (fun i hi => List.mem_range.mp hi)
        simp only [hnn, if_true, h1]
        intro h; cases h
      · simp only [hnn, if_false]
        intro h; cases h
    · rw [if_pos hw]
      constructor
      · intro h1
        exact ⟨hw, (Except.error.inj h1).symm⟩
      · rintro ⟨_, rfl⟩; rfl

/-! ## The materialized canonical matrix -/

/-- Claim C17: in a computed state with `m` equations, `n` variables and rank `r`, `C()` is
the `m x n` matrix whose first `r` rows are `[I_r | S()]` and whose rows `r .. m-1` are zero. -/
theorem C_is_canonical_matrix (st : Impl) (hwf : st.WellFormed) :
    st.C.rows = st.numEquations ∧ st.C.cols = st.numVariables ∧
      (∀ i, i < st.numBasicVariables → ∀ k, k < st.numBasicVariables →
        st.C.coeff i k = if i = k then 1 else 0) ∧
      (∀ i, i < st.numBasicVariables → ∀ k, k < st.S.cols →
        st.C.coeff i (st.numBasicVariables + k) = st.S.coeff i k) ∧
      (∀ i, st.numBasicVariables ≤ i → i < st.numEquations → ∀ k, k < st.numVariables →
        st.C.coeff i k = 0) ∧
      st.numBasicVariables + st.S.cols = st.numVariables := by
  have h1 := hwf.rank_le_rows
  have h2 := hwf.rows_le_cols
  have h3 := hwf.S_cols
  refine ⟨rfl, rfl, ?_, ?_, ?_, ?_⟩
  · intro i hi k hk
    simp only [Impl.C, Matrix.setTopRows, zeros, identity, hi, hk, if_true]
  · intro i hi k _
    have hk1 : ¬ (st.numBasicVariables + k < st.numBasicVariables) := by omega
    simp only [Impl.C, Matrix.setTopRows, zeros, identity, hi, hk1, if_true, if_false,
      Nat.add_sub_cancel_left]
  · intro i hi _ k _
    have hi1 : ¬ (i < st.numBasicVariables) := by omega
    simp only [Impl.C, Matrix.setTopRows, zeros, identity, hi1, if_false]
  · show st.lu.rank + st.S.cols = st.lu.cols
    omega

/-- Witness of `C_is_canonical_matrix`: the scenario state. -/
theorem C_is_canonical_matrix_witness :
    scenarioState.C.rows = 2 ∧ scenarioState.C.cols = 4 ∧
      (∀ i, i < 2 → ∀ k, k < 2 → scenarioState.C.coeff i k = if i = k then 1 else 0) ∧
      (∀ i, i < 2 → ∀ k, k < 2 → scenarioState.C.coeff i (2 + k) = scenarioState.S.coeff i k) ∧
      (∀ i, 2 ≤ i → i < 2 → ∀ k, k < 4 → scenarioState.C.coeff i k = 0) ∧
      2 + 2 = 4 :=
  C_is_canonical_matrix scenarioState scenarioState_wellFormed

/-! ## The inverse row permutation -/

theorem Indices.coeff_set (v : Indices) (a x k : Nat) (ha : a < v.length) :
    Indices.coeff (v.set a x) k = if k = a then x else v.coeff k := by
  unfold Indices.coeff
  by_cases hk : k = a
  · subst hk
    simp [List.getElem?_set, ha]
  · have : ¬ a = k := fun h => hk h.symm
    simp [List.getElem?_set, this, hk]

theorem assignInverse_length (P : Indices) (l : List Nat) :
    ∀ Ptr : Indices, (assignInverse P l Ptr).length = Ptr.length := by
  induction l with
  | nil => intro Ptr; rfl
  | cons a l ih =>
    intro Ptr
    simp only [assignInverse]
    rw [ih]
    simp

theorem assignInverse_coeff_of_not_mem (P : Indices) (l : List Nat) :
    ∀ (Ptr : Indices) (x : Nat), (∀ i ∈ l, P.coeff i < Ptr.length) →
      (∀ i ∈ l, P.coeff i ≠ x) → (assignInverse P l Ptr).coeff x = Ptr.coeff x := by
  induction l with
  | nil => intro Ptr x _ _; rfl
  | cons a l ih =>
    intro Ptr x hlt hne
    simp only [assignInverse]
    rw [ih (Ptr.set (P.coeff a) a) x
      (fun i hi => by simpa using hlt i (List.mem_cons_of_mem _ hi))
      (fun i hi => hne i (List.mem_cons_of_mem _ hi))]
    have h1 : ¬ x = P.coeff a := fun h => hne a (List.mem_cons_self _ _) h.symm
    rw [Indices.coeff_set _ _ _ _ (hlt a (List.mem_cons_self _ _))]
    simp only [h1, if_false]

theorem assignInverse_coeff (P : Indices) (l : List Nat) :
    ∀ (Ptr : Indices), l.Nodup → (∀ i ∈ l, P.coeff i < Ptr.length) →
      (∀ i ∈ l, ∀ j ∈ l, P.coeff i = P.coeff j → i = j) →
      ∀ i ∈ l, (assignInverse P l Ptr).coeff (P.coeff i) = i := by
  induction l with
  | nil => intro Ptr _ _ _ i hi; cases hi
  | cons a l ih =>
    intro Ptr hnd hlt hinj i hi
    have hal : a ∉ l := (List.nodup_cons.mp hnd).1
    have hl : l.Nodup := (List.nodup_cons.mp hnd).2
    simp only [assignInverse]
    rcases List.mem_cons.mp hi with h | h
    · subst h
      rw [assignInverse_coeff_of_not_mem P l _ _
        (fun j hj => by simpa using hlt j (List.mem_cons_of_mem _ hj))
        (fun j hj hje => hal (by
          have := hinj j (List.mem_cons_of_mem _ hj) i (List.mem_cons_self _ _) hje
          rw [← this]; exact hj))]
      rw [Indices.coeff_set _ _ _ _ (hlt i (List.mem_cons_self _ _))]
      simp
    · exact ih _ hl (fun j hj => by simpa using hlt j (List.mem_cons_of_mem _ hj))
        (fun j hj j2 hj2 he => hinj j (List.mem_cons_of_mem _ hj) j2
          (List.mem_cons_of_mem _ hj2) he) i h

theorem computeBody_Ptr_inverse (fullPivLu : Matrix → FullPivLU) (st : Impl) (A : Matrix)
    (hlu : IsFullPivLU A (fullPivLu A)) (i : Nat) (hi : i < A.rows) :
    (Impl.computeBody fullPivLu st A).Ptr.coeff ((fullPivLu A).permutationP.coeff i) = i := by
  show (assignInverse (fullPivLu A).permutationP (List.range A.rows)
    (List.replicate A.rows 0)).coeff _ = i
  apply assignInverse_coeff _ _ _ (List.nodup_range _)
  · intro j hj
    have := Indices.perm_range_coeff_lt _ _ j hlu.P_perm (List.mem_range.mp hj)
    simpa using this
  · intro j hj j2 hj2 he
    exact Indices.perm_range_coeff_inj _ _ j j2 hlu.P_perm (List.mem_range.mp hj)
      (List.mem_range.mp hj2) he
  · exact List.mem_range.mpr hi

theorem computeBody_Ptr_length (fullPivLu : Matrix → FullPivLU) (st : Impl) (A : Matrix) :
    (Impl.computeBody fullPivLu st A).Ptr.length = A.rows := by
  show (assignInverse (fullPivLu A).permutationP (List.range A.rows)
    (List.replicate A.rows 0)).length = A.rows
  rw [assignInverse_length]
  simp

theorem computeBody_Ptr_perm (fullPivLu : Matrix → FullPivLU) (st : Impl) (A : Matrix)
    (hlu : IsFullPivLU A (fullPivLu A)) :
    (Impl.computeBody fullPivLu st A).Ptr.Perm (List.range A.rows) := by
  have hlen := computeBody_Ptr_length fullPivLu st A
  have hinv := computeBody_Ptr_inverse fullPivLu st A hlu
  have h1 := Indices.map_coeff_range (Impl.computeBody fullPivLu st A).Ptr
  rw [hlen] at h1
  rw [← h1]
  apply perm_map_range_of_injOn
  · intro x hx y hy hxy
    obtain ⟨i, hi, hPi⟩ := Indices.perm_range_exists _ _ x hlu.P_perm hx
    obtain ⟨j, hj, hPj⟩ := Indices.perm_range_exists _ _ y hlu.P_perm hy
    rw [← hPi, ← hPj, hinv i hi, hinv j hj] at hxy
    rw [← hPi, ← hPj, hxy]
  · intro x hx
    obtain ⟨i, hi, hPi⟩ := Indices.perm_range_exists _ _ x hlu.P_perm hx
    rw [← hPi, hinv i hi]
    exact hi

/-- Claim C18: after `compute(A)` the array `L` returned by
`indicesLinearlyIndependentEquations()` is the inverse of the row permutation `P`: it is a
permutation of `0 .. m-1` and `L[P[i]] = i` for every `i < m`. -/
theorem indicesLinearlyIndependentEquations_inverse (fullPivLu : Matrix → FullPivLU)
    (st : Impl) (A : Matrix) (hmn : A.rows ≤ A.cols) (hlu : IsFullPivLU A (fullPivLu A)) :
    ∃ st1, Impl.compute fullPivLu st A = some st1 ∧
      st1.indicesLinearlyIndependentEquations.Perm (List.range A.rows) ∧
      ∀ i, i < A.rows → st1.indicesLinearlyIndependentEquations.coeff (st1.P.coeff i) = i :=
  ⟨_, compute_eq_some fullPivLu st A hmn, computeBody_Ptr_perm fullPivLu st A hlu,
    fun i hi => computeBody_Ptr_inverse fullPivLu st A hlu i hi⟩

/-- Witness of `indicesLinearlyIndependentEquations_inverse`: the scenario, where `P = [1, 0]`. -/
theorem indicesLinearlyIndependentEquations_inverse_witness :
    ∃ st1, Impl.compute (fun _ => scenarioLU) Impl.init scenarioA = some st1 ∧
      st1.indicesLinearlyIndependentEquations.Perm (List.range 2) ∧
      ∀ i, i < 2 → st1.indicesLinearlyIndependentEquations.coeff (st1.P.coeff i) = i :=
  indicesLinearlyIndependentEquations_inverse (fun _ => scenarioLU) Impl.init scenarioA
    (by decide) scenario_isFullPivLU

/-! ## The threshold -/

theorem improveStep_threshold (lu0 : FullPivLU) (t : ℚ) (w : Vector) (st : Impl) (i : Nat)
    (h : st.threshold = t ∧ st.lu = lu0) (hi : i < lu0.rank) :
    ∃ st1, st.improveStep w i = some st1 ∧ (st1.threshold = t ∧ st1.lu = lu0) := by
  obtain ⟨ht, hlu⟩ := h
  refine ⟨_, improveStep_eq st w i (by rw [hlu]; exact hi), ?_⟩
  split_ifs
  · exact ⟨ht, hlu⟩
  · exact ⟨ht, hlu⟩

theorem applyUpdate_threshold (srt : StdSort) (st st1 : Impl) (u : Update)
    (h : st.applyUpdate srt u = some st1) : st1.threshold = st.threshold := by
  cases u with
  | swap ib inn =>
    obtain ⟨_, _, _, h4⟩ := updateWithSwapBasicVariable_some st st1 ib inn h
    rw [h4]
    rfl
  | priority w =>
    have hw : w.rows = st.lu.cols := by
      by_contra hne
      simp [Impl.applyUpdate, Impl.updateWithPriorityWeights, hne] at h
    obtain ⟨st2, ⟨h1, _⟩, h3⟩ := updateWithPriorityWeights_induction srt st w
      (fun s => s.threshold = st.threshold ∧ s.lu = st.lu) hw ⟨rfl, rfl⟩
      (fun s i hs hi => improveStep_threshold st.lu st.threshold w s i hs hi)
    have h4 : st.updateWithPriorityWeights srt w = some st1 := h
    rw [h3] at h4
    rw [← Option.some.inj h4]
    exact h1
  | rationalize maxdenominator =>
    have h4 : some (st.rationalize maxdenominator) = some st1 := h
    rw [← Option.some.inj h4]
    rfl

theorem applyUpdates_threshold (srt : StdSort) (us : List Update) :
    ∀ (st st1 : Impl), Impl.applyUpdates srt st us = some st1 →
      st1.threshold = st.threshold := by
  induction us with
  | nil =>
    intro st st1 h
    rw [← Option.some.inj h]
  | cons u us ih =>
    intro st st1 h
    simp only [Impl.applyUpdates] at h
    cases hu : st.applyUpdate srt u with
    | none => rw [hu] at h; cases h
    | some st2 =>
      rw [hu] at h
      rw [ih st2 st1 h, applyUpdate_threshold srt st st2 u hu]

/-- Claim C20: after `compute(A)` on an `m x n` matrix the threshold is
`|maxPivot| * tol * max(m, n)`, with `maxPivot` and `tol` those of the decomposition of `A`,
and no later sequence of swap, priority and rationalize updates changes it. -/
theorem threshold_set_by_compute (fullPivLu : Matrix → FullPivLU) (st0 : Impl) (A : Matrix)
    (srt : StdSort) (us : List Update) (st1 st : Impl)
    (hc : Impl.compute fullPivLu st0 A = some st1)
    (hrun : Impl.applyUpdates srt st1 us = some st) :
    st1.threshold
        = |(fullPivLu A).maxPivot| * (fullPivLu A).threshold * ((max A.rows A.cols : Nat) : ℚ) ∧
      st.threshold = st1.threshold := by
  have hmn : A.rows ≤ A.cols := by
    by_contra hne
    simp [Impl.compute, hne] at hc
  rw [compute_eq_some fullPivLu st0 A hmn] at hc
  have hc1 := Option.some.inj hc
  subst hc1
  exact ⟨rfl, applyUpdates_threshold srt us _ st hrun⟩

theorem scenario_updates_isSome :
    (Impl.applyUpdates insertionStdSort scenarioState
      [.swap 0 1, .priority scenarioWeights, .rationalize 10]).isSome = true := by
  decide!

/-- Witness of `threshold_set_by_compute`: in the scenario the threshold is
`|2| * (2 / 2^52) * 4` and stays so along a swap, a priority update and `rationalize(10)`. -/
theorem threshold_set_by_compute_witness :
    ∃ st, Impl.applyUpdates insertionStdSort scenarioState
        [.swap 0 1, .priority scenarioWeights, .rationalize 10] = some st ∧
      scenarioState.threshold = |(2 : ℚ)| * (2 / 2 ^ 52) * ((max 2 4 : Nat) : ℚ) ∧
      st.threshold = scenarioState.threshold := by
  obtain ⟨st, hst⟩ := Option.isSome_iff_exists.mp scenario_updates_isSome
  exact ⟨st, hst, threshold_set_by_compute (fun _ => scenarioLU) Impl.init scenarioA
    insertionStdSort _ scenarioState st rfl hst⟩

/-! ## The equations reported as linearly independent -/

theorem rankDeficient_isFullPivLU : IsFullPivLU rankDeficientA rankDeficientLU where
  rows_eq := rfl
  cols_eq := rfl
  P_perm := by decide
  Q_perm := by decide
  rank_le := by decide
  pivot_ne_zero := by decide!
  rows_zero := by decide!
  factorization := by decide!
  threshold_nonneg := by decide!

/-- Claim C19 fails on the code: for the rank-1 matrix `[[1, 1], [2, 2]]`, canonicalized with
a valid decomposition, `indicesLinearlyIndependentEquations()` returns the two indices `1, 0`
although the rank is 1, and the rows of the matrix at these two indices are linearly dependent
(row 1 is twice row 0). -/
theorem indicesLinearlyIndependentEquations_rank_deficient :
    Impl.compute (fun _ => rankDeficientLU) Impl.init rankDeficientA = some rankDeficientState ∧
      rankDeficientState.numBasicVariables = 1 ∧
      rankDeficientState.indicesLinearlyIndependentEquations = [1, 0] ∧
      ∀ k, k < 2 →
        rankDeficientA.coeff (rankDeficientState.indicesLinearlyIndependentEquations.coeff 0) k
          = 2 * rankDeficientA.coeff
              (rankDeficientState.indicesLinearlyIndependentEquations.coeff 1) k :=
  ⟨rfl, by decide!, by decide!, by decide!⟩

/-! ## Rational approximation -/

theorem fareyLoop_more_fuel (x : ℚ) (n : Nat) :
    ∀ (f k : Nat) (a b c d : Int), 1 ≤ b → 1 ≤ d → (2 * n : Int) + 1 ≤ f + b + d →
      fareyLoop x n (f + k) a b c d = fareyLoop x n f a b c d := by
  intro f
  induction f with
  | zero =>
    intro k a b c d hb hd h
    have hcond : ¬ (b ≤ n ∧ d ≤ n) := by
      intro ⟨h1, h2⟩
      simp only [Nat.cast_zero, zero_add] at h
      omega
    cases k with
    | zero => rfl
    | succ k =>
      simp only [Nat.zero_add, fareyLoop, hcond, if_false]
  | succ f ih =>
    intro k a b c d hb hd h
    have hf : f + 1 + k = (f + k) + 1 := by omega
    rw [hf]
    simp only [fareyLoop]
    have h1 := ih k (a + c) (b + d) c d (by omega) hd (by push_cast at h ⊢; omega)
    have h2 := ih k a b (a + c) (b + d) hb (by omega) (by push_cast at h ⊢; omega)
    rw [h1, h2]

theorem farey_more_fuel (x : ℚ) (n k : Nat) :
    fareyLoop x n (2 * n + 2 + k) 0 1 1 1 = farey x n := by
  unfold farey
  exact fareyLoop_more_fuel x n (2 * n + 2) k 0 1 1 1 (le_refl _) (le_refl _)
    (by push_cast; omega)

/-- Claim C14 fails on the code: `rationalize(0.3125, 2)` returns `(0, 1)`, the value 0 at
distance `5/16` from `x = 5/16`, although `1/2`, of denominator 2, is at distance `3/16`. -/
theorem rationalize_not_nearest :
    rationalize (5 / 16) 2 = (0, 1) ∧
      |(5 / 16 : ℚ) - ((rationalize (5 / 16) 2).1 : ℚ) / ((rationalize (5 / 16) 2).2 : ℚ)|
        > |(5 / 16 : ℚ) - 1 / 2| := by
  decide!

/-- Claim C15 fails on the code: `2001 = 2001/1` has denominator 1, yet
`rationalize(2001.0, 1000)` returns `(1, 0)`; and `7/2` has denominator 2, yet
`rationalize(3.5, 3)` returns `(3, 1)`. -/
theorem rationalize_misses_exact_value :
    rationalize 2001 1000 = (1, 0) ∧ rationalize (7 / 2) 3 = (3, 1) := by
  decide!

/-- Claim C16 fails on the code: `rationalize(5.0, 2)` returns the pair `(1, 0)`, whose
denominator is zero. -/
theorem rationalize_zero_denominator :
    rationalize 5 2 = (1, 0) ∧ ¬ (1 ≤ (rationalize 5 2).2) := by
  decide!

/-! ## `compute` on an object that has been used -/

theorem assignInverse_initial (P : Indices) (m : Nat) (hP : P.Perm (List.range m))
    (Ptr1 Ptr2 : Indices) (h1 : Ptr1.length = m) (h2 : Ptr2.length = m) :
    assignInverse P (indices m) Ptr1 = assignInverse P (indices m) Ptr2 := by
  have hl1 : (assignInverse P (indices m) Ptr1).length = m := by
    rw [assignInverse_length]; exact h1
  have hl2 : (assignInverse P (indices m) Ptr2).length = m := by
    rw [assignInverse_length]; exact h2
  have hc : ∀ (Ptr : Indices), Ptr.length = m → ∀ i, i < m →
      (assignInverse P (indices m) Ptr).coeff (P.coeff i) = i := by
    intro Ptr hPtr i hi
    apply assignInverse_coeff _ _ _ (List.nodup_range _)
    · intro j hj
      rw [hPtr]
      exact Indices.perm_range_coeff_lt P m j hP (by simpa [indices] using hj)
    · intro a ha b hb hab
      exact Indices.perm_range_coeff_inj P m a b hP (by simpa [indices] using ha)
        (by simpa [indices] using hb) hab
    · simpa [indices] using hi
  rw [← Indices.map_coeff_range (assignInverse P (indices m) Ptr1),
    ← Indices.map_coeff_range (assignInverse P (indices m) Ptr2), hl1, hl2]
  apply List.map_congr_left
  intro x hx
  obtain ⟨j, hj, hjx⟩ := Indices.perm_range_exists P m x hP (by simpa using hx)
  rw [← hjx, hc Ptr1 h1 j hj, hc Ptr2 h2 j hj]

/-- Claim C21: whatever state the object is in, `compute(A)` fails or succeeds as it does on a
freshly constructed object, and leaves every member but the scratch vector `M` (which no
accessor shows and every swap overwrites before reading it) as `Canonicalizer(A)` does: the
decomposition with its rank, `P`, its inverse, `Q`, `R`, `S`, the sort permutations `Kb` and
`Kn`, and the threshold.  The vector `Ptr`, which `resize` leaves with its former entries when
the size is unchanged, is overwritten in full: any initial content of length `m` gives the
same result. -/
theorem compute_resets (fullPivLu : Matrix → FullPivLU) (st : Impl) (A : Matrix)
    (hlu : IsFullPivLU A (fullPivLu A)) :
    Impl.compute fullPivLu st A
        = (Impl.compute fullPivLu Impl.init A).map (fun s => { s with M := st.M }) ∧
      (∀ st1 st0, Impl.compute fullPivLu st A = some st1 →
        Impl.compute fullPivLu Impl.init A = some st0 →
        st1.lu.rank = st0.lu.rank ∧ st1.P = st0.P ∧ st1.Q = st0.Q ∧ st1.R = st0.R ∧
          st1.S = st0.S ∧ st1.threshold = st0.threshold ∧ st1.Kb = st0.Kb ∧ st1.Kn = st0.Kn ∧
          st1.C = st0.C ∧ st1.indicesLinearlyIndependentEquations
            = st0.indicesLinearlyIndependentEquations) ∧
      ∀ Ptr0 : Indices, Ptr0.length = A.rows →
        ∀ st1, Impl.compute fullPivLu st A = some st1 →
          assignInverse (fullPivLu A).permutationP (indices A.rows) Ptr0 = st1.Ptr := by
  have hmain : Impl.compute fullPivLu st A
      = (Impl.compute fullPivLu Impl.init A).map (fun s => { s with M := st.M }) := by
    unfold Impl.compute
    by_cases h : A.cols ≥ A.rows
    · simp only [h, not_true_eq_false, if_false, Option.map_some']
      rfl
    · simp only [h, not_false_eq_true, if_true, Option.map_none']
  refine ⟨hmain, ?_, ?_⟩
  · intro st1 st0 h1 h0
    rw [hmain, h0] at h1
    simp only [Option.map_some', Option.some.injEq] at h1
    subst h1
    exact ⟨rfl, rfl, rfl, rfl, rfl, rfl, rfl, rfl, rfl, rfl⟩
  · intro Ptr0 hlen st1 h1
    unfold Impl.compute at h1
    by_cases h : A.cols ≥ A.rows
    · simp only [h, not_true_eq_false, if_false, Option.some.injEq] at h1
      subst h1
      show _ = assignInverse (fullPivLu A).permutationP (indices A.rows)
        (List.replicate A.rows 0)
      exact assignInverse_initial _ _ hlu.P_perm _ _ hlen (by simp)
    · simp only [h, not_false_eq_true, if_true] at h1
      exact absurd h1 (by simp)

/-- Witness of `compute_resets`: `compute(smallEntriesA)` on the object left by the priority
update of the scenario state. -/
theorem compute_resets_witness :
    Impl.compute (fun _ => smallEntriesLU)
          ((scenarioState.updateWithPriorityWeights insertionStdSort scenarioWeights).getD
            Impl.init) smallEntriesA
        = (Impl.compute (fun _ => smallEntriesLU) Impl.init smallEntriesA).map
            (fun s => { s with
              M := ((scenarioState.updateWithPriorityWeights insertionStdSort
                scenarioWeights).getD Impl.init).M }) ∧
      (∀ st1 st0, Impl.compute (fun _ => smallEntriesLU)
          ((scenarioState.updateWithPriorityWeights insertionStdSort scenarioWeights).getD
            Impl.init) smallEntriesA = some st1 →
        Impl.compute (fun _ => smallEntriesLU) Impl.init smallEntriesA = some st0 →
        st1.lu.rank = st0.lu.rank ∧ st1.P = st0.P ∧ st1.Q = st0.Q ∧ st1.R = st0.R ∧
          st1.S = st0.S ∧ st1.threshold = st0.threshold ∧ st1.Kb = st0.Kb ∧ st1.Kn = st0.Kn ∧
          st1.C = st0.C ∧ st1.indicesLinearlyIndependentEquations
            = st0.indicesLinearlyIndependentEquations) ∧
      ∀ Ptr0 : Indices, Ptr0.length = smallEntriesA.rows →
        ∀ st1, Impl.compute (fun _ => smallEntriesLU)
          ((scenarioState.updateWithPriorityWeights insertionStdSort scenarioWeights).getD
            Impl.init) smallEntriesA = some st1 →
          assignInverse smallEntriesLU.permutationP (indices smallEntriesA.rows) Ptr0
            = st1.Ptr :=
  compute_resets (fun _ => smallEntriesLU)
    ((scenarioState.updateWithPriorityWeights insertionStdSort scenarioWeights).getD Impl.init)
    smallEntriesA smallEntries_isFullPivLU

/-! ## The candidate is the first maximizer -/

theorem candidate_fold_first (st : Impl) (w : Vector) (i : Nat) :
    ∀ t k, k < ((List.range t).foldl (st.candidateStep w i) (0, ⊥)).1 →
      st.threshold < |st.S.coeff i k| →
      ((w.coeff ((st.Q.tail (st.lu.cols - st.lu.rank)).coeff k) * |st.S.coeff i k| : ℚ)
          : WithBot ℚ)
        < ((List.range t).foldl (st.candidateStep w i) (0, ⊥)).2 := by
  intro t
  induction t with
  | zero =>
    intro k hk
    exact absurd hk (Nat.not_lt_zero k)
  | succ t ih =>
    have hinv := candidate_fold_inv st w i t
    rw [List.range_succ, List.foldl_append]
    simp only [List.foldl_cons, List.foldl_nil]
    generalize (List.range t).foldl (st.candidateStep w i) (0, ⊥) = acc at ih hinv ⊢
    obtain ⟨hinv1, hinv2⟩ := hinv
    unfold Impl.candidateStep
    by_cases hel : |st.S.coeff i t| ≤ st.threshold
    · simp only [hel, if_true]
      exact ih
    · simp only [hel, if_false]
      by_cases hgt : ((w.coeff ((st.Q.tail (st.lu.cols - st.lu.rank)).coeff t)
          * |st.S.coeff i t| : ℚ) : WithBot ℚ) > acc.2
      · simp only [hgt, if_true]
        intro k hk hk2
        exact lt_of_le_of_lt (hinv2 k hk hk2) hgt
      · simp only [hgt, if_false]
        exact ih

/-- Claim C22: when row `i` of `S` has an entry above the threshold, the column `j` returned
by `find_nonbasic_candidate` is such an entry, the value returned is its proportional weight
`w[inonbasic[j]] * |S(i, j)|`, no column with an entry above the threshold has a larger
proportional weight, and every such column before `j` has a strictly smaller one: `j` is the
first column that attains the maximum. -/
theorem find_nonbasic_candidate_first_maximizer (st : Impl) (w : Vector) (i : Nat)
    (hex : ∃ k, k < st.lu.cols - st.lu.rank ∧ st.threshold < |st.S.coeff i k|) :
    (st.find_nonbasic_candidate w i).1 < st.lu.cols - st.lu.rank ∧
      st.threshold < |st.S.coeff i (st.find_nonbasic_candidate w i).1| ∧
      (st.find_nonbasic_candidate w i).2
        = ((w.coeff (st.indicesNonBasicVariables.coeff (st.find_nonbasic_candidate w i).1)
            * |st.S.coeff i (st.find_nonbasic_candidate w i).1| : ℚ) : WithBot ℚ) ∧
      (∀ k, k < st.lu.cols - st.lu.rank → st.threshold < |st.S.coeff i k| →
        ((w.coeff (st.indicesNonBasicVariables.coeff k) * |st.S.coeff i k| : ℚ) : WithBot ℚ)
          ≤ (st.find_nonbasic_candidate w i).2) ∧
      ∀ k, k < (st.find_nonbasic_candidate w i).1 → st.threshold < |st.S.coeff i k| →
        ((w.coeff (st.indicesNonBasicVariables.coeff k) * |st.S.coeff i k| : ℚ) : WithBot ℚ)
          < (st.find_nonbasic_candidate w i).2 := by
  obtain ⟨h1, h2, h3⟩ :=
    find_nonbasic_candidate_spec st w i (find_nonbasic_candidate_ne_bot st w i hex)
  exact ⟨h1, h2, h3, fun k hk hel => find_nonbasic_candidate_max st w i k hk hel,
    candidate_fold_first st w i (st.lu.cols - st.lu.rank)⟩

/-- Witness of `find_nonbasic_candidate_first_maximizer`: row 0 of the scenario state with
the weights `2, 3, 3, 2`, for which both columns have the proportional weight `3/2`. -/
theorem find_nonbasic_candidate_first_maximizer_witness :
    (scenarioState.find_nonbasic_candidate tiedWeights 0).1
        < scenarioState.lu.cols - scenarioState.lu.rank ∧
      scenarioState.threshold
        < |scenarioState.S.coeff 0 (scenarioState.find_nonbasic_candidate tiedWeights 0).1| ∧
      (scenarioState.find_nonbasic_candidate tiedWeights 0).2
        = ((tiedWeights.coeff (scenarioState.indicesNonBasicVariables.coeff
              (scenarioState.find_nonbasic_candidate tiedWeights 0).1)
            * |scenarioState.S.coeff 0 (scenarioState.find_nonbasic_candidate tiedWeights 0).1|
              : ℚ) : WithBot ℚ) ∧
      (∀ k, k < scenarioState.lu.cols - scenarioState.lu.rank →
        scenarioState.threshold < |scenarioState.S.coeff 0 k| →
        ((tiedWeights.coeff (scenarioState.indicesNonBasicVariables.coeff k)
            * |scenarioState.S.coeff 0 k| : ℚ) : WithBot ℚ)
          ≤ (scenarioState.find_nonbasic_candidate tiedWeights 0).2) ∧
      ∀ k, k < (scenarioState.find_nonbasic_candidate tiedWeights 0).1 →
        scenarioState.threshold < |scenarioState.S.coeff 0 k| →
        ((tiedWeights.coeff (scenarioState.indicesNonBasicVariables.coeff k)
            * |scenarioState.S.coeff 0 k| : ℚ) : WithBot ℚ)
          < (scenarioState.find_nonbasic_candidate tiedWeights 0).2 :=
  find_nonbasic_candidate_first_maximizer scenarioState tiedWeights 0 ⟨0, by decide!, by decide!⟩

theorem tiedWeights_candidate :
    scenarioState.find_nonbasic_candidate tiedWeights 0 = (0, ((3 / 2 : ℚ) : WithBot ℚ)) ∧
      tiedWeights.coeff (scenarioState.indicesNonBasicVariables.coeff 1)
        * |scenarioState.S.coeff 0 1| = 3 / 2 := by
  constructor
  · decide!
  · decide!

/-! ## The read accessors -/

/-- Claim C23: a sequence of calls of the read accessors `S()`, `R()`, `Q()` and `C()` leaves
the state of the object as it was, and each call in it returns what the same accessor
returns on the state before the sequence. -/
theorem callAccessors_frame (st : Impl) (as : List Accessor) :
    (st.callAccessors as).2 = st ∧
      (st.callAccessors as).1 = as.map (fun a => (st.callAccessor a).1) := by
  induction as with
  | nil => exact ⟨rfl, rfl⟩
  | cons a as ih =>
    have ha : (st.callAccessor a).2 = st := by cases a <;> rfl
    simp only [Impl.callAccessors, ha, List.map_cons]
    exact ⟨ih.1, by rw [ih.2]⟩

/-! ## The saddle-point matrix -/

theorem unitRow_foldl (fixed : List Nat) :
    ∀ (M : Nat → Nat → ℚ) (i j : Nat),
      fixed.foldl (fun M i => unitRow i M) M i j
        = if i ∈ fixed then (if j = i then 1 else 0) else M i j := by
  induction fixed with
  | nil => intro M i j; simp
  | cons a l ih =>
    intro M i j
    rw [List.foldl_cons, ih]
    by_cases hl : i ∈ l
    · simp [hl]
    · by_cases ha : i = a
      · subst ha
        simp [hl, unitRow]
      · simp [hl, ha, unitRow]

theorem testSaddlePointMatrix_matrix :
    (∀ i, i < 5 → ∀ j, j < 5 →
      testSaddlePointMatrix.matrix.coeff i j = testExpectedM.coeff i j) ∧
    (∀ i, i < 5 → ∀ j, j < 5 →
      ({ testSaddlePointMatrix with fixed := [1] } : SaddlePointMatrix).matrix.coeff i j
        = testExpectedMFixed.coeff i j) := by
  constructor
  · decide!
  · decide!

/-- Claim C26: `matrix()` is a square matrix of order `n + m`; row `i` of it is the unit row
`e_i` when `i` is a fixed variable and row `i` of `[diag(H) tr(A); A 0]` otherwise, so that
without fixed variables it is `[diag(H) tr(A); A 0]`. -/
theorem SaddlePointMatrix_matrix_eq (mat : SaddlePointMatrix) :
    mat.matrix.rows = mat.A.cols + mat.A.rows ∧
      mat.matrix.cols = mat.A.cols + mat.A.rows ∧
      (∀ i j, mat.matrix.coeff i j
        = if i ∈ mat.fixed then (if j = i then 1 else 0)
          else if i < mat.A.cols then
            (if j < mat.A.cols then (if i = j then mat.H.coeff i else 0)
              else mat.A.coeff (j - mat.A.cols) i)
          else (if j < mat.A.cols then mat.A.coeff (i - mat.A.cols) j else 0)) ∧
      (mat.fixed = [] → ∀ i j, mat.matrix.coeff i j
        = if i < mat.A.cols then
            (if j < mat.A.cols then (if i = j then mat.H.coeff i else 0)
              else mat.A.coeff (j - mat.A.cols) i)
          else (if j < mat.A.cols then mat.A.coeff (i - mat.A.cols) j else 0)) := by
  refine ⟨rfl, rfl, ?_, ?_⟩
  · intro i j
    show mat.fixed.foldl (fun M i => unitRow i M) _ i j = _
    rw [unitRow_foldl]
  · intro h i j
    show mat.fixed.foldl (fun M i => unitRow i M) _ i j = _
    rw [unitRow_foldl, h]
    simp

/-! ## Step lengths: the fraction to the boundary -/

theorem fractionToTheBoundary_fold_inv (p dp : Vector) (tau : ℚ) :
    ∀ t,
      ((List.range t).foldl (fractionToTheBoundaryLoop p dp tau) (1, p.rows)).1 ≤ 1 ∧
      (∀ k, k < t → dp.coeff k < 0 →
        ((List.range t).foldl (fractionToTheBoundaryLoop p dp tau) (1, p.rows)).1
          ≤ -tau * p.coeff k / dp.coeff k) ∧
      ((((List.range t).foldl (fractionToTheBoundaryLoop p dp tau) (1, p.rows)).1 = 1 ∧
          ((List.range t).foldl (fractionToTheBoundaryLoop p dp tau) (1, p.rows)).2 = p.rows) ∨
        (((List.range t).foldl (fractionToTheBoundaryLoop p dp tau) (1, p.rows)).1 < 1 ∧
          ((List.range t).foldl (fractionToTheBoundaryLoop p dp tau) (1, p.rows)).2 < t ∧
          dp.coeff ((List.range t).foldl (fractionToTheBoundaryLoop p dp tau) (1, p.rows)).2 < 0 ∧
          -tau * p.coeff ((List.range t).foldl (fractionToTheBoundaryLoop p dp tau) (1, p.rows)).2
              / dp.coeff ((List.range t).foldl (fractionToTheBoundaryLoop p dp tau) (1, p.rows)).2
            = ((List.range t).foldl (fractionToTheBoundaryLoop p dp tau) (1, p.rows)).1 ∧
          ∀ k, k < ((List.range t).foldl (fractionToTheBoundaryLoop p dp tau) (1, p.rows)).2 →
            dp.coeff k < 0 →
            ((List.range t).foldl (fractionToTheBoundaryLoop p dp tau) (1, p.rows)).1
              < -tau * p.coeff k / dp.coeff k)) := by
  intro t
  induction t with
  | zero =>
    refine ⟨le_refl _, ?_, Or.inl ⟨rfl, rfl⟩⟩
    intro k hk
    exact absurd hk (Nat.not_lt_zero k)
  | succ t ih =>
    rw [List.range_succ, List.foldl_append]
    simp only [List.foldl_cons, List.foldl_nil]
    generalize (List.range t).foldl (fractionToTheBoundaryLoop p dp tau) (1, p.rows) = acc at ih ⊢
    obtain ⟨ih1, ih2, ih3⟩ := ih
    unfold fractionToTheBoundaryLoop
    by_cases hneg : dp.coeff t < 0
    · simp only [hneg, if_true]
      by_cases hlt : -tau * p.coeff t / dp.coeff t < acc.1
      · simp only [hlt, if_true]
        refine ⟨le_trans (le_of_lt hlt) ih1, ?_, Or.inr ⟨lt_of_lt_of_le hlt ih1, by omega, hneg, trivial, ?_⟩⟩
        · intro k hk hk2
          by_cases hkt : k = t
          · subst hkt
            exact le_refl _
          · exact le_trans (le_of_lt hlt) (ih2 k (by omega) hk2)
        · intro k hk hk2
          exact lt_of_lt_of_le hlt (ih2 k hk hk2)
      · simp only [hlt, if_false]
        refine ⟨ih1, ?_, ?_⟩
        · intro k hk hk2
          by_cases hkt : k = t
          · subst hkt
            exact not_lt.mp hlt
          · exact ih2 k (by omega) hk2
        · rcases ih3 with h | ⟨h1, h2, h3⟩
          · exact Or.inl h
          · exact Or.inr ⟨h1, by omega, h3⟩
    · simp only [hneg, if_false]
      refine ⟨ih1, ?_, ?_⟩
      · intro k hk hk2
        by_cases hkt : k = t
        · subst hkt
          exact absurd hk2 hneg
        · exact ih2 k (by omega) hk2
      · rcases ih3 with h | ⟨h1, h2, h3⟩
        · exact Or.inl h
        · exact Or.inr ⟨h1, by omega, h3⟩

/-- Claim C27: for `p` with strictly positive entries and `tau > 0` (the bound `tau ≤ 1` of
the claim is not needed), the value `fractionToTheBoundary(p, dp, tau)` lies in `(0, 1]`,
satisfies `p + alpha * dp ≥ (1 - tau) * p` componentwise, and no step in `(0, 1]` that
satisfies it is larger. -/
theorem fractionToTheBoundary_largest (p dp : Vector) (tau : ℚ)
    (hp : ∀ i, i < p.rows → 0 < p.coeff i) (htau : 0 < tau) :
    (0 < fractionToTheBoundary p dp tau ∧ fractionToTheBoundary p dp tau ≤ 1 ∧
      ∀ i, i < p.rows →
        p.coeff i + fractionToTheBoundary p dp tau * dp.coeff i ≥ (1 - tau) * p.coeff i) ∧
    ∀ β : ℚ, 0 < β → β ≤ 1 →
      (∀ i, i < p.rows → p.coeff i + β * dp.coeff i ≥ (1 - tau) * p.coeff i) →
      β ≤ fractionToTheBoundary p dp tau := by
  obtain ⟨h1, h2, h3⟩ := fractionToTheBoundary_fold_inv p dp tau p.rows
  have hpos : 0 < fractionToTheBoundary p dp tau := by
    unfold fractionToTheBoundary fractionToTheBoundaryIndex
    rcases h3 with ⟨h, _⟩ | ⟨_, hlt, hneg, heq, _⟩
    · rw [h]; exact one_pos
    · rw [← heq]
      have := hp _ hlt
      exact div_pos_of_neg_of_neg (by nlinarith) hneg
  refine ⟨⟨hpos, h1, ?_⟩, ?_⟩
  · intro i hi
    have hpi := hp i hi
    by_cases hneg : dp.coeff i < 0
    · have hle : fractionToTheBoundary p dp tau ≤ -tau * p.coeff i / dp.coeff i := h2 i hi hneg
      have := (le_div_iff_of_neg hneg).mp hle
      show (1 - tau) * p.coeff i ≤ p.coeff i + fractionToTheBoundary p dp tau * dp.coeff i
      linarith
    · have hnn : 0 ≤ dp.coeff i := not_lt.mp hneg
      have : 0 ≤ fractionToTheBoundary p dp tau * dp.coeff i := mul_nonneg (le_of_lt hpos) hnn
      show (1 - tau) * p.coeff i ≤ p.coeff i + fractionToTheBoundary p dp tau * dp.coeff i
      nlinarith
  · intro β _ hβ1 hfeas
    unfold fractionToTheBoundary fractionToTheBoundaryIndex
    rcases h3 with ⟨h, _⟩ | ⟨_, hlt, hneg, heq, _⟩
    · rw [h]; exact hβ1
    · rw [← heq]
      have := hfeas _ hlt
      rw [le_div_iff_of_neg hneg]
      linarith

/-- Witness of `fractionToTheBoundary_largest`: `p = [1, 2, 3]`, `dp = [-1, -4, 1]` and
`tau = 1/2`, where the value is `1/4`. -/
theorem fractionToTheBoundary_largest_witness :
    (0 < fractionToTheBoundary (Vector.ofList [1, 2, 3]) (Vector.ofList [-1, -4, 1]) (1 / 2) ∧
      fractionToTheBoundary (Vector.ofList [1, 2, 3]) (Vector.ofList [-1, -4, 1]) (1 / 2) ≤ 1 ∧
      ∀ i, i < (Vector.ofList [1, 2, 3]).rows →
        (Vector.ofList [1, 2, 3]).coeff i
            + fractionToTheBoundary (Vector.ofList [1, 2, 3]) (Vector.ofList [-1, -4, 1]) (1 / 2)
              * (Vector.ofList [-1, -4, 1]).coeff i
          ≥ (1 - 1 / 2) * (Vector.ofList [1, 2, 3]).coeff i) ∧
    ∀ β : ℚ, 0 < β → β ≤ 1 →
      (∀ i, i < (Vector.ofList [1, 2, 3]).rows →
        (Vector.ofList [1, 2, 3]).coeff i + β * (Vector.ofList [-1, -4, 1]).coeff i
          ≥ (1 - 1 / 2) * (Vector.ofList [1, 2, 3]).coeff i) →
      β ≤ fractionToTheBoundary (Vector.ofList [1, 2, 3]) (Vector.ofList [-1, -4, 1]) (1 / 2) :=
  fractionToTheBoundary_largest (Vector.ofList [1, 2, 3]) (Vector.ofList [-1, -4, 1]) (1 / 2)
    (by decide!) (by norm_num)

theorem fractionToTheBoundaryIndex_examples :
    fractionToTheBoundaryIndex (Vector.ofList [1, 2, 3]) (Vector.ofList [-1, -4, 1]) (1 / 2)
        = (1 / 4, 1) ∧
      fractionToTheBoundaryIndex (Vector.ofList [1, 2, 3]) (Vector.ofList [-1, -2, -3]) (1 / 2)
        = (1 / 2, 0) ∧
      fractionToTheBoundaryIndex (Vector.ofList [1, 2, 3]) (Vector.ofList [-1, -2, 1]) 1
        = (1, 3) ∧
      fractionToTheBoundaryIndex (Vector.ofList [1, 2, 3]) (Vector.ofList [1, 0, 1]) 1
        = (1, 3) := by
  refine ⟨by decide!, by decide!, by decide!, by decide!⟩

/-- Claim C28: when the value returned by `fractionToTheBoundary(p, dp, tau, ilimiting)` is
below 1, `ilimiting` is an index with `dp[i] < 0` whose trial step `-tau*p[i]/dp[i]` is the
value returned, and no earlier index with a negative `dp` has that trial step; otherwise the
value returned is 1 and `ilimiting` is `p.size()`.  The value 1 is returned exactly when
no trial step is below 1. -/
theorem fractionToTheBoundaryIndex_ilimiting (p dp : Vector) (tau : ℚ) :
    ((fractionToTheBoundaryIndex p dp tau).1 < 1 →
      (fractionToTheBoundaryIndex p dp tau).2 < p.rows ∧
      dp.coeff (fractionToTheBoundaryIndex p dp tau).2 < 0 ∧
      -tau * p.coeff (fractionToTheBoundaryIndex p dp tau).2
          / dp.coeff (fractionToTheBoundaryIndex p dp tau).2
        = (fractionToTheBoundaryIndex p dp tau).1 ∧
      ∀ k, k < (fractionToTheBoundaryIndex p dp tau).2 → dp.coeff k < 0 →
        -tau * p.coeff k / dp.coeff k ≠ (fractionToTheBoundaryIndex p dp tau).1) ∧
    (¬ (fractionToTheBoundaryIndex p dp tau).1 < 1 →
      (fractionToTheBoundaryIndex p dp tau).1 = 1 ∧
      (fractionToTheBoundaryIndex p dp tau).2 = p.rows) ∧
    ((fractionToTheBoundaryIndex p dp tau).1 = 1 ↔
      ∀ k, k < p.rows → dp.coeff k < 0 → 1 ≤ -tau * p.coeff k / dp.coeff k) := by
  obtain ⟨h1, h2, h3⟩ := fractionToTheBoundary_fold_inv p dp tau p.rows
  unfold fractionToTheBoundaryIndex
  refine ⟨?_, ?_, ?_⟩
  · intro hlt
    rcases h3 with ⟨h, _⟩ | ⟨_, hi, hneg, heq, hfirst⟩
    · rw [h] at hlt; exact absurd hlt (lt_irrefl _)
    · exact ⟨hi, hneg, heq, fun k hk hk2 => ne_of_gt (hfirst k hk hk2)⟩
  · intro hnlt
    rcases h3 with h | ⟨h, _⟩
    · exact h
    · exact absurd h hnlt
  · constructor
    · intro h k hk hk2
      have := h2 k hk hk2
      rw [h] at this
      exact this
    · intro h
      rcases h3 with ⟨h, _⟩ | ⟨hlt, hi, hneg, heq, _⟩
      · exact h
      · have := h _ hi hneg
        rw [heq] at this
        exact absurd hlt (not_lt.mpr this)

/-! ## Step lengths: the fraction to the boundary of `C p ≥ r` -/

theorem fractionToTheBoundaryConstraint_fold_inv (p dp : Vector) (C : Matrix) (r : Vector)
    (tau : ℚ) :
    ∀ t,
      (List.range t).foldl (fractionToTheBoundaryConstraintLoop p dp C r tau) 1 ≤ 1 ∧
      (∀ k, k < t → C.rowDot k dp < 0 →
        (List.range t).foldl (fractionToTheBoundaryConstraintLoop p dp C r tau) 1
          ≤ -tau * (C.rowDot k p - r.coeff k) / C.rowDot k dp) ∧
      ((List.range t).foldl (fractionToTheBoundaryConstraintLoop p dp C r tau) 1 = 1 ∨
        ∃ j, j < t ∧ C.rowDot j dp < 0 ∧
          -tau * (C.rowDot j p - r.coeff j) / C.rowDot j dp
            = (List.range t).foldl (fractionToTheBoundaryConstraintLoop p dp C r tau) 1) := by
  intro t
  induction t with
  | zero =>
    refine ⟨le_refl _, ?_, Or.inl rfl⟩
    intro k hk
    exact absurd hk (Nat.not_lt_zero k)
  | succ t ih =>
    rw [List.range_succ, List.foldl_append]
    simp only [List.foldl_cons, List.foldl_nil]
    generalize (List.range t).foldl (fractionToTheBoundaryConstraintLoop p dp C r tau) 1 = acc
      at ih ⊢
    obtain ⟨ih1, ih2, ih3⟩ := ih
    unfold fractionToTheBoundaryConstraintLoop
    by_cases hneg : C.rowDot t dp < 0
    · simp only [hneg, if_true]
      by_cases hlt : -tau * (C.rowDot t p - r.coeff t) / C.rowDot t dp < acc
      · simp only [hlt, if_true]
        refine ⟨le_trans (le_of_lt hlt) ih1, ?_, Or.inr ⟨t, by omega, hneg, rfl⟩⟩
        intro k hk hk2
        by_cases hkt : k = t
        · subst hkt
          exact le_refl _
        · exact le_trans (le_of_lt hlt) (ih2 k (by omega) hk2)
      · simp only [hlt, if_false]
        refine ⟨ih1, ?_, ?_⟩
        · intro k hk hk2
          by_cases hkt : k = t
          · subst hkt
            exact not_lt.mp hlt
          · exact ih2 k (by omega) hk2
        · rcases ih3 with h | ⟨j, hj, h3⟩
          · exact Or.inl h
          · exact Or.inr ⟨j, by omega, h3⟩
    · simp only [hneg, if_false]
      refine ⟨ih1, ?_, ?_⟩
      · intro k hk hk2
        by_cases hkt : k = t
        · subst hkt
          exact absurd hk2 hneg
        · exact ih2 k (by omega) hk2
      · rcases ih3 with h | ⟨j, hj, h3⟩
        · exact Or.inl h
        · exact Or.inr ⟨j, by omega, h3⟩

theorem fractionToTheBoundaryConstraint_eq_fold (p dp : Vector) (C : Matrix) (r : Vector)
    (tau : ℚ) :
    fractionToTheBoundaryConstraint p dp C r tau
      = (List.range C.rows).foldl (fractionToTheBoundaryConstraintLoop p dp C r tau) 1 := by
  unfold fractionToTheBoundaryConstraint
  by_cases h : C.rows = 0
  · simp [h]
  · simp only [h, if_false]

/-- Counterexample to claim C29 as stated.  With `C = [1]`, `p = [4]`, `dp = [-2]`, `r = [1]`
and `tau = 1/2` the set of the claim, `alpha * (-2) ≥ -(1/2) * 4 + 1`, has the maximum `1/2`,
and the function returns `3/4`, which is outside the set.  With `p = [1]`, `dp = [-1]`,
`r = [2]`, a point that violates `C p ≥ r`, it returns `-1/2`, and with `p = [2]`, `dp = [-1]`,
`r = [1]` and `tau = 0` it returns 0: neither is in `(0, 1]`. -/
theorem fractionToTheBoundaryConstraint_not_documented_maximum :
    fractionToTheBoundaryConstraint (Vector.ofList [4]) (Vector.ofList [-2])
        (Matrix.ofRows 1 1 [[1]]) (Vector.ofList [1]) (1 / 2) = 3 / 4 ∧
      ¬ ((3 / 4 : ℚ) * (Matrix.ofRows 1 1 [[1]]).rowDot 0 (Vector.ofList [-2])
          ≥ -(1 / 2) * (Matrix.ofRows 1 1 [[1]]).rowDot 0 (Vector.ofList [4])
            + (Vector.ofList [1]).coeff 0) ∧
      ((1 / 2 : ℚ) * (Matrix.ofRows 1 1 [[1]]).rowDot 0 (Vector.ofList [-2])
          ≥ -(1 / 2) * (Matrix.ofRows 1 1 [[1]]).rowDot 0 (Vector.ofList [4])
            + (Vector.ofList [1]).coeff 0) ∧
      (∀ β : ℚ, β * (Matrix.ofRows 1 1 [[1]]).rowDot 0 (Vector.ofList [-2])
          ≥ -(1 / 2) * (Matrix.ofRows 1 1 [[1]]).rowDot 0 (Vector.ofList [4])
            + (Vector.ofList [1]).coeff 0 → β ≤ 1 / 2) ∧
      fractionToTheBoundaryConstraint (Vector.ofList [1]) (Vector.ofList [-1])
        (Matrix.ofRows 1 1 [[1]]) (Vector.ofList [2]) (1 / 2) = -1 / 2 ∧
      fractionToTheBoundaryConstraint (Vector.ofList [2]) (Vector.ofList [-1])
        (Matrix.ofRows 1 1 [[1]]) (Vector.ofList [1]) 0 = 0 := by
  have e1 : (Matrix.ofRows 1 1 [[1]]).rowDot 0 (Vector.ofList [-2]) = -2 := by decide!
  have e2 : (Matrix.ofRows 1 1 [[1]]).rowDot 0 (Vector.ofList [4]) = 4 := by decide!
  have e3 : (Vector.ofList [1]).coeff 0 = 1 := by decide!
  refine ⟨by decide!, by decide!, by decide!, ?_, by decide!, by decide!⟩
  intro β h
  rw [e1, e2, e3] at h
  linarith

/-- Claim C29, amended: for `tau > 0` and a point with `C p ≥ r`, strictly in every row in
which `C dp` is negative, the value returned lies in `(0, 1]`, satisfies
`alpha * C dp ≥ -tau * (C p - r)` row by row, and no step in `(0, 1]` that satisfies it is
larger; the value is 1 when `C` has no rows. -/
theorem fractionToTheBoundaryConstraint_largest (p dp : Vector) (C : Matrix) (r : Vector)
    (tau : ℚ) (htau : 0 < tau)
    (hfeas : ∀ i, i < C.rows → r.coeff i ≤ C.rowDot i p)
    (hstrict : ∀ i, i < C.rows → C.rowDot i dp < 0 → r.coeff i < C.rowDot i p) :
    (0 < fractionToTheBoundaryConstraint p dp C r tau ∧
      fractionToTheBoundaryConstraint p dp C r tau ≤ 1 ∧
      ∀ i, i < C.rows →
        fractionToTheBoundaryConstraint p dp C r tau * C.rowDot i dp
          ≥ -tau * (C.rowDot i p - r.coeff i)) ∧
    (∀ β : ℚ, 0 < β → β ≤ 1 →
      (∀ i, i < C.rows → β * C.rowDot i dp ≥ -tau * (C.rowDot i p - r.coeff i)) →
      β ≤ fractionToTheBoundaryConstraint p dp C r tau) ∧
    (C.rows = 0 → fractionToTheBoundaryConstraint p dp C r tau = 1) := by
  obtain ⟨h1, h2, h3⟩ := fractionToTheBoundaryConstraint_fold_inv p dp C r tau C.rows
  rw [fractionToTheBoundaryConstraint_eq_fold]
  generalize (List.range C.rows).foldl (fractionToTheBoundaryConstraintLoop p dp C r tau) 1 = α
    at h1 h2 h3 ⊢
  have hpos : 0 < α := by
    rcases h3 with h | ⟨j, hj, hneg, heq⟩
    · rw [h]; exact one_pos
    · rw [← heq]
      have := hstrict j hj hneg
      exact div_pos_of_neg_of_neg (by nlinarith) hneg
  refine ⟨⟨hpos, h1, ?_⟩, ?_, ?_⟩
  · intro i hi
    by_cases hneg : C.rowDot i dp < 0
    · have hle := h2 i hi hneg
      exact (le_div_iff_of_neg hneg).mp hle
    · have hnn : 0 ≤ C.rowDot i dp := not_lt.mp hneg
      have h4 : 0 ≤ α * C.rowDot i dp := mul_nonneg (le_of_lt hpos) hnn
      have h5 := hfeas i hi
      show -tau * (C.rowDot i p - r.coeff i) ≤ α * C.rowDot i dp
      nlinarith
  · intro β _ hβ1 hβ
    rcases h3 with h | ⟨j, hj, hneg, heq⟩
    · rw [h]; exact hβ1
    · rw [← heq, le_div_iff_of_neg hneg]
      exact hβ j hj
  · intro hm
    rcases h3 with h | ⟨j, hj, _⟩
    · exact h
    · omega

/-- Witness of `fractionToTheBoundaryConstraint_largest`: `C = [1]`, `p = [4]`, `dp = [-2]`,
`r = [1]`, `tau = 1/2`, where the value is `3/4`. -/
theorem fractionToTheBoundaryConstraint_largest_witness :
    (0 < fractionToTheBoundaryConstraint (Vector.ofList [4]) (Vector.ofList [-2])
        (Matrix.ofRows 1 1 [[1]]) (Vector.ofList [1]) (1 / 2) ∧
      fractionToTheBoundaryConstraint (Vector.ofList [4]) (Vector.ofList [-2])
        (Matrix.ofRows 1 1 [[1]]) (Vector.ofList [1]) (1 / 2) ≤ 1 ∧
      ∀ i, i < (Matrix.ofRows 1 1 [[1]]).rows →
        fractionToTheBoundaryConstraint (Vector.ofList [4]) (Vector.ofList [-2])
            (Matrix.ofRows 1 1 [[1]]) (Vector.ofList [1]) (1 / 2)
          * (Matrix.ofRows 1 1 [[1]]).rowDot i (Vector.ofList [-2])
          ≥ -(1 / 2) * ((Matrix.ofRows 1 1 [[1]]).rowDot i (Vector.ofList [4])
              - (Vector.ofList [1]).coeff i)) ∧
    (∀ β : ℚ, 0 < β → β ≤ 1 →
      (∀ i, i < (Matrix.ofRows 1 1 [[1]]).rows →
        β * (Matrix.ofRows 1 1 [[1]]).rowDot i (Vector.ofList [-2])
          ≥ -(1 / 2) * ((Matrix.ofRows 1 1 [[1]]).rowDot i (Vector.ofList [4])
              - (Vector.ofList [1]).coeff i)) →
      β ≤ fractionToTheBoundaryConstraint (Vector.ofList [4]) (Vector.ofList [-2])
        (Matrix.ofRows 1 1 [[1]]) (Vector.ofList [1]) (1 / 2)) ∧
    ((Matrix.ofRows 1 1 [[1]]).rows = 0 →
      fractionToTheBoundaryConstraint (Vector.ofList [4]) (Vector.ofList [-2])
        (Matrix.ofRows 1 1 [[1]]) (Vector.ofList [1]) (1 / 2) = 1) :=
  fractionToTheBoundaryConstraint_largest (Vector.ofList [4]) (Vector.ofList [-2])
    (Matrix.ofRows 1 1 [[1]]) (Vector.ofList [1]) (1 / 2) (by norm_num)
    (by decide!) (by decide!)

/-! ## Step lengths: the largest step -/

theorem largestStep_fold_inv (res : Vector) :
    ∀ t,
      (∀ k, k < t → 0 < res.coeff k →
        (List.range t).foldl (largestStepLoop res) ⊤ ≤ (res.coeff k : WithTop ℚ)) ∧
      ((List.range t).foldl (largestStepLoop res) ⊤ = ⊤ ∨
        ∃ j, j < t ∧ 0 < res.coeff j ∧
          (List.range t).foldl (largestStepLoop res) ⊤ = (res.coeff j : WithTop ℚ)) := by
  intro t
  induction t with
  | zero =>
    refine ⟨?_, Or.inl rfl⟩
    intro k hk
    exact absurd hk (Nat.not_lt_zero k)
  | succ t ih =>
    rw [List.range_succ, List.foldl_append]
    simp only [List.foldl_cons, List.foldl_nil]
    generalize (List.range t).foldl (largestStepLoop res) ⊤ = acc at ih ⊢
    obtain ⟨ih1, ih2⟩ := ih
    unfold largestStepLoop
    by_cases hc : res.coeff t > 0 ∧ (res.coeff t : WithTop ℚ) < acc
    · simp only [hc, and_self, if_true]
      refine ⟨?_, Or.inr ⟨t, by omega, hc.1, rfl⟩⟩
      intro k hk hk2
      by_cases hkt : k = t
      · subst hkt
        exact le_refl _
      · exact le_trans (le_of_lt hc.2) (ih1 k (by omega) hk2)
    · rw [if_neg hc]
      refine ⟨?_, ?_⟩
      · intro k hk hk2
        by_cases hkt : k = t
        · subst hkt
          exact not_lt.mp (fun h => hc ⟨hk2, h⟩)
        · exact ih1 k (by omega) hk2
      · rcases ih2 with h | ⟨j, hj, h3⟩
        · exact Or.inl h
        · exact Or.inr ⟨j, by omega, h3⟩

/-- Claim C30: for `p` with strictly positive entries, `largestStep(p, dp)` is `+infinity`
when no entry of `dp` is negative; otherwise it is a number `alpha` with
`p + alpha * dp ≥ 0` componentwise, with some component of `p + alpha * dp` equal to 0, and
no step that keeps `p + alpha * dp ≥ 0` is larger. -/
theorem largestStep_largest (p dp : Vector) (hp : ∀ i, i < p.rows → 0 < p.coeff i) :
    ((∀ i, i < p.rows → 0 ≤ dp.coeff i) → largestStep p dp = ⊤) ∧
    ((∃ i, i < p.rows ∧ dp.coeff i < 0) →
      ∃ α : ℚ, largestStep p dp = (α : WithTop ℚ) ∧
        (∀ i, i < p.rows → 0 ≤ p.coeff i + α * dp.coeff i) ∧
        (∃ i, i < p.rows ∧ p.coeff i + α * dp.coeff i = 0) ∧
        ∀ β : ℚ, (∀ i, i < p.rows → 0 ≤ p.coeff i + β * dp.coeff i) → β ≤ α) := by
  have hres : ∀ i, i < p.rows → (0 < -p.coeff i / dp.coeff i ↔ dp.coeff i < 0) := by
    intro i hi
    have hpi := hp i hi
    constructor
    · intro h
      by_contra hnn
      have hnn : 0 ≤ dp.coeff i := not_lt.mp hnn
      have : -p.coeff i / dp.coeff i ≤ 0 :=
        div_nonpos_of_nonpos_of_nonneg (by linarith) hnn
      linarith
    · intro h
      exact div_pos_of_neg_of_neg (by linarith) h
  obtain ⟨h1, h2⟩ := largestStep_fold_inv ⟨p.rows, fun i => -p.coeff i / dp.coeff i⟩ p.rows
  simp only at h1 h2
  unfold largestStep
  simp only
  generalize (List.range p.rows).foldl
    (largestStepLoop ⟨p.rows, fun i => -p.coeff i / dp.coeff i⟩) ⊤ = acc at h1 h2 ⊢
  constructor
  · intro hnn
    rcases h2 with h | ⟨j, hj, hpos, _⟩
    · exact h
    · exact absurd ((hres j hj).mp hpos) (not_lt.mpr (hnn j hj))
  · rintro ⟨i, hi, hneg⟩
    have hle := h1 i hi ((hres i hi).mpr hneg)
    rcases h2 with h | ⟨j, hj, hpos, heq⟩
    · rw [h] at hle
      exact absurd hle (by simp)
    · have hdj : dp.coeff j < 0 := (hres j hj).mp hpos
      refine ⟨-p.coeff j / dp.coeff j, heq, ?_, ⟨j, hj, ?_⟩, ?_⟩
      · intro k hk
        by_cases hnk : dp.coeff k < 0
        · have hk1 := h1 k hk ((hres k hk).mpr hnk)
          rw [heq] at hk1
          have hk2 : -p.coeff j / dp.coeff j ≤ -p.coeff k / dp.coeff k :=
            WithTop.coe_le_coe.mp hk1
          have := (le_div_iff_of_neg hnk).mp hk2
          linarith
        · have hnn : 0 ≤ dp.coeff k := not_lt.mp hnk
          have := mul_nonneg (le_of_lt hpos) hnn
          have := hp k hk
          linarith
      · field_simp [ne_of_lt hdj]
      · intro β hβ
        rw [le_div_iff_of_neg hdj]
        have := hβ j hj
        linarith

theorem largestStep_examples :
    largestStep (Vector.ofList [1, 2, 3]) (Vector.ofList [1, 0, 1]) = ⊤ ∧
      largestStep (Vector.ofList [1, 2, 3]) (Vector.ofList [-1, 0, -6])
        = ((1 / 2 : ℚ) : WithTop ℚ) := by
  constructor
  · decide!
  · decide!

/-- Witness of `largestStep_largest`: `p = [1, 2, 3]` and `dp = [-1, 0, -6]`, where the
step is `1/2` and the third component reaches the bound. -/
theorem largestStep_largest_witness :
    ((∀ i, i < (Vector.ofList [1, 2, 3]).rows → 0 ≤ (Vector.ofList [-1, 0, -6]).coeff i) →
      largestStep (Vector.ofList [1, 2, 3]) (Vector.ofList [-1, 0, -6]) = ⊤) ∧
    ((∃ i, i < (Vector.ofList [1, 2, 3]).rows ∧ (Vector.ofList [-1, 0, -6]).coeff i < 0) →
      ∃ α : ℚ, largestStep (Vector.ofList [1, 2, 3]) (Vector.ofList [-1, 0, -6])
          = (α : WithTop ℚ) ∧
        (∀ i, i < (Vector.ofList [1, 2, 3]).rows →
          0 ≤ (Vector.ofList [1, 2, 3]).coeff i + α * (Vector.ofList [-1, 0, -6]).coeff i) ∧
        (∃ i, i < (Vector.ofList [1, 2, 3]).rows ∧
          (Vector.ofList [1, 2, 3]).coeff i + α * (Vector.ofList [-1, 0, -6]).coeff i = 0) ∧
        ∀ β : ℚ, (∀ i, i < (Vector.ofList [1, 2, 3]).rows →
          0 ≤ (Vector.ofList [1, 2, 3]).coeff i + β * (Vector.ofList [-1, 0, -6]).coeff i) →
          β ≤ α) :=
  largestStep_largest (Vector.ofList [1, 2, 3]) (Vector.ofList [-1, 0, -6]) (by decide!)

/-! ## The swaps called by the priority update -/

theorem improveCalls_valid (w : Vector) (l : List Nat) :
    ∀ st : Impl, (∀ i ∈ l, i < st.lu.rank) →
      ∀ c ∈ Impl.improveCalls w l st,
        c.2.1 < c.1.lu.rank ∧ c.2.2 < c.1.lu.cols - c.1.lu.rank ∧
          |c.1.S.coeff c.2.1 c.2.2| > c.1.threshold := by
  induction l with
  | nil =>
    intro st _ c hc
    simp [Impl.improveCalls] at hc
  | cons i l ih =>
    intro st hl c hc
    have hi : i < st.lu.rank := hl i (List.mem_cons_self _ _)
    unfold Impl.improveCalls at hc
    by_cases h : ((w.coeff ((st.Q.head st.lu.rank).coeff i) : ℚ) : WithBot ℚ)
        < (st.find_nonbasic_candidate w i).2
    · simp only [h, if_true] at hc
      have hne : (st.find_nonbasic_candidate w i).2 ≠ ⊥ := ne_bot_of_gt h
      obtain ⟨h1, h2, _⟩ := find_nonbasic_candidate_spec st w i hne
      rw [updateWithSwapBasicVariable_eq_some st i _ hi h1 h2] at hc
      rcases List.mem_cons.mp hc with hc | hc
      · subst hc
        exact ⟨hi, h1, h2⟩
      · exact ih (st.swapBody i (st.find_nonbasic_candidate w i).1)
          (fun j hj => hl j (List.mem_cons_of_mem _ hj)) c hc
    · simp only [h, if_false] at hc
      exact ih st (fun j hj => hl j (List.mem_cons_of_mem _ hj)) c hc

/-- Claim C34: every call of `updateWithSwapBasicVariable(i, j)` that
`updateWithPriorityWeights(w)` makes, on the state `s` the object is in at the call, has
`i < r`, `j < n - r` and `|S(i, j)| > threshold`, so that the call passes its three assertions;
and with as many weights as variables the priority update itself succeeds.  When `n - r = 0`,
or no entry of a row is above the threshold, no call is made. -/
theorem priorityCalls_valid (srt : StdSort) (st : Impl) (w : Vector)
    (hw : w.rows = st.lu.cols) :
    (∀ c ∈ st.priorityCalls w,
      c.2.1 < c.1.lu.rank ∧ c.2.2 < c.1.lu.cols - c.1.lu.rank ∧
        |c.1.S.coeff c.2.1 c.2.2| > c.1.threshold ∧
        (c.1.updateWithSwapBasicVariable c.2.1 c.2.2).isSome = true) ∧
      (st.updateWithPriorityWeights srt w).isSome = true ∧
      (st.lu.cols - st.lu.rank = 0 → st.priorityCalls w = []) ∧
      ∀ i, (∀ k, k < st.lu.cols - st.lu.rank → |st.S.coeff i k| ≤ st.threshold) →
        Impl.improveCalls w [i] st = [] := by
  refine ⟨?_, ?_, ?_, ?_⟩
  · intro c hc
    unfold Impl.priorityCalls at hc
    rw [if_neg (not_not.mpr hw)] at hc
    by_cases hnn : st.lu.cols - st.lu.rank > 0
    · rw [if_pos hnn] at hc
      obtain ⟨h1, h2, h3⟩ := improveCalls_valid w (List.range st.lu.rank) st
        (fun i hi => List.mem_range.mp hi) c hc
      refine ⟨h1, h2, h3, ?_⟩
      rw [updateWithSwapBasicVariable_eq_some c.1 c.2.1 c.2.2 h1 h2 h3]
      rfl
    · rw [if_neg hnn] at hc
      simp at hc
  · obtain ⟨st1, _, h1⟩ := updateWithPriorityWeights_induction srt st w (fun s => s.lu = st.lu)
      hw rfl (fun s i hs hi => by
        obtain ⟨s1, h2, h3⟩ := improveStepTraced_ok s w i (by rw [hs]; exact hi)
        have h4 := improveStepTraced_toOption s w i
        rw [h2] at h4
        exact ⟨s1, h4.symm, h3.trans hs⟩)
    rw [h1]
    rfl
  · intro h0
    unfold Impl.priorityCalls
    rw [if_neg (not_not.mpr hw), if_neg (by omega)]
  · intro i hrow
    have hb := find_nonbasic_candidate_eq_bot st w i hrow
    simp [Impl.improveCalls, hb]

theorem heavyWeights_calls :
    (scenarioState.priorityCalls heavyWeights).map (fun c => (c.2.1, c.2.2)) = [(0, 0)] := by
  decide!

/-- Witness of `priorityCalls_valid`: the priority update of the scenario state with the
weights `1, 1, 5, 1`, which calls the swap once, with `(0, 0)`. -/
theorem priorityCalls_valid_witness :
    (∀ c ∈ scenarioState.priorityCalls heavyWeights,
      c.2.1 < c.1.lu.rank ∧ c.2.2 < c.1.lu.cols - c.1.lu.rank ∧
        |c.1.S.coeff c.2.1 c.2.2| > c.1.threshold ∧
        (c.1.updateWithSwapBasicVariable c.2.1 c.2.2).isSome = true) ∧
      (scenarioState.updateWithPriorityWeights insertionStdSort heavyWeights).isSome = true ∧
      (scenarioState.lu.cols - scenarioState.lu.rank = 0 →
        scenarioState.priorityCalls heavyWeights = []) ∧
      ∀ i, (∀ k, k < scenarioState.lu.cols - scenarioState.lu.rank →
          |scenarioState.S.coeff i k| ≤ scenarioState.threshold) →
        Impl.improveCalls heavyWeights [i] scenarioState = [] :=
  priorityCalls_valid insertionStdSort scenarioState heavyWeights (by decide!)

/-! ## The frame of a swap -/

/-- Claim C36: a swap that passes its assertions, on a well-formed state, replaces `Q` by `Q`
with the entries at positions `ib` and `r + in` exchanged: the basic variable of position `ib`
becomes the non-basic variable of position `in` and conversely, and every other position
keeps its entry.  The decomposition with its rank, `P`, the indices of the linearly
independent equations, the threshold and the rows of `R` from `r` on are unchanged. -/
theorem updateWithSwapBasicVariable_frame (st st1 : Impl) (ib inn : Nat) (hwf : st.WellFormed)
    (h : st.updateWithSwapBasicVariable ib inn = some st1) :
    st1.Q = st.Q.swap ib (st.lu.rank + inn) ∧
      st1.Q.coeff ib = st.Q.coeff (st.lu.rank + inn) ∧
      st1.Q.coeff (st.lu.rank + inn) = st.Q.coeff ib ∧
      (∀ k, k ≠ ib → k ≠ st.lu.rank + inn → st1.Q.coeff k = st.Q.coeff k) ∧
      st1.indicesBasicVariables.coeff ib = st.indicesNonBasicVariables.coeff inn ∧
      st1.indicesNonBasicVariables.coeff inn = st.indicesBasicVariables.coeff ib ∧
      st1.lu = st.lu ∧ st1.P = st.P ∧
      st1.indicesLinearlyIndependentEquations = st.indicesLinearlyIndependentEquations ∧
      st1.threshold = st.threshold ∧
      ∀ i, st.lu.rank ≤ i → ∀ k, st1.R.coeff i k = st.R.coeff i k := by
  obtain ⟨hib, hin, _, rfl⟩ := updateWithSwapBasicVariable_some st st1 ib inn h
  have hwf1 := swapBody_wellFormed st ib inn hwf hib hin
  have hQ : ∀ k, (st.swapBody ib inn).Q.coeff k
      = st.Q.coeff (if k = st.lu.rank + inn then ib
          else if k = ib then st.lu.rank + inn else k) :=
    fun k => swapBody_Q_coeff st ib inn k hwf hib hin
  have hQib : (st.swapBody ib inn).Q.coeff ib = st.Q.coeff (st.lu.rank + inn) := by
    rw [hQ]
    have : ¬ ib = st.lu.rank + inn := by omega
    simp [this]
  have hQin : (st.swapBody ib inn).Q.coeff (st.lu.rank + inn) = st.Q.coeff ib := by
    rw [hQ]
    simp
  refine ⟨?_, hQib, hQin, ?_, ?_, ?_, rfl, rfl, rfl, rfl, ?_⟩
  · simp [Impl.swapBody, hwf.S_rows]
  · intro k hk1 hk2
    rw [hQ]
    simp [hk1, hk2]
  · rw [basic_coeff (st.swapBody ib inn) ib hib, nonbasic_coeff st inn hwf]
    exact hQib
  · rw [nonbasic_coeff (st.swapBody ib inn) inn hwf1, basic_coeff st ib hib]
    exact hQin
  · intro i hi k
    rw [swapBody_R]
    have h1 : ¬ i = ib := by omega
    have h2 : ¬ i < st.S.rows := by rw [hwf.S_rows]; omega
    simp [h1, h2]

/-- Witness of `updateWithSwapBasicVariable_frame`: the swap `(0, 1)` of the scenario state. -/
theorem updateWithSwapBasicVariable_frame_witness :
    (scenarioState.swapBody 0 1).Q = scenarioState.Q.swap 0 (scenarioState.lu.rank + 1) ∧
      (scenarioState.swapBody 0 1).Q.coeff 0 = scenarioState.Q.coeff (scenarioState.lu.rank + 1) ∧
      (scenarioState.swapBody 0 1).Q.coeff (scenarioState.lu.rank + 1)
        = scenarioState.Q.coeff 0 ∧
      (∀ k, k ≠ 0 → k ≠ scenarioState.lu.rank + 1 →
        (scenarioState.swapBody 0 1).Q.coeff k = scenarioState.Q.coeff k) ∧
      (scenarioState.swapBody 0 1).indicesBasicVariables.coeff 0
        = scenarioState.indicesNonBasicVariables.coeff 1 ∧
      (scenarioState.swapBody 0 1).indicesNonBasicVariables.coeff 1
        = scenarioState.indicesBasicVariables.coeff 0 ∧
      (scenarioState.swapBody 0 1).lu = scenarioState.lu ∧
      (scenarioState.swapBody 0 1).P = scenarioState.P ∧
      (scenarioState.swapBody 0 1).indicesLinearlyIndependentEquations
        = scenarioState.indicesLinearlyIndependentEquations ∧
      (scenarioState.swapBody 0 1).threshold = scenarioState.threshold ∧
      ∀ i, scenarioState.lu.rank ≤ i → ∀ k,
        (scenarioState.swapBody 0 1).R.coeff i k = scenarioState.R.coeff i k :=
  updateWithSwapBasicVariable_frame scenarioState (scenarioState.swapBody 0 1) 0 1
    scenarioState_wellFormed
    (updateWithSwapBasicVariable_eq_some scenarioState 0 1 (by decide!) (by decide!) (by decide!))

/-! ## Two swaps in a row -/

theorem Indices.ext_coeff (u v : Indices) (hl : u.length = v.length)
    (h : ∀ k, k < v.length → u.coeff k = v.coeff k) : u = v :=
  calc u = (List.range u.length).map u.coeff := (Indices.map_coeff_range u).symm
    _ = (List.range v.length).map v.coeff := by
        rw [hl]
        exact List.map_congr_left (fun k hk => h k (List.mem_range.mp hk))
    _ = v := Indices.map_coeff_range v

theorem Indices.swap_swap (v : Indices) (a b : Nat) (ha : a < v.length) (hb : b < v.length) :
    (v.swap a b).swap a b = v := by
  have hl1 : (v.swap a b).length = v.length := Indices.swap_length v a b
  apply Indices.ext_coeff
  · rw [Indices.swap_length, hl1]
  · intro k _
    rw [Indices.swap_coeff _ a b k (by omega) (by omega), Indices.swap_coeff v a b _ ha hb]
    by_cases hkb : k = b
    · subst hkb
      by_cases hab : a = k
      · simp [hab]
      · simp [hab]
    · by_cases hka : k = a
      · subst hka
        simp [hkb]
      · simp [hkb, hka]

theorem Matrix.eq_of_coeff (A B : Matrix) (hr : A.rows = B.rows) (hc : A.cols = B.cols)
    (h : ∀ i k, A.coeff i k = B.coeff i k) : A = B := by
  cases A with
  | mk r c f =>
    cases B with
    | mk r2 c2 f2 =>
      simp only at hr hc h
      subst hr hc
      have : f = f2 := funext fun i => funext fun k => h i k
      rw [this]

/-- Claim C35: in a well-formed state, when `p = S(ib, in)` and `1/p` are both above the
threshold in absolute value, two calls of `updateWithSwapBasicVariable(ib, in)` in a row both
pass their assertions and leave `Q`, `S` and `R` as they were before the first. -/
theorem updateWithSwapBasicVariable_involution (st : Impl) (ib inn : Nat) (hwf : st.WellFormed)
    (hib : ib < st.lu.rank) (hin : inn < st.lu.cols - st.lu.rank)
    (hp : |st.S.coeff ib inn| > st.threshold)
    (hp1 : |1 / st.S.coeff ib inn| > st.threshold) :
    ∃ st1 st2 : Impl, st.updateWithSwapBasicVariable ib inn = some st1 ∧
      st1.updateWithSwapBasicVariable ib inn = some st2 ∧
      st2.Q = st.Q ∧ st2.S = st.S ∧ st2.R = st.R := by
  have hne : st.S.coeff ib inn ≠ 0 := by
    intro h0
    rw [h0, abs_zero] at hp
    exact absurd hp (not_lt.mpr hwf.threshold_nonneg)
  have hS1 : (st.swapBody ib inn).S.coeff ib inn = 1 / st.S.coeff ib inn := by
    rw [swapBody_S]; simp
  have h2 : (st.swapBody ib inn).updateWithSwapBasicVariable ib inn
      = some ((st.swapBody ib inn).swapBody ib inn) :=
    updateWithSwapBasicVariable_eq_some _ ib inn hib hin (by rw [hS1]; exact hp1)
  refine ⟨st.swapBody ib inn, (st.swapBody ib inn).swapBody ib inn,
    updateWithSwapBasicVariable_eq_some st ib inn hib hin hp, h2, ?_, ?_, ?_⟩
  · have hl := Indices.perm_range_length _ _ hwf.Q_perm
    have h3 := hwf.S_rows
    have h4 := hwf.rank_le_rows
    have h5 := hwf.rows_le_cols
    show (st.Q.swap ib (st.S.rows + inn)).swap ib (st.S.rows + inn) = st.Q
    exact Indices.swap_swap st.Q ib (st.S.rows + inn) (by omega) (by omega)
  · refine Matrix.eq_of_coeff _ _ (by rfl) (by rfl) ?_
    intro i k
    have hrows : (st.swapBody ib inn).S.rows = st.S.rows := rfl
    rw [swapBody_S (st.swapBody ib inn), hS1, hrows]
    by_cases hi : i = ib
    · subst hi
      by_cases hk : k = inn
      · subst hk
        simp
      · simp only [hk, if_false, if_true]
        rw [swapBody_S]
        simp only [hk, if_false, if_true]
        field_simp
    · by_cases hk : k = inn
      · subst hk
        simp only [hi, if_false, if_true]
        rw [swapBody_S]
        simp only [hi, if_false, if_true]
        field_simp
      · simp only [hi, hk, if_false]
        rw [swapBody_S st ib inn i k, swapBody_S st ib inn i inn, swapBody_S st ib inn ib k]
        simp only [hi, hk, if_false, if_true]
        by_cases hr : i < st.S.rows
        · simp only [hr, if_true]
          field_simp
        · simp only [hr, if_false]
  · refine Matrix.eq_of_coeff _ _ (by rfl) (by rfl) ?_
    intro i k
    have hrows : (st.swapBody ib inn).S.rows = st.S.rows := rfl
    rw [swapBody_R (st.swapBody ib inn), hS1, hrows]
    by_cases hi : i = ib
    · subst hi
      simp only [if_true]
      rw [swapBody_R]
      simp only [if_true]
      field_simp
    · simp only [hi, if_false]
      by_cases hr : i < st.S.rows
      · simp only [hr, if_true]
        rw [swapBody_R st ib inn i k, swapBody_R st ib inn ib k, swapBody_S st ib inn i inn]
        simp only [hi, hr, if_false, if_true]
        field_simp
      · simp only [hr, if_false]
        rw [swapBody_R]
        simp only [hi, hr, if_false]

/-- Witness of `updateWithSwapBasicVariable_involution`: the pair `(0, 0)` of the scenario
state, where `p = 1/2`. -/
theorem updateWithSwapBasicVariable_involution_witness :
    ∃ st1 st2 : Impl, scenarioState.updateWithSwapBasicVariable 0 0 = some st1 ∧
      st1.updateWithSwapBasicVariable 0 0 = some st2 ∧
      st2.Q = scenarioState.Q ∧ st2.S = scenarioState.S ∧ st2.R = scenarioState.R :=
  updateWithSwapBasicVariable_involution scenarioState 0 0 scenarioState_wellFormed
    (by decide!) (by decide!) (by decide!) (by decide!)

/-! ## Comparisons with a tolerance -/

theorem roundDouble_ten_epsilon : roundDouble (10 * epsilon) = 10 * (1 / 2 ^ 52) := by
  decide!

/-- Counterexample to claim C33 as stated.  With `baseval = -1` both `lessThan(0, 0, -1)` and
`greaterThan(0, 0, -1)` are true, while `0 < 0 + 10*eps*(-1)` and `0 > 0 - 10*eps*(-1)` are
false.  With `a = b = 100` and `baseval = 1` both functions return false, the sum
`100 + 10*eps` and the difference `100 - 10*eps` being rounded to 100, while
`100 < 100 + 10*eps` and `100 > 100 - 10*eps` are true. -/
theorem lessThan_negative_baseval :
    lessThan 0 0 (-1) = true ∧ ¬ ((0 : ℚ) < 0 + 10 * (1 / 2 ^ 52) * (-1)) ∧
      greaterThan 0 0 (-1) = true ∧ ¬ ((0 : ℚ) > 0 - 10 * (1 / 2 ^ 52) * (-1)) ∧
      lessThan 100 100 1 = false ∧ (100 : ℚ) < 100 + 10 * (1 / 2 ^ 52) * 1 ∧
      greaterThan 100 100 1 = false ∧ (100 : ℚ) > 100 - 10 * (1 / 2 ^ 52) * 1 := by
  refine ⟨by decide!, by decide!, by decide!, by decide!, by decide!, by decide!, by decide!,
    by decide!⟩

/-- Claim C33, amended: `lessThan(a, b, baseval)` is true exactly when `a` is below the
`double` sum of `b` and the `double` product of `10*eps` and `|baseval|`, and
`greaterThan(a, b, baseval)` exactly when `a` is above the `double` difference of the two;
`eps = 2^-52`, and the product `10*eps` is exact. -/
theorem lessThan_greaterThan_iff (a b baseval : ℚ) :
    (lessThan a b baseval = true ↔
        a < roundDouble (b + roundDouble (10 * (1 / 2 ^ 52) * |baseval|))) ∧
      (greaterThan a b baseval = true ↔
        a > roundDouble (b - roundDouble (10 * (1 / 2 ^ 52) * |baseval|))) := by
  constructor
  · unfold lessThan
    rw [roundDouble_ten_epsilon, decide_eq_true_eq]
  · unfold greaterThan
    rw [roundDouble_ten_epsilon, decide_eq_true_eq]

theorem roundDouble_examples :
    roundDouble (1 / 10) = 3602879701896397 / 2 ^ 55 ∧
      roundDouble (1 + 1 / 2 ^ 53) = 1 ∧
      roundDouble (1 + 3 / 2 ^ 53) = 1 + 1 / 2 ^ 51 ∧
      roundDouble (100 + 10 / 2 ^ 52) = 100 ∧
      roundDouble (1 + 10 / 2 ^ 52) = 1 + 10 / 2 ^ 52 ∧
      roundDouble (3 / 2 ^ 1075) = 1 / 2 ^ 1073 := by
  refine ⟨by decide!, by decide!, by decide!, by decide!, by decide!, by decide!⟩

/-! ## The structure of a matrix -/

/-- Claim C32 fails on the code: a matrix with 2 rows and 4 columns is classified `Zero`,
while `isZeroMatrix` is false for it and it has rows and columns. -/
theorem matrixStructure_zero_of_nonempty :
    matrixStructure (Matrix.ofRows 2 4 [[1, 0, 1, 1], [0, 1, 1, 2]]) = MatrixStructure.Zero ∧
      isZeroMatrix (Matrix.ofRows 2 4 [[1, 0, 1, 1], [0, 1, 1, 2]]) = false ∧
      (Matrix.ofRows 2 4 [[1, 0, 1, 1], [0, 1, 1, 2]]).rows = 2 ∧
      (Matrix.ofRows 2 4 [[1, 0, 1, 1], [0, 1, 1, 2]]).cols = 4 := by
  refine ⟨by decide, by decide, rfl, rfl⟩

theorem matrixStructure_iff (mat : Matrix) :
    (matrixStructure mat = MatrixStructure.Dense ↔ isDenseMatrix mat = true) ∧
      (matrixStructure mat = MatrixStructure.Diagonal ↔ isDiagonalMatrix mat = true) ∧
      (matrixStructure mat = MatrixStructure.Zero ↔
        (isZeroMatrix mat = true ∨ (mat.rows ≠ mat.cols ∧ mat.cols ≠ 1))) ∧
      (mat.rows = mat.cols ∨ mat.cols = 1 →
        (matrixStructure mat = MatrixStructure.Zero ↔ isZeroMatrix mat = true)) ∧
      (isZeroMatrix mat = true ↔ mat.rows = 0 ∨ mat.cols = 0) := by
  have hsz : mat.size = mat.rows * mat.cols := rfl
  have hz : isZeroMatrix mat = true ↔ mat.rows = 0 ∨ mat.cols = 0 := by
    simp [isZeroMatrix, hsz]
  have hdiag : isDiagonalMatrix mat = true ↔ (mat.rows ≠ 0 ∧ mat.cols = 1) := by
    simp only [isDiagonalMatrix, hsz, Bool.and_eq_true, decide_eq_true_eq]
    constructor
    · rintro ⟨h1, h2⟩
      rw [h2] at h1
      exact ⟨by simpa using h1, h2⟩
    · rintro ⟨h1, h2⟩
      rw [h2]
      exact ⟨by simpa using h1, rfl⟩
  have hdense : isDenseMatrix mat = true ↔ (mat.rows ≥ 2 ∧ mat.rows = mat.cols) := by
    simp only [isDenseMatrix, hsz, Bool.and_eq_true, decide_eq_true_eq]
    constructor
    · rintro ⟨h1, h2⟩
      rw [← h2] at h1
      refine ⟨?_, h2⟩
      by_contra hlt
      have : mat.rows ≤ 1 := by omega
      have : mat.rows * mat.rows ≤ 1 * 1 := Nat.mul_le_mul this this
      omega
    · rintro ⟨h1, h2⟩
      rw [← h2]
      refine ⟨?_, rfl⟩
      have : 2 * 2 ≤ mat.rows * mat.rows := Nat.mul_le_mul h1 h1
      omega
  have hD : matrixStructure mat = MatrixStructure.Dense ↔ isDenseMatrix mat = true := by
    unfold matrixStructure
    by_cases h1 : isDenseMatrix mat = true
    · simp [h1]
    · by_cases h2 : isDiagonalMatrix mat = true
      · simp [h1, h2]
      · simp [h1, h2]
  have hG : matrixStructure mat = MatrixStructure.Diagonal ↔ isDiagonalMatrix mat = true := by
    unfold matrixStructure
    by_cases h1 : isDenseMatrix mat = true
    · have h2 : ¬ isDiagonalMatrix mat = true := by
        rw [hdiag]; rw [hdense] at h1; omega
      simp [h1, h2]
    · by_cases h2 : isDiagonalMatrix mat = true
      · simp [h1, h2]
      · simp [h1, h2]
  have hZ : matrixStructure mat = MatrixStructure.Zero ↔
      (isZeroMatrix mat = true ∨ (mat.rows ≠ mat.cols ∧ mat.cols ≠ 1)) := by
    have h0 : matrixStructure mat = MatrixStructure.Zero ↔
        (¬ isDenseMatrix mat = true ∧ ¬ isDiagonalMatrix mat = true) := by
      unfold matrixStructure
      by_cases h1 : isDenseMatrix mat = true
      · simp [h1]
      · by_cases h2 : isDiagonalMatrix mat = true
        · simp [h1, h2]
        · simp [h1, h2]
    rw [h0, hdense, hdiag, hz]
    omega
  refine ⟨hD, hG, hZ, ?_, hz⟩
  intro h
  rw [hZ, hz]
  constructor
  · rintro (h1 | h1)
    · exact h1
    · omega
  · intro h1
    exact Or.inl h1

/-! ## The Sherman-Morrison update of an inverse -/

theorem shermanMorrison_fold_inv (A invA : Matrix) (D : Vector)
    (hinv : ∀ i, i < D.rows → ∀ k, k < D.rows →
      ∑ j ∈ Finset.range D.rows, invA.coeff i j * A.coeff j k = if i = k then 1 else 0)
    (hden : ∀ t, t < D.rows →
      1 + D.coeff t * ((List.range t).foldl (shermanMorrisonStep D) invA).coeff t t ≠ 0) :
    ∀ t, t ≤ D.rows → ∀ i, i < D.rows → ∀ k, k < D.rows →
      ∑ j ∈ Finset.range D.rows,
          ((List.range t).foldl (shermanMorrisonStep D) invA).coeff i j
            * (A.coeff j k + if j = k ∧ j < t then D.coeff j else 0)
        = if i = k then 1 else 0 := by
  intro t
  induction t with
  | zero =>
    intro _ i hi k hk
    simpa using hinv i hi k hk
  | succ t ih =>
    intro ht i hi k hk
    have htn : t < D.rows := by omega
    have hd := hden t htn
    rw [List.range_succ, List.foldl_append]
    simp only [List.foldl_cons, List.foldl_nil]
    generalize (List.range t).foldl (shermanMorrisonStep D) invA = M at ih hd ⊢
    have ihi := ih (by omega) i hi k hk
    have iht := ih (by omega) t htn k hk
    have hsplit : ∀ j, (A.coeff j k + if j = k ∧ j < t + 1 then D.coeff j else 0)
        = (A.coeff j k + if j = k ∧ j < t then D.coeff j else 0)
          + (if j = t then (if k = t then D.coeff t else 0) else 0) := by
      intro j
      by_cases hjt : j = t
      · subst hjt
        by_cases hkj : j = k
        · subst hkj; simp
        · have : ¬ k = j := fun h => hkj h.symm
          simp [hkj, this]
      · by_cases hjk : j = k
        · subst hjk
          have h1 : (j < t + 1) ↔ (j < t) := by omega
          simp [hjt, h1]
        · simp [hjt, hjk]
    have hpick : ∀ f : Nat → ℚ, ∑ j ∈ Finset.range D.rows,
        f j * (if j = t then (if k = t then D.coeff t else 0) else 0)
          = f t * (if k = t then D.coeff t else 0) := by
      intro f
      rw [Finset.sum_eq_single t]
      · simp
      · intro j _ hj; simp [hj]
      · intro h; exact absurd (Finset.mem_range.mpr htn) h
    have hstep : ∀ j, (shermanMorrisonStep D M t).coeff i j
        = M.coeff i j
          - D.coeff t / (1 + D.coeff t * M.coeff t t) * M.coeff i t * M.coeff t j := fun _ => rfl
    simp only [hstep, hsplit]
    have hexp : ∀ j, (M.coeff i j
          - D.coeff t / (1 + D.coeff t * M.coeff t t) * M.coeff i t * M.coeff t j)
          * ((A.coeff j k + if j = k ∧ j < t then D.coeff j else 0)
            + (if j = t then (if k = t then D.coeff t else 0) else 0))
        = M.coeff i j * (A.coeff j k + if j = k ∧ j < t then D.coeff j else 0)
          + M.coeff i j * (if j = t then (if k = t then D.coeff t else 0) else 0)
          - D.coeff t / (1 + D.coeff t * M.coeff t t) * M.coeff i t
            * (M.coeff t j * (A.coeff j k + if j = k ∧ j < t then D.coeff j else 0))
          - D.coeff t / (1 + D.coeff t * M.coeff t t) * M.coeff i t
            * (M.coeff t j * (if j = t then (if k = t then D.coeff t else 0) else 0)) := by
      intro j; ring
    simp only [hexp, Finset.sum_sub_distrib, Finset.sum_add_distrib, ← Finset.mul_sum]
    rw [ihi, iht, hpick (fun j => M.coeff i j), hpick (fun j => M.coeff t j)]
    by_cases hkt : k = t
    · subst hkt
      simp only [if_true]
      by_cases hik : i = k
      · subst hik
        simp only [if_true]
        field_simp
        ring
      · have hki : ¬ k = i := fun h => hik h.symm
        simp only [hik, hki, if_false]
        field_simp
        ring
    · have htk : ¬ t = k := fun h => hkt h.symm
      simp [hkt, htk]

/-- Claim C31: if `invA * A = I` for the `n x n` matrices `invA` and `A`, `n` being the length
of `D`, and each denominator `1 + D[i]*invM(i, i)` met in the loop is non-zero, then
`inverseShermanMorrison(invA, D) * (A + diag(D)) = I`. -/
theorem inverseShermanMorrison_inverse (A invA : Matrix) (D : Vector)
    (hinv : ∀ i, i < D.rows → ∀ k, k < D.rows →
      ∑ j ∈ Finset.range D.rows, invA.coeff i j * A.coeff j k = if i = k then 1 else 0)
    (hden : ∀ t, t < D.rows →
      1 + D.coeff t * ((List.range t).foldl (shermanMorrisonStep D) invA).coeff t t ≠ 0) :
    ∀ i, i < D.rows → ∀ k, k < D.rows →
      ∑ j ∈ Finset.range D.rows,
          (inverseShermanMorrison invA D).coeff i j
            * (A.coeff j k + if j = k then D.coeff j else 0)
        = if i = k then 1 else 0 := by
  intro i hi k hk
  have h := shermanMorrison_fold_inv A invA D hinv hden D.rows (le_refl _) i hi k hk
  unfold inverseShermanMorrison
  rw [← h]
  apply Finset.sum_congr rfl
  intro j hj
  have hj : j < D.rows := Finset.mem_range.mp hj
  simp [hj]

/-- Witness of `inverseShermanMorrison_inverse`: `A = [[2, 1], [1, 1]]` with the inverse
`[[1, -1], [-1, 2]]` and `D = [1, 1]`; the first row of the product is `(1, 0)`. -/
theorem inverseShermanMorrison_inverse_witness :
    (∑ j ∈ Finset.range (Vector.ofList [1, 1]).rows,
          (inverseShermanMorrison (Matrix.ofRows 2 2 [[1, -1], [-1, 2]])
              (Vector.ofList [1, 1])).coeff 0 j
            * ((Matrix.ofRows 2 2 [[2, 1], [1, 1]]).coeff j 0
              + if j = 0 then (Vector.ofList [1, 1]).coeff j else 0)
        = if 0 = 0 then 1 else 0) ∧
      (∑ j ∈ Finset.range (Vector.ofList [1, 1]).rows,
          (inverseShermanMorrison (Matrix.ofRows 2 2 [[1, -1], [-1, 2]])
              (Vector.ofList [1, 1])).coeff 0 j
            * ((Matrix.ofRows 2 2 [[2, 1], [1, 1]]).coeff j 1
              + if j = 1 then (Vector.ofList [1, 1]).coeff j else 0)
        = if 0 = 1 then 1 else 0) :=
  ⟨inverseShermanMorrison_inverse (Matrix.ofRows 2 2 [[2, 1], [1, 1]])
      (Matrix.ofRows 2 2 [[1, -1], [-1, 2]]) (Vector.ofList [1, 1]) (by decide!) (by decide!)
      0 (by decide) 0 (by decide),
    inverseShermanMorrison_inverse (Matrix.ofRows 2 2 [[2, 1], [1, 1]])
      (Matrix.ofRows 2 2 [[1, -1], [-1, 2]]) (Vector.ofList [1, 1]) (by decide!) (by decide!)
      0 (by decide) 1 (by decide)⟩

theorem inverseShermanMorrison_example :
    (List.range 2).map (fun i => (List.range 2).map (fun k =>
      (inverseShermanMorrison (Matrix.ofRows 2 2 [[1, -1], [-1, 2]])
        (Vector.ofList [1, 1])).coeff i k)) = [[2 / 5, -1 / 5], [-1 / 5, 3 / 5]] := by
  decide!

/-! ## The BFGS approximation of the inverse Hessian -/

theorem bfgsCall_records (s : BfgsState) (x g : Vector) :
    (bfgsCall s x g).2.x0 = x ∧ (bfgsCall s x g).2.g0 = g ∧
      (bfgsCall s x g).2.H = (bfgsCall s x g).1 ∧ (bfgsCall s x g).1.cols = x.rows := by
  unfold bfgsCall
  by_cases h : s.x0.rows = 0
  · simp only [h, if_true]
    refine ⟨?_, ?_, ?_, ?_⟩ <;> first | rfl | trivial
  · simp only [h, if_false]
    refine ⟨?_, ?_, ?_, ?_⟩ <;> first | rfl | trivial

theorem sum_sum_mul_add (s t : Finset Nat) (G : Nat → ℚ) (Qm : Nat → Nat → ℚ) (c v : Nat → ℚ) :
    ∑ j ∈ s, (∑ l ∈ t, G l * Qm l j + c j) * v j
      = ∑ l ∈ t, G l * ∑ j ∈ s, Qm l j * v j + ∑ j ∈ s, c j * v j := by
  simp only [add_mul, Finset.sum_add_distrib, Finset.sum_mul]
  rw [Finset.sum_comm]
  congr 1
  apply Finset.sum_congr rfl
  intro l _
  rw [Finset.mul_sum]
  apply Finset.sum_congr rfl
  intro j _
  ring

theorem bfgs_update_secant (H : Matrix) (dx dg : Vector) (n : Nat) (hH : H.cols = n)
    (ha : ∑ j ∈ Finset.range n, dx.coeff j * dg.coeff j ≠ 0) (i : Nat) :
    ∑ j ∈ Finset.range n,
        ((∑ l ∈ Finset.range H.cols,
            (∑ k ∈ Finset.range n,
                ((identity n n).coeff i k
                    - dx.coeff i * dg.coeff k / ∑ j ∈ Finset.range n, dx.coeff j * dg.coeff j)
                  * H.coeff k l)
              * ((identity n n).coeff l j
                  - dg.coeff l * dx.coeff j / ∑ j ∈ Finset.range n, dx.coeff j * dg.coeff j))
          + dx.coeff i * dx.coeff j / ∑ j ∈ Finset.range n, dx.coeff j * dg.coeff j)
          * dg.coeff j
      = dx.coeff i := by
  generalize ha' : ∑ j ∈ Finset.range n, dx.coeff j * dg.coeff j = a at ha
  have hright : ∀ l, l < n → ∑ j ∈ Finset.range n,
      ((identity n n).coeff l j - dg.coeff l * dx.coeff j / a) * dg.coeff j = 0 := by
    intro l hl
    have h1 : ∀ j, ((identity n n).coeff l j - dg.coeff l * dx.coeff j / a) * dg.coeff j
        = (if l = j then dg.coeff j else 0) - dg.coeff l / a * (dx.coeff j * dg.coeff j) := by
      intro j
      by_cases hlj : l = j
      · simp only [identity, hlj, if_true]; ring
      · simp only [identity, hlj, if_false]; ring
    simp only [h1, Finset.sum_sub_distrib, ← Finset.mul_sum, ha']
    rw [Finset.sum_ite_eq (Finset.range n) l (fun j => dg.coeff j)]
    simp only [Finset.mem_range, hl, if_true]
    field_simp
  rw [sum_sum_mul_add (Finset.range n) (Finset.range H.cols)]
  have hzero : ∑ l ∈ Finset.range H.cols,
      (∑ k ∈ Finset.range n,
          ((identity n n).coeff i k - dx.coeff i * dg.coeff k / a) * H.coeff k l)
        * ∑ j ∈ Finset.range n,
            ((identity n n).coeff l j - dg.coeff l * dx.coeff j / a) * dg.coeff j = 0 := by
    apply Finset.sum_eq_zero
    intro l hl
    have hl : l < n := by rw [← hH]; exact Finset.mem_range.mp hl
    rw [hright l hl, mul_zero]
  rw [hzero, zero_add]
  have h2 : ∀ j, dx.coeff i * dx.coeff j / a * dg.coeff j
      = dx.coeff i / a * (dx.coeff j * dg.coeff j) := by
    intro j; ring
  simp only [h2, ← Finset.mul_sum, ha']
  field_simp

theorem bfgsCall_update (s : BfgsState) (x g : Vector) (h : s.x0.rows ≠ 0) (i j : Nat) :
    (bfgsCall s x g).1.coeff i j
      = (∑ l ∈ Finset.range s.H.cols,
            (∑ k ∈ Finset.range x.rows,
                ((identity x.rows x.rows).coeff i k
                    - (x.coeff i - s.x0.coeff i) * (g.coeff k - s.g0.coeff k)
                      / ∑ j ∈ Finset.range x.rows,
                          (x.coeff j - s.x0.coeff j) * (g.coeff j - s.g0.coeff j))
                  * s.H.coeff k l)
              * ((identity x.rows x.rows).coeff l j
                  - (g.coeff l - s.g0.coeff l) * (x.coeff j - s.x0.coeff j)
                    / ∑ j ∈ Finset.range x.rows,
                        (x.coeff j - s.x0.coeff j) * (g.coeff j - s.g0.coeff j)))
          + (x.coeff i - s.x0.coeff i) * (x.coeff j - s.x0.coeff j)
            / ∑ j ∈ Finset.range x.rows,
                (x.coeff j - s.x0.coeff j) * (g.coeff j - s.g0.coeff j) := by
  unfold bfgsCall
  rw [if_neg h]
  rfl

/-- Claim C38: the first call of the closure returns `diag(x)` and records `(x, g)`; and
whatever calls came before, when a call with `(x0, g0)` is followed by a call with `(x, g)`
of the same length such that `(x - x0).(g - g0)` is non-zero, the matrix `H` returned by the
second satisfies the secant equation `H * (g - g0) = x - x0`. -/
theorem bfgs_secant :
    (∀ x g : Vector, (bfgsCall bfgsInit x g).1 = diag x ∧
      (bfgsCall bfgsInit x g).2.x0 = x ∧ (bfgsCall bfgsInit x g).2.g0 = g) ∧
    (∀ (s : BfgsState) (x0 g0 x g : Vector), x.rows = x0.rows →
      (∑ j ∈ Finset.range x.rows, (x.coeff j - x0.coeff j) * (g.coeff j - g0.coeff j)) ≠ 0 →
      ∀ i, i < x.rows →
        ∑ j ∈ Finset.range x.rows,
            (bfgsCall (bfgsCall s x0 g0).2 x g).1.coeff i j * (g.coeff j - g0.coeff j)
          = x.coeff i - x0.coeff i) := by
  constructor
  · intro x g
    exact ⟨rfl, rfl, rfl⟩
  · intro s x0 g0 x g hlen ha i _
    have hne : x0.rows ≠ 0 := by
      intro h0
      rw [hlen, h0] at ha
      exact ha (by simp)
    obtain ⟨h1, h2, h3, h4⟩ := bfgsCall_records s x0 g0
    have hcols : (bfgsCall s x0 g0).2.H.cols = x.rows := by rw [h3, h4, hlen]
    have hx0 : (bfgsCall s x0 g0).2.x0.rows ≠ 0 := by rw [h1]; exact hne
    have := bfgs_update_secant (bfgsCall s x0 g0).2.H ⟨x.rows, fun i => x.coeff i - x0.coeff i⟩
      ⟨g.rows, fun i => g.coeff i - g0.coeff i⟩ x.rows hcols ha i
    simp only [bfgsCall_update _ x g hx0, h1, h2]
    exact this

theorem bfgs_example :
    (List.range 2).map (fun i => (List.range 2).map (fun k =>
      (bfgsCall (bfgsCall bfgsInit (Vector.ofList [1, 2]) (Vector.ofList [1, 1])).2
        (Vector.ofList [2, 4]) (Vector.ofList [2, 0])).1.coeff i k))
      = [[5, 4], [4, 2]] := by
  decide!

/-! ## `farey` on the fractions it is meant for -/

theorem fareyLoop_interior (p q : Int) (n : Nat) (hq : 0 < q) (hqn : q ≤ n)
    (hcop : ∀ u : Int, 0 < u → u ∣ p → u ∣ q → u = 1) :
    ∀ (fuel : Nat) (a b c d : Int), 0 < b → 0 < d → b * c - a * d = 1 →
      0 < p * b - a * q → 0 < c * q - p * d →
      (p * b - a * q) + (c * q - p * d) ≤ fuel →
      fareyLoop ((p : ℚ) / (q : ℚ)) n fuel a b c d = (p, q) := by
  intro fuel
  induction fuel with
  | zero =>
    intro a b c d _ _ _ hu hv hf
    omega
  | succ fuel ih =>
    intro a b c d hb hd hdet hu hv hf
    have hf1 : (p * b - a * q) + (c * q - p * d) ≤ (fuel : Int) + 1 := by
      push_cast at hf; exact hf
    -- q = b * v + d * u and p = a * v + c * u
    have hqe : q = b * (c * q - p * d) + d * (p * b - a * q) := by
      have : q = q * (b * c - a * d) := by rw [hdet, mul_one]
      linear_combination this
    have hpe : p = a * (c * q - p * d) + c * (p * b - a * q) := by
      have : p = p * (b * c - a * d) := by rw [hdet, mul_one]
      linear_combination this
    have hbd : b + d ≤ q := by nlinarith
    have hbn : b ≤ (n : Int) := by omega
    have hdn : d ≤ (n : Int) := by omega
    have hbdpos : (0 : ℚ) < ((b + d : Int) : ℚ) := by exact_mod_cast (by omega : 0 < b + d)
    have hqpos : (0 : ℚ) < (q : ℚ) := by exact_mod_cast hq
    unfold fareyLoop
    simp only [hbn, hdn, and_self, if_true]
    by_cases heq : (p : ℚ) / (q : ℚ) = ((a + c : Int) : ℚ) / ((b + d : Int) : ℚ)
    · -- the mediant is reached: u = v, so u = v = 1
      simp only [heq, if_true]
      rw [div_eq_div_iff (ne_of_gt hqpos) (ne_of_gt hbdpos)] at heq
      have heqZ : p * (b + d) = (a + c) * q := by exact_mod_cast heq
      have huv : p * b - a * q = c * q - p * d := by linarith
      have hu1 : p * b - a * q = 1 := by
        apply hcop _ hu
        · exact ⟨a + c, by rw [← huv] at hpe; linear_combination hpe⟩
        · exact ⟨b + d, by rw [← huv] at hqe; linear_combination hqe⟩
      have hv1 : c * q - p * d = 1 := by rw [← huv]; exact hu1
      have hq2 : q = b + d := by rw [hv1, hu1] at hqe; linarith
      have hp2 : p = a + c := by rw [hv1, hu1] at hpe; linarith
      have hle : b + d ≤ (n : Int) := by omega
      simp only [hle, if_true]
      rw [hq2, hp2]
    · simp only [heq, if_false]
      by_cases hgt : (p : ℚ) / (q : ℚ) > ((a + c : Int) : ℚ) / ((b + d : Int) : ℚ)
      · simp only [hgt, if_true]
        rw [gt_iff_lt, div_lt_div_iff₀ hbdpos hqpos] at hgt
        have hgtZ : (a + c) * q < p * (b + d) := by exact_mod_cast hgt
        apply ih (a + c) (b + d) c d (by omega) hd
        · linear_combination hdet
        · linarith
        · exact hv
        · linarith
      · simp only [hgt, if_false]
        have hlt : (p : ℚ) / (q : ℚ) < ((a + c : Int) : ℚ) / ((b + d : Int) : ℚ) :=
          lt_of_le_of_ne (not_lt.mp hgt) heq
        rw [div_lt_div_iff₀ hqpos hbdpos] at hlt
        have hltZ : p * (b + d) < (a + c) * q := by exact_mod_cast hlt
        apply ih a b (a + c) (b + d) hb (by omega)
        · linear_combination hdet
        · exact hu
        · linarith
        · linarith

theorem fareyLoop_zero (n : Nat) (hn : 1 ≤ n) :
    ∀ (fuel : Nat) (d : Int), 0 < d → d ≤ (n : Int) + 1 → (n : Int) + 1 - d < fuel →
      fareyLoop 0 n fuel 0 1 1 d = (0, 1) := by
  intro fuel
  induction fuel with
  | zero => intro d _ _ hf; omega
  | succ fuel ih =>
    intro d hd hdle hf
    unfold fareyLoop
    by_cases hdn : d ≤ (n : Int)
    · have h1 : (1 : Int) ≤ (n : Int) := by omega
      simp only [h1, hdn, and_self, if_true]
      have hpos : (0 : ℚ) < (((1 : Int) + d : Int) : ℚ) := by exact_mod_cast (by omega : 0 < 1 + d)
      have hmed : (0 : ℚ) < (((0 : Int) + 1 : Int) : ℚ) / (((1 : Int) + d : Int) : ℚ) := by
        apply div_pos _ hpos
        norm_num
      have hne : ¬ (0 : ℚ) = (((0 : Int) + 1 : Int) : ℚ) / (((1 : Int) + d : Int) : ℚ) :=
        ne_of_lt hmed
      have hng : ¬ (0 : ℚ) > (((0 : Int) + 1 : Int) : ℚ) / (((1 : Int) + d : Int) : ℚ) :=
        not_lt.mpr (le_of_lt hmed)
      simp only [hne, hng, if_false]
      have := ih (1 + d) (by omega) (by omega) (by push_cast at hf; omega)
      simpa using this
    · have h2 : ¬ ((1 : Int) ≤ (n : Int) ∧ d ≤ (n : Int)) := fun h => hdn h.2
      simp only [h2, if_false]
      by_cases h3 : (1 : Int) > (n : Int)
      · omega
      · simp only [h3, if_false]

theorem fareyLoop_one (n : Nat) (hn : 1 ≤ n) :
    ∀ (fuel : Nat) (b : Int), 0 < b → b ≤ (n : Int) + 1 → (n : Int) + 1 - b < fuel →
      fareyLoop 1 n fuel (b - 1) b 1 1 = (1, 1) := by
  intro fuel
  induction fuel with
  | zero => intro b _ _ hf; omega
  | succ fuel ih =>
    intro b hb hble hf
    unfold fareyLoop
    by_cases hbn : b ≤ (n : Int)
    · have h1 : (1 : Int) ≤ (n : Int) := by omega
      simp only [h1, hbn, and_self, if_true]
      have hpos : (0 : ℚ) < ((b + 1 : Int) : ℚ) := by exact_mod_cast (by omega : 0 < b + 1)
      have hmed : (((b - 1 + 1 : Int) : ℚ)) / ((b + 1 : Int) : ℚ) < 1 := by
        rw [div_lt_one hpos]
        exact_mod_cast (by omega : b - 1 + 1 < b + 1)
      have hne : ¬ (1 : ℚ) = (((b - 1 + 1 : Int) : ℚ)) / ((b + 1 : Int) : ℚ) :=
        fun h => absurd hmed (by rw [← h]; exact lt_irrefl _)
      simp only [hne, if_false, gt_iff_lt, hmed, if_true]
      have := ih (b + 1) (by omega) (by omega) (by push_cast at hf; omega)
      simpa using this
    · have h2 : ¬ (b ≤ (n : Int) ∧ (1 : Int) ≤ (n : Int)) := fun h => hbn h.1
      simp only [h2, if_false]
      have h3 : b > (n : Int) := by omega
      simp only [h3, if_true]

/-- Claim C37: for a fraction `p/q` in lowest terms with `0 ≤ p ≤ q` and `1 ≤ q ≤ n`,
`farey(p/q, n)` returns the pair `(p, q)`; this includes `0 = 0/1` and `1 = 1/1`. -/
theorem farey_exact (p q n : Nat) (hq : 1 ≤ q) (hpq : p ≤ q) (hqn : q ≤ n)
    (hcop : Nat.Coprime p q) :
    farey ((p : ℚ) / (q : ℚ)) n = ((p : Int), (q : Int)) := by
  unfold farey
  by_cases hp0 : p = 0
  · subst hp0
    have hq1 : q = 1 := by simpa using hcop
    subst hq1
    simp only [Nat.cast_zero, zero_div, Nat.cast_one]
    exact fareyLoop_zero n hqn (2 * n + 2) 1 (by norm_num) (by omega) (by push_cast; omega)
  · by_cases hpq' : p = q
    · subst hpq'
      have hp1 : p = 1 := by simpa using hcop
      subst hp1
      simp only [Nat.cast_one, div_one]
      have := fareyLoop_one n hqn (2 * n + 2) 1 (by norm_num) (by omega) (by push_cast; omega)
      simpa using this
    · have hlt : p < q := lt_of_le_of_ne hpq hpq'
      have h := fareyLoop_interior (p : Int) (q : Int) n (by exact_mod_cast hq)
        (by exact_mod_cast hqn)
        (by
          intro u hu hup huq
          have hg : Int.gcd (p : Int) (q : Int) = 1 := by
            rw [Int.gcd_natCast_natCast]; exact hcop
          have h1 : u ∣ ((Int.gcd (p : Int) (q : Int) : Nat) : Int) := Int.dvd_gcd hup huq
          rw [hg] at h1
          exact Int.eq_one_of_dvd_one (le_of_lt hu) h1)
        (2 * n + 2) 0 1 1 1 (by norm_num) (by norm_num) (by norm_num)
        (by simp; omega) (by simp; omega) (by simp; omega)
      simpa using h

/-- Witness of `farey_exact`: `farey(3/8, 10)` returns `(3, 8)`. -/
theorem farey_exact_witness :
    farey (((3 : Nat) : ℚ) / ((8 : Nat) : ℚ)) 10 = (((3 : Nat) : Int), ((8 : Nat) : Int)) :=
  farey_exact 3 8 10 (by decide) (by decide) (by decide) (by norm_num)

end Optima
